import Mathlib

/-!
# ActorTimer_ : a shallow embedding of `common_code/actor_timer.cpp`

The timer of one strand keeps an ordered table from quantized deadlines to
buckets of waiting actors, drives one OS timer, and stamps every wait it
arms with a counter so that a completion can tell whether it is still the
authoritative one.

Conventions of the embedding

* `unsigned long long` values are `Nat` with an explicit `% 2 ^ 64`;
  the counter `_timerCount` is an `Int` (wrap-around at 32 bits is not modelled).
* `handler_list` is a shared pointer to a list object: buckets live in
  `heap` and are referred to by their position in it.  A bucket taken from
  the pool is a fresh reference; references are never reused here because
  the pool only recycles an object nobody refers to any more.
* A `std::list` iterator is stable under the insertion and removal of other
  nodes, so each list node carries an identity `id` (allocated from
  `nextNode`) and an iterator is that identity.
* A `std::map` iterator designates the entry of one key, so a table
  iterator is that key.
* The OS timer is the list `waits` of completions that were armed and have
  not run yet, in the order they were armed.  Cancelling a wait marks it
  aborted; its completion is still delivered.
* `trace` is an observation log (what was scheduled, armed and fired, in
  order); the code never reads it.
* Assertions are not executed (release build); they are stated as
  predicates where a claim needs them.
-/

namespace ActorTimer

/-- Two to the 64: the modulus of `unsigned long long`. -/
def U64 : Nat := 2 ^ 64

/-- The value `(unsigned long long)-1`. -/
def UINT64_MAX : Nat := 2 ^ 64 - 1

/-- One node of a `msg_list<actor_handle>`: `host` is the actor, `id` the identity
of the node, which is what a list iterator designates. -/
structure Node where
  id : Nat
  host : Nat
deriving DecidableEq, Repr

/-- The `timer_handle` of `actor_timer.cpp`: a shared reference to the bucket
(`none` is the null pointer), the list iterator of the node, and the table
iterator of the bucket. -/
structure timer_handle where
  handlerList : Option Nat
  handlerNode : Nat
  tableNode : Nat
deriving DecidableEq, Repr

/-- One outstanding `async_wait`: the stamp `tc` captured by the completion,
the duration it was armed with, and whether it has been cancelled since. -/
structure Wait where
  tc : Int
  us : Nat
  aborted : Bool
deriving DecidableEq, Repr

/-- Observable events, in the order they happen. -/
inductive Ev where
  | sched (key : Nat) (n : Node)
  | arm (us : Nat) (tc : Int)
  | fire (n : Node)
deriving DecidableEq, Repr

/-- Where the strand is inside the completion handler.
`idle`: no completion is running.
`loop nt`: at the head of `while (!_handlerTable.empty())`, `nt` sampled.
`firing nt hl it`: inside `(*it)->timeout_handler()` for the iterator `it`
of the detached bucket `hl`. -/
inductive Phase where
  | idle
  | loop (nt : Nat)
  | firing (nt : Nat) (hl : Nat) (it : Nat)
deriving DecidableEq, Repr

/-- The fields of `ActorTimer_` together with the heap of buckets, the OS timer
and the observation log. -/
structure State where
  handlerTable : List (Nat × Nat)
  heap : List (List Node)
  nextNode : Nat
  extMaxTick : Nat
  extFinishTime : Nat
  timerCount : Int
  looping : Bool
  strand : Bool
  waits : List Wait
  phase : Phase
  trace : List Ev
deriving DecidableEq, Repr

/-- The constructor `ActorTimer_::ActorTimer_`: `_looping(false)`, `_timerCount(0)`,
`_extMaxTick(-1)`, `_extFinishTime(-1)`, an empty table and no strong strand. -/
def init : State :=
  { handlerTable := [], heap := [], nextNode := 0,
    extMaxTick := UINT64_MAX, extFinishTime := UINT64_MAX,
    timerCount := 0, looping := false, strand := false,
    waits := [], phase := Phase.idle, trace := [] }

/-- The assertions of the destructor `~ActorTimer_`:
`assert(_handlerTable.empty()); assert(!_strand);`. -/
def destructor_asserts (s : State) : Prop :=
  s.handlerTable = [] ∧ s.strand = false

/-- The deadline of `timeout`: `(get_tick_us() + us) & -256` in `unsigned long long`. -/
def quantize (now us : Nat) : Nat :=
  ((now + us) % U64) &&& (U64 - 256)

/-- The value `_handlerTable.find(key)->second`, if the key is present. -/
def tableFind (key : Nat) : List (Nat × Nat) → Option Nat
  | [] => none
  | (k, b) :: rest => if k = key then some b else tableFind key rest

/-- The map operation `_handlerTable.insert(make_pair(key, hl))` on a table that
does not hold `key`: the entry goes before the first larger key. -/
def tableInsert (key hl : Nat) : List (Nat × Nat) → List (Nat × Nat)
  | [] => [(key, hl)]
  | (k, b) :: rest =>
    if key < k then (key, hl) :: (k, b) :: rest
    else (k, b) :: tableInsert key hl rest

/-- The map operation `_handlerTable.erase(iterator)`, the iterator being a key. -/
def tableErase (key : Nat) (t : List (Nat × Nat)) : List (Nat × Nat) :=
  t.filter (fun e => e.1 ≠ key)

/-- The key reached by `--iterator` from the entry of `key`: the entry just
before it in ascending order.  Decrementing `begin()` is undefined in C++;
the iterator then stays where it is. -/
def tablePred (key : Nat) : List (Nat × Nat) → Nat
  | [] => key
  | [_] => key
  | (k1, _) :: (k2, b2) :: rest =>
    if k2 = key then k1 else tablePred key ((k2, b2) :: rest)

/-- The bucket object behind a reference. -/
def bucket (s : State) (hl : Nat) : List Node :=
  s.heap.getD hl []

/-- The OS timer call `cancel(ec)`: every outstanding wait is aborted; its completion
still runs. -/
def os_cancel (ws : List Wait) : List Wait :=
  ws.map (fun w => { w with aborted := true })

/-- The member `ActorTimer_::timer_loop(us)` up to `async_wait`: `tc = ++_timerCount`,
`expires_from_now` (which aborts an outstanding wait) and a new wait stamped `tc`. -/
def timer_loop (us : Nat) (s : State) : State :=
  let tc := s.timerCount + 1
  { s with timerCount := tc,
           waits := os_cancel s.waits ++ [{ tc := tc, us := us, aborted := false }],
           trace := s.trace ++ [Ev.arm us tc] }

/-- Lines 28-31 of `timeout`: `if (!_strand) _strand = _weakStrand.lock();`
(the call runs on the strand, so the strand is alive and the lock succeeds). -/
def lock_strand (s : State) : State :=
  if s.strand then s else { s with strand := true }

/-- Lines 36-50 of `timeout`: the slot of key `et` and its bucket.  Both branches on
`et >= _extMaxTick` insert the key if it is absent (the hint of the first one
only affects speed) and return the entry of the key; a fresh slot holds a null
list and gets a bucket from the pool. -/
def insert_slot (et : Nat) (s : State) : State × Nat :=
  let s2 : State := if et ≥ s.extMaxTick then { s with extMaxTick := et } else s
  match tableFind et s2.handlerTable with
  | some b => (s2, b)
  | none =>
    ({ s2 with handlerTable := tableInsert et s2.heap.length s2.handlerTable,
               heap := s2.heap ++ [[]] }, s2.heap.length)

/-- Lines 51-53 of `timeout`: `hl->push_front(host)`; the new node is `hl->begin()`. -/
def push_front (et hl host : Nat) (s : State) : State :=
  { s with heap := s.heap.set hl ({ id := s.nextNode, host := host } :: s.heap.getD hl []),
           nextNode := s.nextNode + 1,
           trace := s.trace ++ [Ev.sched et { id := s.nextNode, host := host }] }

/-- Lines 55-69 of `timeout`: start the timer if it is not looping, rearm it if the
new deadline is before the one it is armed for, otherwise leave it. -/
def rearm (et us : Nat) (s : State) : State :=
  if !s.looping then
    timer_loop us { s with looping := true, extFinishTime := et }
  else if et < s.extFinishTime then
    timer_loop us { s with waits := os_cancel s.waits,
                           timerCount := s.timerCount + 1,
                           extFinishTime := et }
  else s

/-- The member `ActorTimer_::timeout(us, host)`, the clock reading `now` being the
value of `get_tick_us()`. -/
def timeout (now us host : Nat) (s : State) : State × timer_handle :=
  let et := quantize now us
  let r := insert_slot et (lock_strand s)
  let s4 := push_front et r.2 host r.1
  (rearm et us s4, { handlerList := some r.2, handlerNode := r.1.nextNode, tableNode := et })

/-- The member `ActorTimer_::cancel(th)`; the handle is passed by reference, so the
handle as the call leaves it is returned too. -/
def cancel (th : timer_handle) (s : State) : State × timer_handle :=
  match th.handlerList with
  | none => (s, th)
  | some hl =>
    let l := (bucket s hl).filter (fun n => n.id ≠ th.handlerNode)
    let s1 : State := { s with heap := s.heap.set hl l }
    if l.isEmpty then
      if s1.handlerTable.length = 1 then
        ({ s1 with extMaxTick := UINT64_MAX,
                   handlerTable := tableErase th.tableNode s1.handlerTable,
                   waits := os_cancel s1.waits,
                   timerCount := s1.timerCount + 1,
                   looping := false },
         { th with handlerList := none })
      else if th.tableNode = s1.extMaxTick then
        let p := tablePred th.tableNode s1.handlerTable
        ({ s1 with handlerTable := tableErase th.tableNode s1.handlerTable,
                   extMaxTick := p },
         { th with handlerList := none, tableNode := p })
      else
        ({ s1 with handlerTable := tableErase th.tableNode s1.handlerTable },
         { th with handlerList := none })
    else
      (s1, { th with handlerList := none })

/-- The node `++it` reaches from the node `it` of a list, `none` being `end()`. -/
def nodeAfter (it : Nat) : List Node → Option Node
  | [] => none
  | n :: rest => if n.id = it then rest.head? else nodeAfter it rest

/-- The completion passed to `async_wait`, up to the `while`: a completion whose
stamp is the current counter is authoritative, sets `_extFinishTime = 0`, reads
the clock and enters the loop; one whose stamp is one behind releases the
strand; any other does nothing. -/
def completion (tc : Int) (now : Nat) (s : State) : State :=
  if tc = s.timerCount then
    { s with extFinishTime := 0, phase := Phase.loop (now % U64) }
  else if tc = s.timerCount - 1 then
    { s with strand := false }
  else s

/-- One turn of `while (!_handlerTable.empty())` up to the first call of
`timeout_handler`: leave when the table is empty, rearm when the first key is
more than 500 past `nt`, otherwise detach the first bucket and start firing it. -/
def loop_step (nt : Nat) (s : State) : State :=
  match s.handlerTable with
  | [] => { s with looping := false, strand := false, phase := Phase.idle }
  | (key, hl) :: rest =>
    if key > (nt + 500) % U64 then
      timer_loop ((key + U64 - nt) % U64) { s with extFinishTime := key, phase := Phase.idle }
    else
      let s1 : State := { s with handlerTable := rest }
      match bucket s1 hl with
      | [] => { s1 with heap := s1.heap.set hl [], phase := Phase.loop nt }
      | n :: _ => { s1 with phase := Phase.firing nt hl n.id, trace := s1.trace ++ [Ev.fire n] }

/-- The return of `timeout_handler` for the node `it` of the detached bucket `hl`:
`it++`, then either the next call or, at `end()`, `hl->clear()` and back to
the head of the `while`. -/
def handler_return (nt hl it : Nat) (s : State) : State :=
  match nodeAfter it (bucket s hl) with
  | some n => { s with phase := Phase.firing nt hl n.id, trace := s.trace ++ [Ev.fire n] }
  | none => { s with heap := s.heap.set hl [], phase := Phase.loop nt }

/-- One step of a running completion whose handlers return without calling the timer. -/
def sweep_step (s : State) : State :=
  match s.phase with
  | Phase.idle => s
  | Phase.loop nt => loop_step nt s
  | Phase.firing nt hl it => handler_return nt hl it s

/-- Runs a completion to its end (`fuel` bounds the number of steps), the handlers
returning without calling the timer. -/
def sweep : Nat → State → State
  | 0, s => s
  | fuel + 1, s => if s.phase = Phase.idle then s else sweep fuel (sweep_step s)

/-- Delivery of the oldest outstanding completion at clock reading `now`, run to
its end with handlers that do not call the timer. -/
def on_fire (fuel now : Nat) (s : State) : State :=
  match s.waits with
  | [] => s
  | w :: ws => sweep fuel (completion w.tc now { s with waits := ws })

/-- The range assertion of `timeout`: `assert(us < 0x80000000LL * 1000)`. -/
def us_in_range (us : Nat) : Prop := us < 0x80000000 * 1000

/-- Whether `timeout` and `cancel` can be entered: from the strand when no
completion runs, or from inside a `timeout_handler`. -/
def callable : Phase → Bool
  | Phase.idle => true
  | Phase.loop _ => false
  | Phase.firing _ _ _ => true

/-- A handle that `cancel` may be given: its node is still in its bucket, and
either the bucket is in the table under the key of the handle, or it is the
detached bucket being fired and the node is not the one whose handler runs. -/
def LiveHandle (s : State) (th : timer_handle) : Prop :=
  ∃ hl host, th.handlerList = some hl ∧
    (⟨th.handlerNode, host⟩ : Node) ∈ bucket s hl ∧
    ((th.tableNode, hl) ∈ s.handlerTable ∨
      ∃ nt it, s.phase = Phase.firing nt hl it ∧ it ≠ th.handlerNode)

/-- One atomic step of the timer on its strand. -/
inductive Step : State → State → Prop
  | schedule (s : State) (now us host : Nat) :
      callable s.phase = true → us_in_range us → Step s (timeout now us host s).1
  | cancel (s : State) (th : timer_handle) :
      callable s.phase = true → LiveHandle s th → Step s (cancel th s).1
  | deliver (s : State) (w : Wait) (ws : List Wait) (now : Nat) :
      s.phase = Phase.idle → s.waits = w :: ws →
      Step s (completion w.tc now { s with waits := ws })
  | loop (s : State) (nt : Nat) :
      s.phase = Phase.loop nt → Step s (loop_step nt s)
  | ret (s : State) (nt hl it : Nat) :
      s.phase = Phase.firing nt hl it → Step s (handler_return nt hl it s)

/-- The states the timer can be in: those reached from the constructed timer. -/
def Reachable (s : State) : Prop := Relation.ReflTransGen Step init s

/-- Keys in strictly ascending order: the invariant of `std::map`. -/
def Sorted (t : List (Nat × Nat)) : Prop := t.Pairwise (fun a b => a.1 < b.1)

/-- Structural well-formedness of a timer state: the table is sorted by key, its
bucket references are allocated and pairwise distinct, node identities are
allocated and unique, and a bucket being fired is detached from the table and
holds the node whose handler runs. -/
structure WF (s : State) : Prop where
  sorted : Sorted s.handlerTable
  refs_lt : ∀ e ∈ s.handlerTable, e.2 < s.heap.length
  refs_inj : ∀ k1 k2 b, (k1, b) ∈ s.handlerTable → (k2, b) ∈ s.handlerTable → k1 = k2
  ids_lt : ∀ b n, n ∈ bucket s b → n.id < s.nextNode
  ids_inj : ∀ b1 b2 n1 n2, n1 ∈ bucket s b1 → n2 ∈ bucket s b2 → n1.id = n2.id → b1 = b2
  ids_nodup : ∀ b, ((bucket s b).map Node.id).Nodup
  firing : ∀ nt hl it, s.phase = Phase.firing nt hl it →
    (∀ k, (k, hl) ∉ s.handlerTable) ∧ ∃ host, (⟨it, host⟩ : Node) ∈ bucket s hl

/-- Whether `cancel` finds the bucket empty after erasing the node. -/
def empties (th : timer_handle) (s : State) : Bool :=
  match th.handlerList with
  | none => false
  | some hl => ((bucket s hl).filter (fun n => n.id ≠ th.handlerNode)).isEmpty

/-- The nodes whose `timeout_handler` a trace invokes, in order. -/
def fired (tr : List Ev) : List Node :=
  tr.filterMap (fun e => match e with | Ev.fire n => some n | _ => none)

/-- The stamps of the waits a trace arms, in order. -/
def armStamps (tr : List Ev) : List Int :=
  tr.filterMap (fun e => match e with | Ev.arm _ tc => some tc | _ => none)

/-- The identities of the nodes a trace schedules, in order. -/
def schedIds (tr : List Ev) : List Nat :=
  tr.filterMap (fun e => match e with | Ev.sched _ n => some n.id | _ => none)

/-- Scenario 4 of the specification, clock fixed at 0: `schedule(1000, A)` (actor 1)
followed by `schedule(1100, B)` (actor 2). -/
def scenario_batching : State :=
  (timeout 0 1100 2 (timeout 0 1000 1 init).1).1

/-- Two actors scheduled one after the other into one quantum, clock fixed at 0:
`schedule(1000, A)` (actor 1) followed by `schedule(1010, B)` (actor 2). -/
def scenario_same_quantum : State :=
  (timeout 0 1010 2 (timeout 0 1000 1 init).1).1

/-- Whether the bucket of key `k` is fired by a sweep that read the clock as `nt`:
the negation of the test `iter->first > nt + 500` of the loop. -/
def due (nt k : Nat) : Bool := !decide (k > (nt + 500) % U64)

/-- Scenario of two actors in one quantum, at the loop head of the completion of the
armed wait, run at clock 1000. -/
def scenario_same_quantum_sweep : State :=
  completion 1 1000 { scenario_same_quantum with waits := [] }

/-- Every bucket lists its nodes from the most recently scheduled to the oldest. -/
def NewestFirst (s : State) : Prop :=
  ∀ b, (bucket s b).Pairwise (fun x y => y.id < x.id)

/-- The stamp of the wait armed last among the outstanding ones. -/
def lastStamp : List Wait → Option Int
  | [] => none
  | [w] => some w.tc
  | _ :: w :: ws => lastStamp (w :: ws)

/-- What ties `looping`, the strand and the outstanding waits together.
While no completion runs: if the timer is looping, the wait armed last is
outstanding and carries the current counter; if it is not looping but still
holds the strand, the wait armed last is outstanding and carries the counter
minus one (its completion will release the strand).  And whenever the timer is
not looping, the table is empty. -/
structure Balanced (s : State) : Prop where
  armed : s.phase = Phase.idle → s.looping = true → lastStamp s.waits = some s.timerCount
  release : s.phase = Phase.idle → s.looping = false → s.strand = true →
    lastStamp s.waits = some (s.timerCount - 1)
  pending : s.looping = false → s.handlerTable = []

/-- The run that releases the strand too early, step 1: with the clock at 0,
`schedule(1000, A)` then `schedule(5000, B)`; the second component is the handle
of B. -/
def early_release_scheduled : State × timer_handle :=
  timeout 0 5000 2 (timeout 0 1000 1 init).1

/-- Step 2: the completion of the first wait (stamp 1) runs at clock 1000 and enters
the handler of A. -/
def early_release_in_handler : State :=
  loop_step 1000 (completion 1 1000 { early_release_scheduled.1 with waits := [] })

/-- Step 3: from inside its handler, A cancels the handle of B (which empties the
table and stops the looping) and calls `schedule(9000, C)`, which arms a wait
stamped 3. -/
def early_release_reentered : State :=
  (timeout 1000 9000 3 (cancel early_release_scheduled.2 early_release_in_handler).1).1

/-- Step 4: the handler of A returns and the sweep, finding the key of C too far
ahead, rearms the timer: a wait stamped 4, which supersedes the wait stamped 3. -/
def early_release_rearmed : State :=
  loop_step 1000 (handler_return 1000 0 0 early_release_reentered)

/-- Step 5: the completion of the superseded wait (stamp 3) is delivered. -/
def early_release_final : State :=
  completion 3 1000 { early_release_rearmed with waits := [⟨4, 8984, false⟩] }

/-- How the buckets relate to what was scheduled: a node of the bucket of key `k`
was scheduled with key `k`; every node of a bucket was scheduled; and a bucket
that holds a node is in the table or is the detached bucket being fired. -/
structure Keyed (s : State) : Prop where
  table : ∀ k b n, (k, b) ∈ s.handlerTable → n ∈ bucket s b → Ev.sched k n ∈ s.trace
  any : ∀ b n, n ∈ bucket s b → ∃ k, Ev.sched k n ∈ s.trace
  tidy : ∀ b n, n ∈ bucket s b →
    (∃ k, (k, b) ∈ s.handlerTable) ∨ (∃ nt it, s.phase = Phase.firing nt b it)

/-- The runs of claim C3: `timeout` calls made from the strand while no completion
runs, and completions whose handlers return without calling the timer, under
clock readings that never decrease; no `cancel`.  `QuietRun c s` says that `s`
is reached by such a run whose last clock reading is `c`. -/
inductive QuietRun : Nat → State → Prop
  | start : QuietRun 0 init
  | schedule (c : Nat) (s : State) (now us host : Nat) :
      QuietRun c s → s.phase = Phase.idle → c ≤ now → us_in_range us →
      QuietRun now (timeout now us host s).1
  | deliver (c : Nat) (s : State) (w : Wait) (ws : List Wait) (now : Nat) :
      QuietRun c s → s.phase = Phase.idle → s.waits = w :: ws → c ≤ now →
      QuietRun now (completion w.tc now { s with waits := ws })
  | loop (c : Nat) (s : State) (nt : Nat) :
      QuietRun c s → s.phase = Phase.loop nt → QuietRun c (loop_step nt s)
  | ret (c : Nat) (s : State) (nt hl it : Nat) :
      QuietRun c s → s.phase = Phase.firing nt hl it →
      QuietRun c (handler_return nt hl it s)

/-- The order of firing in a quiet run.  While a bucket is being fired, all its
nodes were scheduled with one key, smaller than every key of the table.  A
handler invoked after a node was scheduled has a key at most the key of that
node, as long as the node is in a bucket (`pending`) and when the node is fired
afterwards (`fired`). -/
structure Ordered (s : State) : Prop where
  firing : ∀ nt hl it, s.phase = Phase.firing nt hl it →
    ∃ kd, (∀ n ∈ bucket s hl, Ev.sched kd n ∈ s.trace) ∧ ∀ e ∈ s.handlerTable, kd < e.1
  pending : ∀ X Y kX kY b, List.Sublist [Ev.sched kY Y, Ev.fire X] s.trace →
    Ev.sched kX X ∈ s.trace → Y ∈ bucket s b → kX ≤ kY
  fired : ∀ X Y kX kY, List.Sublist [Ev.sched kY Y, Ev.fire X, Ev.fire Y] s.trace →
    Ev.sched kX X ∈ s.trace → kX ≤ kY

/-- The run that fires a later deadline first: with the clock at 0, `schedule(1000, A)`
and `schedule(1400, B)`; at clock 1000 the completion of the wait fires A and B. -/
def scenario_slack_fired : State :=
  on_fire 5 1000 (timeout 0 1400 2 (timeout 0 1000 1 init).1).1

/-- Then, still at clock 1000, `schedule(0, C)` and the completion of its wait. -/
def scenario_slack_final : State :=
  on_fire 3 1000 (timeout 1000 0 3 scenario_slack_fired).1

/-- Scenario 3 of the specification, clock fixed at 0: `schedule(3000, A)` (actor 1)
followed by `schedule(1000, B)` (actor 2). -/
def scenario_reverse : State :=
  (timeout 0 1000 2 (timeout 0 3000 1 init).1).1

/-- Scenario 3 run to its end: the completion of the cancelled first wait is delivered,
the completion of the second wait runs at clock 1000 (its expiry), and the
completion of the wait armed by that sweep runs at clock 2816 (its expiry). -/
def scenario_reverse_final : State :=
  on_fire 4 2816 (on_fire 4 1000 (on_fire 0 0 scenario_reverse))

/-- Scenario 2 of the specification, clock fixed at 0: `schedule(1000, A)` (actor 1)
followed by `schedule(3000, B)` (actor 2). -/
def scenario_in_order : State :=
  (timeout 0 3000 2 (timeout 0 1000 1 init).1).1

/-- Scenario 2 run to its end: the completion of the wait runs at clock 1000 (its
expiry) and the completion of the wait armed by that sweep at clock 2816 (its
expiry). -/
def scenario_in_order_final : State :=
  on_fire 4 2816 (on_fire 4 1000 scenario_in_order)

/-- The handler of a handle is the only handler of the only bucket of the table. -/
def sole_handler (s : State) (th : timer_handle) : Prop :=
  ∃ hl host, th.handlerList = some hl ∧ s.handlerTable = [(th.tableNode, hl)] ∧
    bucket s hl = [⟨th.handlerNode, host⟩]

/-- What holds of the table in every reachable state: every key is a multiple of 256,
no bucket of the table is empty, and `_extMaxTick` has its initial value. -/
structure TableInv (s : State) : Prop where
  aligned : ∀ e ∈ s.handlerTable, 256 ∣ e.1
  nonempty : ∀ e ∈ s.handlerTable, bucket s e.2 ≠ []
  max : s.extMaxTick = UINT64_MAX

/-! ### The object pool `ObjPool_` of `common_code/mem_pool.h`

Objects are known by their address.  The free list `_link` is the list of the
retained nodes, the most recently retained first.  `malloc` returns a fresh
address.  `lent` (the objects handed out and not yet recycled) and `log` (the
calls of `_creater` and of `_destory` followed by `free`) are observations; the
code does not read them.  The debug-only counter `_blockNumber` is left out and
the mutex plays no part in a sequence of calls. -/

/-- The modulus of `size_t` (64-bit build). -/
def SIZE_MOD : Nat := 2 ^ 64

/-- A call of `_creater` on a new node, or of `_destory` and `free` on a node. -/
inductive PoolEv where
  | create (p : Nat)
  | destroy (p : Nat)
deriving DecidableEq, Repr

/-- The fields of `ObjPool_`. -/
structure ObjPool_ where
  link : List Nat
  poolMaxSize : Nat
  nodeCount : Nat
  fresh : Nat
  lent : List Nat
  log : List PoolEv
deriving DecidableEq, Repr

/-- The constructor `ObjPool_(poolSize, creater, destory)`: `_poolMaxSize(poolSize)`,
`_nodeCount(0)`, `_link(NULL)`. -/
def ObjPool_.create (poolSize : Nat) : ObjPool_ :=
  { link := [], poolMaxSize := poolSize, nodeCount := 0, fresh := 0, lent := [], log := [] }

/-- The member `ObjPool_::pick`: with a non-null `_link`, `_nodeCount--` and the head
of the free list is returned; otherwise a node is allocated and `_creater` is
called on it. -/
def ObjPool_.pick (q : ObjPool_) : ObjPool_ × Nat :=
  match q.link with
  | r :: rest =>
    ({ q with nodeCount := (q.nodeCount + SIZE_MOD - 1) % SIZE_MOD,
              link := rest, lent := r :: q.lent }, r)
  | [] =>
    ({ q with fresh := q.fresh + 1, lent := q.fresh :: q.lent,
              log := q.log ++ [PoolEv.create q.fresh] }, q.fresh)

/-- The member `ObjPool_::recycle(p)`: with `_nodeCount < _poolMaxSize`, `_nodeCount++`
and the node goes to the head of the free list; otherwise `_destory` is called
on it and it is freed. -/
def ObjPool_.recycle (p : Nat) (q : ObjPool_) : ObjPool_ :=
  if q.nodeCount < q.poolMaxSize then
    { q with nodeCount := (q.nodeCount + 1) % SIZE_MOD, link := p :: q.link,
             lent := q.lent.erase p }
  else
    { q with lent := q.lent.erase p, log := q.log ++ [PoolEv.destroy p] }

/-- The pools reached from a pool constructed with cap `poolSize` by a sequence of
`pick` and `recycle` calls, `recycle` being given objects that are handed out. -/
inductive PoolRun (poolSize : Nat) : ObjPool_ → Prop
  | create : PoolRun poolSize (ObjPool_.create poolSize)
  | pick (q : ObjPool_) : PoolRun poolSize q → PoolRun poolSize q.pick.1
  | recycle (q : ObjPool_) (p : Nat) :
      PoolRun poolSize q → p ∈ q.lent → PoolRun poolSize (q.recycle p)

/-- What holds of a pool after every call: the counter is the length of the free
list, at most the cap; no node is both retained and handed out, or twice in
either; every node was allocated. -/
structure PoolInv (poolSize : Nat) (q : ObjPool_) : Prop where
  cap : q.poolMaxSize = poolSize
  count : q.nodeCount = q.link.length
  bound : q.link.length ≤ poolSize
  nodup : (q.link ++ q.lent).Nodup
  allocated : ∀ x ∈ q.link ++ q.lent, x < q.fresh

/-! ### Runs with the record of the cancelled nodes -/

/-- The runs of the timer together with the nodes `cancel` was called for:
`History s cs` says that `s` is reached from the constructed timer by steps whose
`cancel` calls were given the handles of the nodes `cs` (the latest first). -/
inductive History : State → List Nat → Prop
  | start : History init []
  | schedule (s : State) (cs : List Nat) (now us host : Nat) :
      History s cs → callable s.phase = true → us_in_range us →
      History (timeout now us host s).1 cs
  | cancel (s : State) (cs : List Nat) (th : timer_handle) :
      History s cs → callable s.phase = true → LiveHandle s th →
      History (cancel th s).1 (th.handlerNode :: cs)
  | deliver (s : State) (cs : List Nat) (w : Wait) (ws : List Wait) (now : Nat) :
      History s cs → s.phase = Phase.idle → s.waits = w :: ws →
      History (completion w.tc now { s with waits := ws }) cs
  | loop (s : State) (cs : List Nat) (nt : Nat) :
      History s cs → s.phase = Phase.loop nt → History (loop_step nt s) cs
  | ret (s : State) (cs : List Nat) (nt hl it : Nat) :
      History s cs → s.phase = Phase.firing nt hl it →
      History (handler_return nt hl it s) cs

/-- While a bucket is being fired, its nodes from the front down to the node whose
handler runs have had their handler invoked. -/
def Passed (s : State) : Prop :=
  ∀ nt hl it, s.phase = Phase.firing nt hl it →
    ∀ n ∈ bucket s hl, it ≤ n.id → Ev.fire n ∈ s.trace

/-- A node whose handler was invoked is in no bucket but the one being fired. -/
def Unfired (s : State) : Prop :=
  ∀ n b, Ev.fire n ∈ s.trace → n ∈ bucket s b → ∃ nt it, s.phase = Phase.firing nt b it

/-- Where a scheduled node is: in the bucket of its key in the table, or fired, or
cancelled, or in the detached bucket being fired. -/
def Placed (s : State) (cs : List Nat) : Prop :=
  ∀ k n, Ev.sched k n ∈ s.trace →
    (∃ b, (k, b) ∈ s.handlerTable ∧ n ∈ bucket s b) ∨ Ev.fire n ∈ s.trace ∨ n.id ∈ cs ∨
    (∃ nt hl it, s.phase = Phase.firing nt hl it ∧ n ∈ bucket s hl)

/-- Two actors in one quantum (`scenario_same_quantum`); the completion of the wait
runs at clock 1000 and enters the handler of B, which calls `schedule(0, C)`
(actor 3) at clock 1000: the key of C is 768, the key A and B were scheduled
with. -/
def scenario_reentrant_same_key : State :=
  (timeout 1000 0 3 (loop_step 1000 scenario_same_quantum_sweep)).1

/-- With the clock at 0, `schedule(1000, A)` and `schedule(1010, B)`, then `cancel` of
the handle of A. -/
def scenario_cancel_first : State :=
  (cancel (timeout 0 1000 1 init).2 scenario_same_quantum).1

/-! ### Sweeps whose handlers call the timer -/

/-- The states of a sweep that read the clock as `nt`, from the start of the
authoritative completion on, as long as no handler of the sweep has cancelled
the only handler the index holds: the handlers may call `timeout`, and `cancel`
for a handle that is not the sole handler of the index. -/
inductive Sweeping (nt : Nat) : State → Prop
  | start (s : State) (w : Wait) (ws : List Wait) (now : Nat) :
      Reachable s → s.phase = Phase.idle → s.waits = w :: ws → w.tc = s.timerCount →
      now % U64 = nt → Sweeping nt (completion w.tc now { s with waits := ws })
  | loop (s : State) :
      Sweeping nt s → s.phase = Phase.loop nt → Sweeping nt (loop_step nt s)
  | ret (s : State) (hl it : Nat) :
      Sweeping nt s → s.phase = Phase.firing nt hl it →
      Sweeping nt (handler_return nt hl it s)
  | schedule (s : State) (hl it now us host : Nat) :
      Sweeping nt s → s.phase = Phase.firing nt hl it → us_in_range us →
      Sweeping nt (timeout now us host s).1
  | cancel (s : State) (hl it : Nat) (th : timer_handle) :
      Sweeping nt s → s.phase = Phase.firing nt hl it → LiveHandle s th →
      ¬ sole_handler s th → Sweeping nt (cancel th s).1

/-- Scenario 6 of the specification: with the clock at 0, `schedule(1000, A)`
(actor 1); the completion of the wait runs at clock 1000 and enters the handler
of A, which calls `schedule(500, B)` (actor 2).  The second component is the
handle of B. -/
def scenario_reentrant_scheduled : State × timer_handle :=
  timeout 1000 500 2
    (loop_step 1000 (completion 1 1000 { (timeout 0 1000 1 init).1 with waits := [] }))

/-- Scenario 6 run to the end of the sweep, the handlers of A and B returning. -/
def scenario_reentrant_final : State :=
  sweep 4 scenario_reentrant_scheduled.1

/-- The run `schedule(1000, A); schedule(5000, D)` at clock 0; the completion of the
wait runs at clock 1000 and enters the handler of A, which calls
`schedule(500, B)` (actor 3, key 1280) and then cancels the handle of B. -/
def scenario_due_cancelled : State :=
  (cancel (timeout 1000 500 3 early_release_in_handler).2
    (timeout 1000 500 3 early_release_in_handler).1).1

/-- The end of the sweep of `scenario_due_cancelled`, the handler of A returning. -/
def scenario_due_cancelled_final : State :=
  sweep 4 scenario_due_cancelled

/-! ### The outstanding waits and the deadline the timer is armed for -/

/-- The stamps of the outstanding waits are the stamps armed last, in the order they
were armed: a completion is delivered before those of the waits armed after it. -/
def Outstanding (s : State) : Prop :=
  List.IsSuffix (s.waits.map Wait.tc) (armStamps s.trace)

/-- While the timer is looping, `_extFinishTime` is at most every key of the table. -/
def NotLate (s : State) : Prop :=
  s.looping = true → ∀ e ∈ s.handlerTable, s.extFinishTime ≤ e.1

/-- While no completion runs and the timer is looping, the wait armed last is
outstanding, carries the current counter and has not been cancelled. -/
def LiveWait (s : State) : Prop :=
  s.phase = Phase.idle → s.looping = true →
    ∃ ws w, s.waits = ws ++ [w] ∧ w.tc = s.timerCount ∧ w.aborted = false

/-! ## Arithmetic of the deadline mask -/

theorem land_mask (x : Nat) (hx : x < 2 ^ 64) : x &&& (2 ^ 64 - 256) = x / 256 * 256 := by
  apply Nat.eq_of_testBit_eq
  intro i
  have h1 : (2:Nat) ^ 64 - 256 = 2 ^ 8 * (2 ^ 56 - 1) := by norm_num
  have h2 : x / 256 * 256 = 2 ^ 8 * (x >>> 8) := by
    rw [Nat.shiftRight_eq_div_pow]; norm_num [Nat.mul_comm]
  rw [Nat.testBit_land, h1, h2, Nat.testBit_mul_pow_two, Nat.testBit_mul_pow_two,
    Nat.testBit_two_pow_sub_one, Nat.testBit_shiftRight]
  by_cases h8 : 8 ≤ i
  · by_cases h64 : i < 64
    · have : i - 8 < 56 := by omega
      have e : 8 + (i - 8) = i := by omega
      simp [h8, this, e]
    · have hf : x.testBit i = false := by
        apply Nat.testBit_lt_two_pow
        calc x < 2 ^ 64 := hx
          _ ≤ 2 ^ i := Nat.pow_le_pow_right (by norm_num) (by omega)
      have e : 8 + (i - 8) = i := by omega
      simp [hf, e]
  · simp [h8]

theorem quantize_eq (now us : Nat) : quantize now us = (now + us) % 2 ^ 64 / 256 * 256 := by
  unfold quantize U64
  exact land_mask _ (Nat.mod_lt _ (by norm_num))

/-! ## The table -/

theorem tableFind_some_mem {key b : Nat} {t : List (Nat × Nat)}
    (h : tableFind key t = some b) : (key, b) ∈ t := by
  induction t with
  | nil => simp [tableFind] at h
  | cons e rest ih =>
    obtain ⟨k, c⟩ := e
    simp only [tableFind] at h
    split at h
    · rename_i hk
      simp only [Option.some.injEq] at h
      subst hk; subst h
      exact List.mem_cons_self _ _
    · exact List.mem_cons_of_mem _ (ih h)

theorem tableFind_none_not_mem {key : Nat} {t : List (Nat × Nat)}
    (h : tableFind key t = none) (b : Nat) : (key, b) ∉ t := by
  induction t with
  | nil => simp
  | cons e rest ih =>
    obtain ⟨k, c⟩ := e
    simp only [tableFind] at h
    split at h
    · simp at h
    · rename_i hk
      intro hm
      rcases List.mem_cons.1 hm with he | hm
      · exact hk (by simpa using (congrArg Prod.fst he).symm)
      · exact ih h hm

theorem mem_tableInsert {key hl : Nat} {t : List (Nat × Nat)} {e : Nat × Nat} :
    e ∈ tableInsert key hl t ↔ e = (key, hl) ∨ e ∈ t := by
  induction t with
  | nil => simp [tableInsert]
  | cons a rest ih =>
    obtain ⟨k, c⟩ := a
    simp only [tableInsert]
    split
    · simp
    · simp only [List.mem_cons, ih]
      tauto

theorem tableFind_tableInsert {key hl : Nat} {t : List (Nat × Nat)}
    (h : tableFind key t = none) : tableFind key (tableInsert key hl t) = some hl := by
  induction t with
  | nil => simp [tableInsert, tableFind]
  | cons a rest ih =>
    obtain ⟨k, c⟩ := a
    simp only [tableFind] at h
    split at h
    · simp at h
    · rename_i hk
      simp only [tableInsert]
      split
      · simp [tableFind]
      · simp only [tableFind, hk, if_false]
        exact ih h

theorem sorted_tableInsert {key hl : Nat} {t : List (Nat × Nat)}
    (hs : Sorted t) (h : tableFind key t = none) : Sorted (tableInsert key hl t) := by
  induction t with
  | nil => simp [tableInsert, Sorted]
  | cons a rest ih =>
    obtain ⟨k, c⟩ := a
    have hs2 := List.pairwise_cons.1 hs
    simp only [tableFind] at h
    split at h
    · simp at h
    · rename_i hk
      simp only [tableInsert]
      split
      · rename_i hlt
        refine List.pairwise_cons.2 ⟨?_, hs⟩
        intro e he
        rcases List.mem_cons.1 he with he | he
        · subst he; exact hlt
        · exact Nat.lt_trans hlt (hs2.1 e he)
      · rename_i hlt
        refine List.pairwise_cons.2 ⟨?_, ih hs2.2 h⟩
        intro e he
        rcases mem_tableInsert.1 he with he | he
        · subst he
          show k < key
          omega
        · exact hs2.1 e he

theorem sorted_key_unique {t : List (Nat × Nat)} (hs : Sorted t) {k b c : Nat}
    (h1 : (k, b) ∈ t) (h2 : (k, c) ∈ t) : b = c := by
  induction t with
  | nil => simp at h1
  | cons a rest ih =>
    have hs2 := List.pairwise_cons.1 hs
    rcases List.mem_cons.1 h1 with e1 | m1 <;> rcases List.mem_cons.1 h2 with e2 | m2
    · rw [← e1] at e2
      exact (Prod.mk.inj e2).2.symm
    · have := hs2.1 _ m2
      rw [← e1] at this
      exact absurd this (Nat.lt_irrefl _)
    · have := hs2.1 _ m1
      rw [← e2] at this
      exact absurd this (Nat.lt_irrefl _)
    · exact ih hs2.2 m1 m2

theorem mem_tableErase {key : Nat} {t : List (Nat × Nat)} {e : Nat × Nat} :
    e ∈ tableErase key t ↔ e ∈ t ∧ e.1 ≠ key := by
  simp [tableErase]

theorem sorted_tableErase {key : Nat} {t : List (Nat × Nat)} (hs : Sorted t) :
    Sorted (tableErase key t) :=
  List.Pairwise.sublist (List.filter_sublist _) hs

/-! ## Field-by-field description of the operations -/

theorem insert_slot_fst (et : Nat) (s : State) :
    (insert_slot et s).1 =
      { s with
        extMaxTick := if et ≥ s.extMaxTick then et else s.extMaxTick,
        handlerTable := (match tableFind et s.handlerTable with
          | some _ => s.handlerTable
          | none => tableInsert et s.heap.length s.handlerTable),
        heap := (match tableFind et s.handlerTable with
          | some _ => s.heap
          | none => s.heap ++ [[]]) } := by
  unfold insert_slot
  by_cases h : et ≥ s.extMaxTick <;> simp only [h, if_true, if_false] <;>
    cases tableFind et s.handlerTable <;> rfl

theorem insert_slot_snd (et : Nat) (s : State) :
    (insert_slot et s).2 = (tableFind et s.handlerTable).getD s.heap.length := by
  unfold insert_slot
  by_cases h : et ≥ s.extMaxTick <;> simp only [h, if_true, if_false] <;>
    cases tableFind et s.handlerTable <;> rfl

/-! ## The heap of buckets -/

theorem getD_set (l : List (List Node)) (i j : Nat) (v : List Node) :
    (l.set i v).getD j [] = if i = j ∧ i < l.length then v else l.getD j [] := by
  simp only [List.getD_eq_getElem?_getD, List.getElem?_set]
  by_cases h : i = j
  · subst h
    by_cases h2 : i < l.length
    · simp [h2]
    · simp [h2]
      simp at h2
      rw [List.getElem?_eq_none h2]
      rfl
  · simp [h]

theorem getD_append_nil (l : List (List Node)) (j : Nat) :
    (l ++ [[]]).getD j [] = l.getD j [] := by
  simp only [List.getD_eq_getElem?_getD]
  by_cases h : j < l.length
  · rw [List.getElem?_append_left h]
  · simp at h
    rw [List.getElem?_eq_none h]
    rcases Nat.eq_or_lt_of_le h with h1 | h1
    · subst h1; simp
    · rw [List.getElem?_eq_none (by simp; omega)]

theorem getD_ge (l : List (List Node)) (j : Nat) (h : l.length ≤ j) :
    l.getD j [] = [] := by
  simp [List.getD_eq_getElem?_getD, List.getElem?_eq_none h]

theorem bucket_lt {s : State} {b : Nat} {n : Node} (h : n ∈ bucket s b) : b < s.heap.length := by
  by_contra hc
  unfold bucket at h
  rw [getD_ge _ _ (by omega)] at h
  simp at h

/-! ## The parts of `timeout` -/

@[simp] theorem lock_strand_handlerTable (s : State) :
    (lock_strand s).handlerTable = s.handlerTable := by
  unfold lock_strand; split <;> rfl

@[simp] theorem lock_strand_heap (s : State) : (lock_strand s).heap = s.heap := by
  unfold lock_strand; split <;> rfl

@[simp] theorem lock_strand_nextNode (s : State) : (lock_strand s).nextNode = s.nextNode := by
  unfold lock_strand; split <;> rfl

@[simp] theorem lock_strand_phase (s : State) : (lock_strand s).phase = s.phase := by
  unfold lock_strand; split <;> rfl

@[simp] theorem lock_strand_trace (s : State) : (lock_strand s).trace = s.trace := by
  unfold lock_strand; split <;> rfl

@[simp] theorem lock_strand_waits (s : State) : (lock_strand s).waits = s.waits := by
  unfold lock_strand; split <;> rfl

@[simp] theorem lock_strand_timerCount (s : State) :
    (lock_strand s).timerCount = s.timerCount := by
  unfold lock_strand; split <;> rfl

@[simp] theorem lock_strand_looping (s : State) : (lock_strand s).looping = s.looping := by
  unfold lock_strand; split <;> rfl

@[simp] theorem lock_strand_extFinishTime (s : State) :
    (lock_strand s).extFinishTime = s.extFinishTime := by
  unfold lock_strand; split <;> rfl

@[simp] theorem lock_strand_extMaxTick (s : State) :
    (lock_strand s).extMaxTick = s.extMaxTick := by
  unfold lock_strand; split <;> rfl

@[simp] theorem lock_strand_strand (s : State) : (lock_strand s).strand = true := by
  unfold lock_strand; split
  · assumption
  · rfl

@[simp] theorem rearm_handlerTable (et us : Nat) (s : State) :
    (rearm et us s).handlerTable = s.handlerTable := by
  unfold rearm timer_loop; split_ifs <;> rfl

@[simp] theorem rearm_heap (et us : Nat) (s : State) : (rearm et us s).heap = s.heap := by
  unfold rearm timer_loop; split_ifs <;> rfl

@[simp] theorem rearm_nextNode (et us : Nat) (s : State) :
    (rearm et us s).nextNode = s.nextNode := by
  unfold rearm timer_loop; split_ifs <;> rfl

@[simp] theorem rearm_phase (et us : Nat) (s : State) : (rearm et us s).phase = s.phase := by
  unfold rearm timer_loop; split_ifs <;> rfl

@[simp] theorem rearm_strand (et us : Nat) (s : State) : (rearm et us s).strand = s.strand := by
  unfold rearm timer_loop; split_ifs <;> rfl

@[simp] theorem rearm_extMaxTick (et us : Nat) (s : State) :
    (rearm et us s).extMaxTick = s.extMaxTick := by
  unfold rearm timer_loop; split_ifs <;> rfl

@[simp] theorem rearm_bucket (et us : Nat) (s : State) (b : Nat) :
    bucket (rearm et us s) b = bucket s b := by
  unfold bucket; rw [rearm_heap]

/-- The table `timeout` leaves. -/
theorem timeout_handlerTable (now us host : Nat) (s : State) :
    (timeout now us host s).1.handlerTable =
      match tableFind (quantize now us) s.handlerTable with
      | some _ => s.handlerTable
      | none => tableInsert (quantize now us) s.heap.length s.handlerTable := by
  simp only [timeout, rearm_handlerTable, push_front, insert_slot_fst, lock_strand_handlerTable,
    lock_strand_heap]

theorem timeout_nextNode (now us host : Nat) (s : State) :
    (timeout now us host s).1.nextNode = s.nextNode + 1 := by
  simp only [timeout, rearm_nextNode, push_front, insert_slot_fst, lock_strand_nextNode]

theorem timeout_phase (now us host : Nat) (s : State) :
    (timeout now us host s).1.phase = s.phase := by
  simp only [timeout, rearm_phase, push_front, insert_slot_fst, lock_strand_phase]

theorem timeout_strand (now us host : Nat) (s : State) :
    (timeout now us host s).1.strand = true := by
  simp only [timeout, rearm_strand, push_front, insert_slot_fst, lock_strand_strand]

/-- The bucket `timeout` pushes the new node to. -/
theorem timeout_handlerList (now us host : Nat) (s : State) :
    (timeout now us host s).2.handlerList =
      some ((tableFind (quantize now us) s.handlerTable).getD s.heap.length) := by
  simp only [timeout, insert_slot_snd, lock_strand_handlerTable, lock_strand_heap]

theorem timeout_heap_length (now us host : Nat) (s : State) :
    (timeout now us host s).1.heap.length =
      match tableFind (quantize now us) s.handlerTable with
      | some _ => s.heap.length
      | none => s.heap.length + 1 := by
  simp only [timeout, rearm_heap, push_front, insert_slot_fst, lock_strand_handlerTable,
    lock_strand_heap, List.length_set]
  cases tableFind (quantize now us) s.handlerTable <;> simp

/-- The buckets `timeout` leaves: the new node is at the front of the bucket of the
key, every other bucket is untouched. -/
theorem timeout_bucket (now us host : Nat) (s : State)
    (hr : ∀ e ∈ s.handlerTable, e.2 < s.heap.length) (b : Nat) :
    bucket (timeout now us host s).1 b =
      if b = (tableFind (quantize now us) s.handlerTable).getD s.heap.length
      then ⟨s.nextNode, host⟩ :: bucket s b else bucket s b := by
  simp only [timeout, rearm_bucket]
  simp only [bucket, push_front, insert_slot_fst, insert_slot_snd, lock_strand_handlerTable,
    lock_strand_heap, lock_strand_nextNode]
  rw [getD_set]
  cases hf : tableFind (quantize now us) s.handlerTable with
  | none =>
    simp only [Option.getD_none, List.length_append, List.length_singleton, getD_append_nil]
    by_cases hb : b = s.heap.length
    · subst hb
      simp [getD_ge]
    · have : ¬ (s.heap.length = b) := fun h => hb h.symm
      simp [hb, this]
  | some c =>
    have hc := hr _ (tableFind_some_mem hf)
    simp only [Option.getD_some]
    by_cases hb : b = c
    · subst hb
      simp [hc]
    · have : ¬ (c = b) := fun h => hb h.symm
      simp [hb, this]

theorem mem_timeout_bucket {now us host : Nat} {s : State}
    (hr : ∀ e ∈ s.handlerTable, e.2 < s.heap.length) {b : Nat} {n : Node} :
    n ∈ bucket (timeout now us host s).1 b ↔
      (b = (tableFind (quantize now us) s.handlerTable).getD s.heap.length ∧
        n = ⟨s.nextNode, host⟩) ∨ n ∈ bucket s b := by
  rw [timeout_bucket now us host s hr b]
  split
  · rename_i h
    simp [h]
  · rename_i h
    simp [h]

theorem wf_timeout (now us host : Nat) {s : State} (h : WF s) : WF (timeout now us host s).1 := by
  have hr := h.refs_lt
  refine ⟨?_, ?_, ?_, ?_, ?_, ?_, ?_⟩
  · rw [timeout_handlerTable]
    cases hf : tableFind (quantize now us) s.handlerTable with
    | none => exact sorted_tableInsert h.sorted hf
    | some c => exact h.sorted
  · intro e he
    rw [timeout_handlerTable] at he
    rw [timeout_heap_length]
    cases hf : tableFind (quantize now us) s.handlerTable with
    | none =>
      rw [hf] at he
      simp only at he
      show e.2 < s.heap.length + 1
      rcases mem_tableInsert.1 he with he | he
      · subst he; simp
      · have := hr e he; omega
    | some c =>
      rw [hf] at he
      exact hr e he
  · intro k1 k2 b h1 h2
    rw [timeout_handlerTable] at h1 h2
    cases hf : tableFind (quantize now us) s.handlerTable with
    | none =>
      rw [hf] at h1 h2
      simp only at h1 h2
      rcases mem_tableInsert.1 h1 with e1 | m1 <;> rcases mem_tableInsert.1 h2 with e2 | m2
      · rw [(Prod.mk.inj e1).1, (Prod.mk.inj e2).1]
      · have := hr _ m2
        rw [(Prod.mk.inj e1).2] at this
        exact absurd this (Nat.lt_irrefl _)
      · have := hr _ m1
        rw [(Prod.mk.inj e2).2] at this
        exact absurd this (Nat.lt_irrefl _)
      · exact h.refs_inj k1 k2 b m1 m2
    | some c =>
      rw [hf] at h1 h2
      exact h.refs_inj k1 k2 b h1 h2
  · intro b n hn
    rw [timeout_nextNode]
    rcases (mem_timeout_bucket hr).1 hn with ⟨_, e⟩ | m
    · subst e; simp
    · have := h.ids_lt b n m; omega
  · intro b1 b2 n1 n2 h1 h2 hid
    rcases (mem_timeout_bucket hr).1 h1 with ⟨e1, f1⟩ | m1 <;>
      rcases (mem_timeout_bucket hr).1 h2 with ⟨e2, f2⟩ | m2
    · rw [e1, e2]
    · have := h.ids_lt _ _ m2
      rw [← hid, f1] at this
      exact absurd this (Nat.lt_irrefl _)
    · have := h.ids_lt _ _ m1
      rw [hid, f2] at this
      exact absurd this (Nat.lt_irrefl _)
    · exact h.ids_inj b1 b2 n1 n2 m1 m2 hid
  · intro b
    rw [timeout_bucket now us host s hr b]
    split
    · rw [List.map_cons, List.nodup_cons]
      refine ⟨?_, h.ids_nodup b⟩
      intro hm
      obtain ⟨n, hn, hid⟩ := List.mem_map.1 hm
      have := h.ids_lt b n hn
      rw [hid] at this
      exact absurd this (Nat.lt_irrefl _)
    · exact h.ids_nodup b
  · intro nt hl it hp
    rw [timeout_phase] at hp
    obtain ⟨h1, host1, h2⟩ := h.firing nt hl it hp
    refine ⟨?_, host1, (mem_timeout_bucket hr).2 (Or.inr h2)⟩
    intro k hk
    rw [timeout_handlerTable] at hk
    cases hf : tableFind (quantize now us) s.handlerTable with
    | none =>
      rw [hf] at hk
      simp only at hk
      rcases mem_tableInsert.1 hk with e | m
      · have := bucket_lt h2
        rw [(Prod.mk.inj e).2] at this
        exact absurd this (Nat.lt_irrefl _)
      · exact h1 k m
    | some c =>
      rw [hf] at hk
      exact h1 k hk

/-! ## The effect of `cancel`, field by field -/

theorem cancel_null (th : timer_handle) (s : State) (h : th.handlerList = none) :
    cancel th s = (s, th) := by
  unfold cancel; rw [h]

theorem cancel_handlerTable (th : timer_handle) (s : State) :
    (cancel th s).1.handlerTable =
      if empties th s then tableErase th.tableNode s.handlerTable else s.handlerTable := by
  unfold cancel empties
  cases th.handlerList with
  | none => rfl
  | some hl =>
    simp only [bucket]
    split_ifs <;> rfl

theorem cancel_nextNode (th : timer_handle) (s : State) :
    (cancel th s).1.nextNode = s.nextNode := by
  unfold cancel
  cases th.handlerList with
  | none => rfl
  | some hl => simp only []; split_ifs <;> rfl

theorem cancel_phase (th : timer_handle) (s : State) :
    (cancel th s).1.phase = s.phase := by
  unfold cancel
  cases th.handlerList with
  | none => rfl
  | some hl => simp only []; split_ifs <;> rfl

theorem cancel_trace (th : timer_handle) (s : State) :
    (cancel th s).1.trace = s.trace := by
  unfold cancel
  cases th.handlerList with
  | none => rfl
  | some hl => simp only []; split_ifs <;> rfl

theorem cancel_strand (th : timer_handle) (s : State) :
    (cancel th s).1.strand = s.strand := by
  unfold cancel
  cases th.handlerList with
  | none => rfl
  | some hl => simp only []; split_ifs <;> rfl

theorem cancel_heap (th : timer_handle) (s : State) :
    (cancel th s).1.heap =
      match th.handlerList with
      | none => s.heap
      | some hl => s.heap.set hl ((bucket s hl).filter (fun n => n.id ≠ th.handlerNode)) := by
  unfold cancel
  cases th.handlerList with
  | none => rfl
  | some hl => simp only []; split_ifs <;> rfl

/-- The buckets `cancel` leaves: the node of the handle is gone from its bucket,
every other bucket is untouched. -/
theorem cancel_bucket (th : timer_handle) (s : State) (b : Nat) :
    bucket (cancel th s).1 b =
      if th.handlerList = some b
      then (bucket s b).filter (fun n => n.id ≠ th.handlerNode) else bucket s b := by
  unfold bucket
  rw [cancel_heap]
  cases hh : th.handlerList with
  | none => simp
  | some hl =>
    simp only [getD_set, bucket, Option.some.injEq]
    by_cases hb : hl = b
    · subst hb
      by_cases hlt : hl < s.heap.length
      · simp [hlt]
      · rw [getD_ge s.heap hl (by omega)]
        simp
    · simp [hb]

theorem mem_cancel_bucket {th : timer_handle} {s : State} {b : Nat} {n : Node}
    (h : n ∈ bucket (cancel th s).1 b) : n ∈ bucket s b := by
  rw [cancel_bucket] at h
  split at h
  · exact (List.mem_filter.1 h).1
  · exact h

theorem mem_cancel_table {th : timer_handle} {s : State} {e : Nat × Nat}
    (h : e ∈ (cancel th s).1.handlerTable) : e ∈ s.handlerTable := by
  rw [cancel_handlerTable] at h
  split at h
  · exact (mem_tableErase.1 h).1
  · exact h

theorem wf_cancel (th : timer_handle) {s : State} (h : WF s) (hl : LiveHandle s th) :
    WF (cancel th s).1 := by
  refine ⟨?_, ?_, ?_, ?_, ?_, ?_, ?_⟩
  · rw [cancel_handlerTable]
    split
    · exact sorted_tableErase h.sorted
    · exact h.sorted
  · intro e he
    rw [cancel_heap]
    have := h.refs_lt e (mem_cancel_table he)
    cases th.handlerList <;> simpa using this
  · intro k1 k2 b h1 h2
    exact h.refs_inj k1 k2 b (mem_cancel_table h1) (mem_cancel_table h2)
  · intro b n hn
    rw [cancel_nextNode]
    exact h.ids_lt b n (mem_cancel_bucket hn)
  · intro b1 b2 n1 n2 h1 h2 hid
    exact h.ids_inj b1 b2 n1 n2 (mem_cancel_bucket h1) (mem_cancel_bucket h2) hid
  · intro b
    rw [cancel_bucket]
    split
    · exact List.Nodup.sublist (List.Sublist.map _ (List.filter_sublist _)) (h.ids_nodup b)
    · exact h.ids_nodup b
  · intro nt hf it hp
    rw [cancel_phase] at hp
    obtain ⟨h1, host1, h2⟩ := h.firing nt hf it hp
    refine ⟨fun k hk => h1 k (mem_cancel_table hk), host1, ?_⟩
    rw [cancel_bucket]
    split
    · rename_i hh
      obtain ⟨hl2, host2, e1, _, e3⟩ := hl
      rw [hh] at e1
      simp only [Option.some.injEq] at e1
      subst e1
      rcases e3 with e3 | ⟨nt2, it2, e4, e5⟩
      · exact absurd e3 (h1 _)
      · rw [hp] at e4
        simp only [Phase.firing.injEq] at e4
        refine List.mem_filter.2 ⟨h2, ?_⟩
        simp only [ne_eq, decide_not, Bool.not_eq_eq_eq_not, Bool.not_true, decide_eq_false_iff_not]
        rw [e4.2.2]
        exact e5
    · exact h2

/-! ## Well-formedness is kept by the completion -/

theorem nodeAfter_mem {it : Nat} {l : List Node} {n : Node} (h : nodeAfter it l = some n) :
    n ∈ l := by
  induction l with
  | nil => simp [nodeAfter] at h
  | cons a rest ih =>
    simp only [nodeAfter] at h
    split at h
    · cases rest with
      | nil => simp at h
      | cons c r =>
        simp only [List.head?_cons, Option.some.injEq] at h
        subst h
        simp
    · exact List.mem_cons_of_mem _ (ih h)

theorem wf_completion (tc : Int) (now : Nat) {s : State} (h : WF s) (hp : s.phase = Phase.idle) :
    WF (completion tc now s) := by
  unfold completion
  split_ifs
  · refine ⟨h.sorted, h.refs_lt, h.refs_inj, h.ids_lt, h.ids_inj, h.ids_nodup, ?_⟩
    intro nt hl it hf
    cases hf
  · refine ⟨h.sorted, h.refs_lt, h.refs_inj, h.ids_lt, h.ids_inj, h.ids_nodup, ?_⟩
    intro nt hl it hf
    have : s.phase = Phase.firing nt hl it := hf
    rw [hp] at this
    cases this
  · exact h

theorem wf_set_waits (ws : List Wait) {s : State} (h : WF s) : WF { s with waits := ws } :=
  ⟨h.sorted, h.refs_lt, h.refs_inj, h.ids_lt, h.ids_inj, h.ids_nodup, h.firing⟩

theorem mem_bucket_clear {s : State} {hl b : Nat} {n : Node}
    (h : n ∈ (s.heap.set hl []).getD b []) : n ∈ bucket s b := by
  rw [getD_set] at h
  split at h
  · simp at h
  · exact h

theorem wf_loop_step (nt : Nat) {s : State} (h : WF s) : WF (loop_step nt s) := by
  unfold loop_step
  split
  · refine ⟨h.sorted, h.refs_lt, h.refs_inj, h.ids_lt, h.ids_inj, h.ids_nodup, ?_⟩
    intro nt hl it hf
    cases hf
  · rename_i key hl rest ht
    have hs : Sorted ((key, hl) :: rest) := ht ▸ h.sorted
    have hs2 := List.pairwise_cons.1 hs
    have hsub : ∀ e, e ∈ rest → e ∈ s.handlerTable := fun e he => by
      rw [ht]; exact List.mem_cons_of_mem _ he
    split
    · refine ⟨h.sorted, h.refs_lt, h.refs_inj, h.ids_lt, h.ids_inj, h.ids_nodup, ?_⟩
      intro nt hl it hf
      cases hf
    · simp only []
      split
      · refine ⟨hs2.2, ?_, ?_, ?_, ?_, ?_, ?_⟩
        · intro e he
          simpa using h.refs_lt e (hsub e he)
        · intro k1 k2 b h1 h2
          exact h.refs_inj k1 k2 b (hsub _ h1) (hsub _ h2)
        · intro b n hn
          exact h.ids_lt b n (mem_bucket_clear hn)
        · intro b1 b2 n1 n2 h1 h2 hid
          exact h.ids_inj b1 b2 n1 n2 (mem_bucket_clear h1) (mem_bucket_clear h2) hid
        · intro b
          show (((s.heap.set hl []).getD b []).map Node.id).Nodup
          rw [getD_set]
          split
          · simp
          · exact h.ids_nodup b
        · intro nt hl it hf
          cases hf
      · rename_i n l hb
        refine ⟨hs2.2, fun e he => h.refs_lt e (hsub e he),
          fun k1 k2 b h1 h2 => h.refs_inj k1 k2 b (hsub _ h1) (hsub _ h2),
          h.ids_lt, h.ids_inj, h.ids_nodup, ?_⟩
        intro nt2 hl2 it2 hf
        simp only [Phase.firing.injEq] at hf
        obtain ⟨_, e2, e3⟩ := hf
        subst e2; subst e3
        refine ⟨?_, n.host, ?_⟩
        · intro k hk
          have hk2 : (k, hl) ∈ rest := hk
          have e := h.refs_inj key k hl (by rw [ht]; exact List.mem_cons_self _ _) (hsub _ hk2)
          have := hs2.1 _ hk2
          simp only at this
          omega
        · show n ∈ bucket s hl
          have hb2 : bucket s hl = n :: l := hb
          rw [hb2]
          exact List.mem_cons_self _ _

theorem wf_handler_return {nt hl it : Nat} {s : State} (h : WF s)
    (hp : s.phase = Phase.firing nt hl it) : WF (handler_return nt hl it s) := by
  unfold handler_return
  split
  · rename_i n hn
    refine ⟨h.sorted, h.refs_lt, h.refs_inj, h.ids_lt, h.ids_inj, h.ids_nodup, ?_⟩
    intro nt2 hl2 it2 hf
    simp only [Phase.firing.injEq] at hf
    obtain ⟨_, e2, e3⟩ := hf
    subst e2; subst e3
    exact ⟨(h.firing nt hl it hp).1, n.host, nodeAfter_mem hn⟩
  · refine ⟨h.sorted, ?_, h.refs_inj, ?_, ?_, ?_, ?_⟩
    · intro e he
      simpa using h.refs_lt e he
    · intro b n hn
      exact h.ids_lt b n (mem_bucket_clear hn)
    · intro b1 b2 n1 n2 h1 h2 hid
      exact h.ids_inj b1 b2 n1 n2 (mem_bucket_clear h1) (mem_bucket_clear h2) hid
    · intro b
      show (((s.heap.set hl []).getD b []).map Node.id).Nodup
      rw [getD_set]
      split
      · simp
      · exact h.ids_nodup b
    · intro nt hl it hf
      cases hf

theorem wf_init : WF init := by
  refine ⟨?_, ?_, ?_, ?_, ?_, ?_, ?_⟩ <;> simp [init, Sorted, bucket]

theorem wf_step {s t : State} (h : WF s) (hst : Step s t) : WF t := by
  cases hst with
  | schedule now us host _ _ => exact wf_timeout now us host h
  | cancel th _ hl => exact wf_cancel th h hl
  | deliver w ws now hp hw => exact wf_completion w.tc now (wf_set_waits ws h) hp
  | loop nt hp => exact wf_loop_step nt h
  | ret nt hl it hp => exact wf_handler_return h hp

theorem wf_steps {s t : State} (h : WF s) (hst : Relation.ReflTransGen Step s t) : WF t := by
  induction hst with
  | refl => exact h
  | tail _ hbc ih => exact wf_step ih hbc

theorem wf_reachable {s : State} (h : Reachable s) : WF s := wf_steps wf_init h

/-! ## Quantization -/

/-- The handle `timeout` returns designates the new node, under the quantized key. -/
theorem timeout_handle (now us host : Nat) (s : State) :
    (timeout now us host s).2 =
      { handlerList := some ((tableFind (quantize now us) s.handlerTable).getD s.heap.length),
        handlerNode := s.nextNode, tableNode := quantize now us } := by
  simp only [timeout, insert_slot_fst, insert_slot_snd, lock_strand_handlerTable,
    lock_strand_heap, lock_strand_nextNode]

/-- After `timeout` the table maps the quantized key to the bucket of the handle. -/
theorem timeout_find (now us host : Nat) (s : State) :
    tableFind (quantize now us) (timeout now us host s).1.handlerTable =
      some ((tableFind (quantize now us) s.handlerTable).getD s.heap.length) := by
  rw [timeout_handlerTable]
  cases hf : tableFind (quantize now us) s.handlerTable with
  | none => simpa using tableFind_tableInsert hf
  | some c => simpa using hf

/-! ## Cancelling twice -/

theorem cancel_handle_null (th : timer_handle) (s : State) :
    (cancel th s).2.handlerList = none := by
  unfold cancel
  cases hh : th.handlerList with
  | none => exact hh
  | some hl => simp only []; split_ifs <;> rfl

/-- C7. `cancel` on a null handle changes nothing: the whole state (table, buckets,
counter, `looping`, `max_tick`, `finish_time`, strand, OS timer) and the handle
are returned as they were.  On any handle, `cancel` leaves the handle null, so
cancelling it a second time gives the state and handle of the first `cancel`. -/
theorem cancel_null_noop_and_idempotent (th : timer_handle) (s : State) :
    (th.handlerList = none → cancel th s = (s, th)) ∧
    (cancel th s).2.handlerList = none ∧
    cancel (cancel th s).2 (cancel th s).1 = cancel th s :=
  ⟨cancel_null th s, cancel_handle_null th s,
    cancel_null (cancel th s).2 (cancel th s).1 (cancel_handle_null th s)⟩

/-- C7 on the timer after one `timeout`: cancelling the null handle is the identity,
and cancelling the returned handle twice is cancelling it once. -/
theorem cancel_null_noop_and_idempotent_witness :
    cancel ⟨none, 0, 0⟩ (timeout 0 1000 1 init).1 = ((timeout 0 1000 1 init).1, ⟨none, 0, 0⟩) ∧
    cancel (cancel (timeout 0 1000 1 init).2 (timeout 0 1000 1 init).1).2
        (cancel (timeout 0 1000 1 init).2 (timeout 0 1000 1 init).1).1 =
      cancel (timeout 0 1000 1 init).2 (timeout 0 1000 1 init).1 :=
  ⟨(cancel_null_noop_and_idempotent ⟨none, 0, 0⟩ (timeout 0 1000 1 init).1).1 rfl,
    (cancel_null_noop_and_idempotent (timeout 0 1000 1 init).2 (timeout 0 1000 1 init).1).2.2⟩

/-! ## The batching scenario -/

/-- C6, as stated, fails: with the clock at 0, `schedule(1000, A); schedule(1100, B)`
leaves two keys in the table, 768 for A and 1024 for B, each with its own bucket. -/
theorem batching_uses_two_buckets :
    scenario_batching.handlerTable = [(768, 0), (1024, 1)] ∧
    quantize 0 1000 = 768 ∧ quantize 0 1100 = 1024 ∧
    ¬ (scenario_batching.handlerTable.length = 1) := by
  decide

/-- C6, amended. With the clock at 0, `schedule(1000, A); schedule(1100, B)` stores A
alone in the bucket of key 768 and B alone in the bucket of key 1024; a single wait
is armed (for 1000 µs, stamp 1), and its completion, run at clock 1000, fires both
in one sweep, A then B, and leaves the table empty and the timer not looping. -/
theorem batching_one_sweep_fires_both :
    scenario_batching.handlerTable = [(768, 0), (1024, 1)] ∧
    bucket scenario_batching 0 = [⟨0, 1⟩] ∧
    bucket scenario_batching 1 = [⟨1, 2⟩] ∧
    scenario_batching.waits = [⟨1, 1000, false⟩] ∧
    fired (on_fire 5 1000 scenario_batching).trace = [⟨0, 1⟩, ⟨1, 2⟩] ∧
    armStamps (on_fire 5 1000 scenario_batching).trace = [1] ∧
    (on_fire 5 1000 scenario_batching).phase = Phase.idle ∧
    (on_fire 5 1000 scenario_batching).handlerTable = [] ∧
    (on_fire 5 1000 scenario_batching).looping = false := by
  decide

/-! ## Running a sweep whose handlers do not call the timer -/

theorem sweep_idle (f : Nat) {s : State} (h : s.phase = Phase.idle) : sweep f s = s := by
  cases f <;> simp [sweep, h]

theorem sweep_succ (f : Nat) {s : State} (h : s.phase ≠ Phase.idle) :
    sweep (f + 1) s = sweep f (sweep_step s) := by
  simp [sweep, h]

theorem sweep_add (a b : Nat) (s : State) : sweep (a + b) s = sweep b (sweep a s) := by
  induction a generalizing s with
  | zero => simp [sweep]
  | succ a ih =>
    by_cases h : s.phase = Phase.idle
    · rw [sweep_idle _ h, sweep_idle _ h, sweep_idle _ h]
    · rw [Nat.add_right_comm, sweep_succ _ h, sweep_succ _ h, ih]

theorem nodeAfter_append (pre post : List Node) (n : Node)
    (h : n.id ∉ pre.map Node.id) : nodeAfter n.id (pre ++ n :: post) = post.head? := by
  induction pre with
  | nil => simp [nodeAfter]
  | cons a rest ih =>
    simp only [List.map_cons, List.mem_cons, not_or] at h
    have h1 : ¬ (a.id = n.id) := fun e => h.1 e.symm
    simp only [List.cons_append, nodeAfter, h1, if_false]
    exact ih h.2

/-- From inside the handler of node `n` of the detached bucket, the sweep fires the
nodes after `n` in list order, clears the bucket and is back at the loop head. -/
theorem sweep_fire_rest (nt hl : Nat) (post : List Node) :
    ∀ (pre : List Node) (n : Node) (s : State),
      s.phase = Phase.firing nt hl n.id → bucket s hl = pre ++ n :: post →
      ((pre ++ n :: post).map Node.id).Nodup →
      sweep (post.length + 1) s =
        { s with heap := s.heap.set hl [], phase := Phase.loop nt,
                 trace := s.trace ++ post.map Ev.fire } := by
  induction post with
  | nil =>
    intro pre n s hp hb hn
    have hne : s.phase ≠ Phase.idle := by rw [hp]; simp
    have hna : nodeAfter n.id (bucket s hl) = none := by
      rw [hb, nodeAfter_append]
      · rfl
      · intro hm
        rw [List.map_append, List.map_cons] at hn
        exact (List.nodup_append.1 hn).2.2 hm (List.mem_cons_self _ _)
    rw [sweep_succ _ hne]
    simp only [sweep_step, hp, handler_return, hna, sweep, List.map_nil, List.append_nil]
  | cons m post ih =>
    intro pre n s hp hb hn
    have hne : s.phase ≠ Phase.idle := by rw [hp]; simp
    have hna : nodeAfter n.id (bucket s hl) = some m := by
      rw [hb, nodeAfter_append]
      · rfl
      · intro hm
        rw [List.map_append, List.map_cons] at hn
        exact (List.nodup_append.1 hn).2.2 hm (List.mem_cons_self _ _)
    rw [List.length_cons, sweep_succ _ hne]
    simp only [sweep_step, hp, handler_return, hna]
    have e : pre ++ n :: m :: post = (pre ++ [n]) ++ m :: post := by simp
    rw [ih (pre ++ [n]) m _ rfl (by rw [← e]; exact hb) (by rw [← e]; exact hn)]
    simp

/-- At the loop head with a first bucket that is due, the sweep detaches it, fires
its nodes in list order, clears it and is back at the loop head. -/
theorem sweep_bucket {s : State} {nt key hl : Nat} {rest : List (Nat × Nat)}
    (hp : s.phase = Phase.loop nt) (ht : s.handlerTable = (key, hl) :: rest)
    (hdue : ¬ key > (nt + 500) % U64) (hn : ((bucket s hl).map Node.id).Nodup) :
    sweep ((bucket s hl).length + 1) s =
      { s with handlerTable := rest, heap := s.heap.set hl [], phase := Phase.loop nt,
               trace := s.trace ++ (bucket s hl).map Ev.fire } := by
  have hne : s.phase ≠ Phase.idle := by rw [hp]; simp
  rw [sweep_succ _ hne]
  cases hb : bucket s hl with
  | nil =>
    have hb2 : s.heap.getD hl [] = [] := hb
    simp only [sweep_step, hp, loop_step, ht, hdue, if_false, bucket, hb2, List.length_nil,
      sweep, List.map_nil, List.append_nil]
  | cons n post =>
    have hb2 : s.heap.getD hl [] = n :: post := hb
    simp only [sweep_step, hp, loop_step, ht, hdue, if_false, bucket, hb2, List.length_cons]
    have hfr := sweep_fire_rest nt hl post [] n
      { s with handlerTable := rest, phase := Phase.firing nt hl n.id,
               trace := s.trace ++ [Ev.fire n] } rfl hb2 (by rw [← hb]; exact hn)
    rw [hfr]
    simp

theorem getD_clear (heap : List (List Node)) (hl b : Nat) :
    (heap.set hl []).getD b [] = if b = hl then [] else heap.getD b [] := by
  rw [getD_set]
  by_cases h : b = hl
  · subst h
    by_cases h2 : b < heap.length
    · simp [h2]
    · rw [getD_ge heap b (by omega)]
      simp
  · have : ¬ (hl = b) := fun e => h e.symm
    simp [h, this]

theorem fired_append (a b : List Ev) : fired (a ++ b) = fired a ++ fired b := by
  simp [fired, List.filterMap_append]

theorem fired_map_fire (l : List Node) : fired (l.map Ev.fire) = l := by
  induction l with
  | nil => rfl
  | cons a rest ih =>
    simp only [fired, List.map_cons, List.filterMap_cons] at ih ⊢
    rw [ih]

theorem sorted_head_le {key hl : Nat} {rest : List (Nat × Nat)}
    (hs : Sorted ((key, hl) :: rest)) {e : Nat × Nat} (he : e ∈ (key, hl) :: rest) :
    key ≤ e.1 := by
  rcases List.mem_cons.1 he with h | h
  · subst h; exact Nat.le_refl _
  · exact Nat.le_of_lt ((List.pairwise_cons.1 hs).1 e h)

/-- From the loop head the sweep ends after at most one step per bucket and per
node, plus one: it has fired the due buckets in key order, each in list order,
cleared them, and left the later buckets in the table untouched. -/
theorem sweep_loop (nt : Nat) : ∀ (table : List (Nat × Nat)) (s : State),
    s.phase = Phase.loop nt → s.handlerTable = table → Sorted table →
    (∀ k1 k2 b, (k1, b) ∈ table → (k2, b) ∈ table → k1 = k2) →
    (∀ b, ((bucket s b).map Node.id).Nodup) →
    ∃ f, f ≤ (table.map (fun e => (bucket s e.2).length + 1)).sum + 1 ∧
      (sweep f s).phase = Phase.idle ∧
      (sweep f s).handlerTable = table.filter (fun e => !due nt e.1) ∧
      fired (sweep f s).trace =
        fired s.trace ++ (table.filter (fun e => due nt e.1)).flatMap (fun e => bucket s e.2) ∧
      (∀ b, bucket (sweep f s) b =
        if b ∈ (table.filter (fun e => due nt e.1)).map Prod.snd then [] else bucket s b) := by
  intro table
  induction table with
  | nil =>
    intro s hp ht _ _ _
    have hne : s.phase ≠ Phase.idle := by rw [hp]; simp
    refine ⟨1, by simp, ?_⟩
    rw [sweep_succ _ hne]
    simp [sweep, sweep_step, hp, loop_step, ht, bucket]
  | cons a rest ih =>
    intro s hp ht hs hinj hnd
    obtain ⟨key, hl⟩ := a
    have hne : s.phase ≠ Phase.idle := by rw [hp]; simp
    by_cases hd : key > (nt + 500) % U64
    · refine ⟨1, by simp, ?_⟩
      have hall : ∀ e ∈ (key, hl) :: rest, due nt e.1 = false := by
        intro e he
        have := sorted_head_le hs he
        simp only [due, Bool.not_eq_false', decide_eq_true_eq]
        omega
      have hf1 : ((key, hl) :: rest).filter (fun e => !due nt e.1) = (key, hl) :: rest :=
        List.filter_eq_self.2 (fun e he => by simp [hall e he])
      have hf2 : ((key, hl) :: rest).filter (fun e => due nt e.1) = [] :=
        List.filter_eq_nil_iff.2 (fun e he => by simp [hall e he])
      rw [sweep_succ _ hne, hf1, hf2]
      simp [sweep, sweep_step, hp, loop_step, ht, hd, timer_loop, bucket, fired_append, fired]
    · have hs2 := List.pairwise_cons.1 hs
      have hb := sweep_bucket hp ht hd (hnd hl)
      have hne2 : ∀ e ∈ rest, e.2 ≠ hl := by
        intro e he h2
        have h3 : (e.1, hl) ∈ (key, hl) :: rest := by
          rw [← h2]; exact List.mem_cons_of_mem _ he
        have := hinj key e.1 hl (List.mem_cons_self _ _) h3
        have := hs2.1 e he
        simp only at this
        omega
      have hbk : ∀ b, bucket (sweep ((bucket s hl).length + 1) s) b =
          if b = hl then [] else bucket s b := by
        intro b
        rw [hb]
        exact getD_clear s.heap hl b
      obtain ⟨f, hf, h1, h2, h3, h4⟩ := ih (sweep ((bucket s hl).length + 1) s)
        (by rw [hb]) (by rw [hb]) hs2.2
        (fun k1 k2 b m1 m2 => hinj k1 k2 b (List.mem_cons_of_mem _ m1) (List.mem_cons_of_mem _ m2))
        (fun b => by
          rw [hbk b]
          split
          · simp
          · exact hnd b)
      have hdue : due nt key = true := by simp [due, hd]
      have hcongr : ∀ e ∈ rest, bucket (sweep ((bucket s hl).length + 1) s) e.2 = bucket s e.2 := by
        intro e he
        rw [hbk, if_neg (hne2 e he)]
      refine ⟨((bucket s hl).length + 1) + f, ?_, ?_, ?_, ?_, ?_⟩
      · have e : (rest.map (fun e => (bucket (sweep ((bucket s hl).length + 1) s) e.2).length + 1))
            = rest.map (fun e => (bucket s e.2).length + 1) :=
          List.map_congr_left (fun e he => by rw [hcongr e he])
        rw [e] at hf
        simp only [List.map_cons, List.sum_cons]
        omega
      · rw [sweep_add]; exact h1
      · rw [sweep_add, h2]
        simp [List.filter_cons, hdue]
      · rw [sweep_add, h3]
        have e1 : fired (sweep ((bucket s hl).length + 1) s).trace = fired s.trace ++ bucket s hl := by
          rw [hb]
          simp [fired_append, fired_map_fire]
        have e2 : (rest.filter (fun e => due nt e.1)).flatMap
              (fun e => bucket (sweep ((bucket s hl).length + 1) s) e.2)
            = (rest.filter (fun e => due nt e.1)).flatMap (fun e => bucket s e.2) :=
          List.flatMap_congr (fun e he => hcongr e (List.mem_filter.1 he).1)
        rw [e1, e2]
        simp [List.filter_cons, hdue]
      · intro b
        rw [sweep_add, h4, hbk]
        simp only [List.filter_cons, hdue, if_true, List.map_cons, List.mem_cons]
        by_cases hbl : b = hl
        · simp [hbl]
        · simp only [hbl, false_or]
          split <;> simp

theorem reachable_scenario_batching : Reachable scenario_batching :=
  Relation.ReflTransGen.tail
    (Relation.ReflTransGen.tail Relation.ReflTransGen.refl
      (Step.schedule init 0 1000 1 rfl (by unfold us_in_range; norm_num)))
    (Step.schedule _ 0 1100 2 rfl (by unfold us_in_range; norm_num))

/-- What `rearm` adds to the trace: the arming of a wait, if it arms one. -/
theorem rearm_trace (et us : Nat) (s : State) :
    (rearm et us s).trace = s.trace ++
      (if s.looping = false then [Ev.arm us (s.timerCount + 1)]
       else if et < s.extFinishTime then [Ev.arm us (s.timerCount + 1 + 1)] else []) := by
  unfold rearm timer_loop
  cases hl : s.looping
  · simp
  · by_cases h : et < s.extFinishTime <;> simp [h]

/-- What `timeout` adds to the trace: the scheduling of the new node, then the arming
of a wait if it arms one. -/
theorem timeout_trace (now us host : Nat) (s : State) :
    ∃ ext, (timeout now us host s).1.trace =
        s.trace ++ Ev.sched (quantize now us) ⟨s.nextNode, host⟩ :: ext ∧
      fired ext = [] ∧ schedIds ext = [] := by
  simp only [timeout, rearm_trace]
  simp only [push_front, insert_slot_fst, lock_strand_looping, lock_strand_trace,
    lock_strand_nextNode, lock_strand_timerCount, lock_strand_extFinishTime]
  split_ifs
  · exact ⟨[Ev.arm us (s.timerCount + 1)], by simp, rfl, rfl⟩
  · exact ⟨[Ev.arm us (s.timerCount + 1 + 1)], by simp, rfl, rfl⟩
  · exact ⟨[], by simp, rfl, rfl⟩

theorem schedIds_append (a b : List Ev) : schedIds (a ++ b) = schedIds a ++ schedIds b := by
  simp [schedIds, List.filterMap_append]

theorem loop_step_trace (nt : Nat) (s : State) :
    ∃ ext, (loop_step nt s).trace = s.trace ++ ext ∧ schedIds ext = [] := by
  unfold loop_step
  split
  · exact ⟨[], by simp, rfl⟩
  · split
    · exact ⟨[_], rfl, rfl⟩
    · simp only []
      split
      · exact ⟨[], by simp, rfl⟩
      · exact ⟨[_], rfl, rfl⟩

theorem handler_return_trace (nt hl it : Nat) (s : State) :
    ∃ ext, (handler_return nt hl it s).trace = s.trace ++ ext ∧ schedIds ext = [] := by
  unfold handler_return
  split
  · exact ⟨[_], rfl, rfl⟩
  · exact ⟨[], by simp, rfl⟩

theorem completion_trace (tc : Int) (now : Nat) (s : State) :
    (completion tc now s).trace = s.trace := by
  unfold completion; split_ifs <;> rfl

theorem completion_nextNode (tc : Int) (now : Nat) (s : State) :
    (completion tc now s).nextNode = s.nextNode := by
  unfold completion; split_ifs <;> rfl

theorem loop_step_nextNode (nt : Nat) (s : State) :
    (loop_step nt s).nextNode = s.nextNode := by
  unfold loop_step
  split
  · rfl
  · split
    · rfl
    · simp only []
      split <;> rfl

theorem handler_return_nextNode (nt hl it : Nat) (s : State) :
    (handler_return nt hl it s).nextNode = s.nextNode := by
  unfold handler_return
  split <;> rfl

/-- Node identities are handed out in scheduling order: the nodes a trace schedules
are numbered 0, 1, 2, ... in the order of their scheduling. -/
theorem schedIds_step {s t : State} (h : schedIds s.trace = List.range s.nextNode)
    (hst : Step s t) : schedIds t.trace = List.range t.nextNode := by
  cases hst with
  | schedule now us host _ _ =>
    obtain ⟨ext, h1, _, h3⟩ := timeout_trace now us host s
    rw [h1, timeout_nextNode, List.range_succ, schedIds_append, h]
    simp [schedIds, h3] at h3 ⊢
    exact h3
  | cancel th _ hl => rw [cancel_trace, cancel_nextNode]; exact h
  | deliver w ws now hp hw => rw [completion_trace, completion_nextNode]; exact h
  | loop nt hp =>
    obtain ⟨ext, h1, h2⟩ := loop_step_trace nt s
    rw [h1, loop_step_nextNode, schedIds_append, h2, h, List.append_nil]
  | ret nt hl it hp =>
    obtain ⟨ext, h1, h2⟩ := handler_return_trace nt hl it s
    rw [h1, handler_return_nextNode, schedIds_append, h2, h, List.append_nil]

theorem schedIds_reachable {s : State} (h : Reachable s) :
    schedIds s.trace = List.range s.nextNode := by
  induction h with
  | refl => rfl
  | tail _ hbc ih => exact schedIds_step ih hbc

theorem completion_bucket (tc : Int) (now : Nat) (s : State) (b : Nat) :
    bucket (completion tc now s) b = bucket s b := by
  unfold completion bucket; split_ifs <;> rfl

theorem loop_step_bucket_sub (nt : Nat) (s : State) (b : Nat) :
    bucket (loop_step nt s) b = bucket s b ∨ bucket (loop_step nt s) b = [] := by
  unfold loop_step
  split
  · exact Or.inl rfl
  · split
    · exact Or.inl rfl
    · simp only []
      split
      · simp only [bucket, getD_clear]
        split
        · exact Or.inr rfl
        · exact Or.inl rfl
      · exact Or.inl rfl

theorem handler_return_bucket_sub (nt hl it : Nat) (s : State) (b : Nat) :
    bucket (handler_return nt hl it s) b = bucket s b ∨
      bucket (handler_return nt hl it s) b = [] := by
  unfold handler_return
  split
  · exact Or.inl rfl
  · simp only [bucket, getD_clear]
    split
    · exact Or.inr rfl
    · exact Or.inl rfl

theorem newestFirst_step {s t : State} (hw : WF s) (h : NewestFirst s) (hst : Step s t) :
    NewestFirst t := by
  intro b
  cases hst with
  | schedule now us host _ _ =>
    rw [timeout_bucket now us host s hw.refs_lt b]
    split
    · refine List.pairwise_cons.2 ⟨?_, h b⟩
      intro n hn
      exact hw.ids_lt b n hn
    · exact h b
  | cancel th _ hl =>
    rw [cancel_bucket]
    split
    · exact List.Pairwise.sublist (List.filter_sublist _) (h b)
    · exact h b
  | deliver w ws now hp hw2 =>
    rw [completion_bucket]
    exact h b
  | loop nt hp =>
    rcases loop_step_bucket_sub nt s b with e | e <;> rw [e]
    · exact h b
    · exact List.Pairwise.nil
  | ret nt hl it hp =>
    rcases handler_return_bucket_sub nt hl it s b with e | e <;> rw [e]
    · exact h b
    · exact List.Pairwise.nil

theorem newestFirst_reachable {s : State} (h : Reachable s) : NewestFirst s := by
  induction h with
  | refl => intro b; simp [bucket, init]
  | tail hab hbc ih => exact newestFirst_step (wf_reachable hab) ih hbc

theorem rearm_timerCount (et us : Nat) (s : State) :
    (rearm et us s).timerCount =
      if s.looping = false then s.timerCount + 1
      else if et < s.extFinishTime then s.timerCount + 1 + 1 else s.timerCount := by
  unfold rearm timer_loop
  cases hl : s.looping
  · simp
  · by_cases h : et < s.extFinishTime <;> simp [h]

theorem timeout_timerCount (now us host : Nat) (s : State) :
    (timeout now us host s).1.timerCount =
      if s.looping = false then s.timerCount + 1
      else if quantize now us < s.extFinishTime then s.timerCount + 1 + 1
      else s.timerCount := by
  simp only [timeout, rearm_timerCount]
  simp only [push_front, insert_slot_fst, lock_strand_looping, lock_strand_timerCount,
    lock_strand_extFinishTime]

theorem timeout_trace_eq (now us host : Nat) (s : State) :
    (timeout now us host s).1.trace =
      s.trace ++ Ev.sched (quantize now us) ⟨s.nextNode, host⟩ ::
        (if s.looping = false then [Ev.arm us (s.timerCount + 1)]
         else if quantize now us < s.extFinishTime then [Ev.arm us (s.timerCount + 1 + 1)]
         else []) := by
  simp only [timeout, rearm_trace]
  simp only [push_front, insert_slot_fst, lock_strand_looping, lock_strand_trace,
    lock_strand_nextNode, lock_strand_timerCount, lock_strand_extFinishTime]
  simp

theorem cancel_timerCount (th : timer_handle) (s : State) :
    (cancel th s).1.timerCount = s.timerCount ∨
      (cancel th s).1.timerCount = s.timerCount + 1 := by
  unfold cancel
  cases th.handlerList with
  | none => exact Or.inl rfl
  | some hl =>
    simp only []
    split_ifs
    · exact Or.inr rfl
    · exact Or.inl rfl
    · exact Or.inl rfl
    · exact Or.inl rfl

theorem completion_timerCount (tc : Int) (now : Nat) (s : State) :
    (completion tc now s).timerCount = s.timerCount := by
  unfold completion; split_ifs <;> rfl

theorem armStamps_append (a b : List Ev) : armStamps (a ++ b) = armStamps a ++ armStamps b := by
  simp [armStamps, List.filterMap_append]

/-- What one step does to the counter and to the trace: the counter does not go
down, and if the step arms a wait, it arms one, stamped with the new value of
the counter, which is above the old one. -/
theorem step_arms {s t : State} (hst : Step s t) :
    s.timerCount ≤ t.timerCount ∧
    ∃ ext, t.trace = s.trace ++ ext ∧
      (armStamps ext = [] ∨ (armStamps ext = [t.timerCount] ∧ s.timerCount < t.timerCount)) := by
  cases hst with
  | schedule now us host _ _ =>
    rw [timeout_timerCount, timeout_trace_eq]
    split_ifs
    · exact ⟨by omega, _, rfl, Or.inr ⟨rfl, by omega⟩⟩
    · exact ⟨by omega, _, rfl, Or.inr ⟨rfl, by omega⟩⟩
    · exact ⟨by omega, _, rfl, Or.inl rfl⟩
  | cancel th _ hl =>
    rw [cancel_trace]
    refine ⟨?_, [], by simp, Or.inl rfl⟩
    rcases cancel_timerCount th s with e | e
    · rw [e]
    · rw [e]; omega
  | deliver w ws now hp hw =>
    rw [completion_timerCount, completion_trace]
    exact ⟨Int.le_refl _, [], by simp, Or.inl rfl⟩
  | loop nt hp =>
    unfold loop_step
    split
    · exact ⟨Int.le_refl _, [], by simp, Or.inl rfl⟩
    · split
      · refine ⟨?_, [Ev.arm _ (s.timerCount + 1)], rfl, Or.inr ⟨rfl, ?_⟩⟩
        · show s.timerCount ≤ s.timerCount + 1
          omega
        · show s.timerCount < s.timerCount + 1
          omega
      · simp only []
        split
        · exact ⟨Int.le_refl _, [], by simp, Or.inl rfl⟩
        · exact ⟨Int.le_refl _, [_], rfl, Or.inl rfl⟩
  | ret nt hl it hp =>
    unfold handler_return
    split
    · exact ⟨Int.le_refl _, [_], rfl, Or.inl rfl⟩
    · exact ⟨Int.le_refl _, [], by simp, Or.inl rfl⟩

theorem steps_timerCount_mono {s t : State} (hst : Relation.ReflTransGen Step s t) :
    s.timerCount ≤ t.timerCount := by
  induction hst with
  | refl => exact Int.le_refl _
  | tail _ hbc ih => exact Int.le_trans ih (step_arms hbc).1

theorem arms_increasing_steps {s t : State} (hst : Relation.ReflTransGen Step s t)
    (h1 : (armStamps s.trace).Pairwise (fun a b => a < b))
    (h2 : ∀ tc ∈ armStamps s.trace, tc ≤ s.timerCount) :
    (armStamps t.trace).Pairwise (fun a b => a < b) ∧
      ∀ tc ∈ armStamps t.trace, tc ≤ t.timerCount := by
  induction hst with
  | refl => exact ⟨h1, h2⟩
  | tail _ hbc ih =>
    obtain ⟨hle, ext, he, hx⟩ := step_arms hbc
    rw [he, armStamps_append]
    rcases hx with hx | ⟨hx, hlt⟩
    · rw [hx, List.append_nil]
      exact ⟨ih.1, fun tc htc => Int.le_trans (ih.2 tc htc) hle⟩
    · rw [hx]
      refine ⟨List.pairwise_append.2 ⟨ih.1, List.pairwise_singleton _ _, ?_⟩, ?_⟩
      · intro a ha b hb
        rw [List.mem_singleton.1 hb]
        exact Int.lt_of_le_of_lt (ih.2 a ha) hlt
      · intro tc htc
        rcases List.mem_append.1 htc with h | h
        · exact Int.le_trans (ih.2 tc h) hle
        · rw [List.mem_singleton.1 h]

/-- C8. Generation monotonicity (the counter taken as an unbounded integer). Along
every run of `timeout`, `cancel` and completion steps (re-entrant calls
included) the counter `_timerCount` never decreases; and in every state reached
from the constructed timer the stamps of the waits armed so far, in the order
they were armed, are strictly increasing, none above the current counter: each
arm carries a stamp strictly greater than that of every earlier arm. -/
theorem generation_monotone (s t : State) (hs : Reachable s)
    (hst : Relation.ReflTransGen Step s t) :
    s.timerCount ≤ t.timerCount ∧
    (armStamps t.trace).Pairwise (fun a b => a < b) ∧
    (∀ tc ∈ armStamps t.trace, tc ≤ t.timerCount) :=
  ⟨steps_timerCount_mono hst,
    arms_increasing_steps (Relation.ReflTransGen.trans hs hst) List.Pairwise.nil
      (fun tc htc => by simp [init, armStamps] at htc)⟩

/-- C8 on the batching scenario followed by the delivery of its completion at clock
1000: the counter has not decreased and the stamps armed are increasing. -/
theorem generation_monotone_witness :
    Reachable scenario_batching ∧
    Relation.ReflTransGen Step scenario_batching
      (completion 1 1000 { scenario_batching with waits := [] }) ∧
    scenario_batching.timerCount ≤
      (completion 1 1000 { scenario_batching with waits := [] }).timerCount ∧
    (armStamps (completion 1 1000 { scenario_batching with waits := [] }).trace).Pairwise
      (fun a b => a < b) :=
  ⟨reachable_scenario_batching,
    Relation.ReflTransGen.single
      (Step.deliver scenario_batching ⟨1, 1000, false⟩ [] 1000 rfl rfl),
    (generation_monotone scenario_batching _ reachable_scenario_batching
      (Relation.ReflTransGen.single
        (Step.deliver scenario_batching ⟨1, 1000, false⟩ [] 1000 rfl rfl))).1,
    (generation_monotone scenario_batching _ reachable_scenario_batching
      (Relation.ReflTransGen.single
        (Step.deliver scenario_batching ⟨1, 1000, false⟩ [] 1000 rfl rfl))).2.1⟩

/-! ## Looping, the strand and the outstanding waits -/

theorem lastStamp_snoc (ws : List Wait) (w : Wait) : lastStamp (ws ++ [w]) = some w.tc := by
  induction ws with
  | nil => rfl
  | cons a rest ih =>
    cases rest with
    | nil => rfl
    | cons b r =>
      simp only [List.cons_append, lastStamp] at ih ⊢
      exact ih

theorem lastStamp_os_cancel (ws : List Wait) : lastStamp (os_cancel ws) = lastStamp ws := by
  induction ws with
  | nil => rfl
  | cons a rest ih =>
    cases rest with
    | nil => rfl
    | cons b r =>
      simp only [os_cancel, List.map_cons, lastStamp] at ih ⊢
      exact ih

theorem lastStamp_tail {w : Wait} {ws : List Wait} {c : Int}
    (h : lastStamp (w :: ws) = some c) (hne : w.tc ≠ c) : lastStamp ws = some c := by
  cases ws with
  | nil =>
    simp only [lastStamp, Option.some.injEq] at h
    exact absurd h hne
  | cons b r => exact h

theorem rearm_looping (et us : Nat) (s : State) : (rearm et us s).looping = true := by
  unfold rearm timer_loop
  cases hl : s.looping
  · simp
  · by_cases h : et < s.extFinishTime <;> simp [h, hl]

theorem rearm_waits (et us : Nat) (s : State) :
    (rearm et us s).waits =
      if s.looping = false then os_cancel s.waits ++ [⟨s.timerCount + 1, us, false⟩]
      else if et < s.extFinishTime then
        os_cancel (os_cancel s.waits) ++ [⟨s.timerCount + 1 + 1, us, false⟩]
      else s.waits := by
  unfold rearm timer_loop
  cases hl : s.looping
  · simp
  · by_cases h : et < s.extFinishTime <;> simp [h]

theorem timeout_looping (now us host : Nat) (s : State) :
    (timeout now us host s).1.looping = true := by
  simp only [timeout, rearm_looping]

theorem timeout_waits (now us host : Nat) (s : State) :
    (timeout now us host s).1.waits =
      if s.looping = false then os_cancel s.waits ++ [⟨s.timerCount + 1, us, false⟩]
      else if quantize now us < s.extFinishTime then
        os_cancel (os_cancel s.waits) ++ [⟨s.timerCount + 1 + 1, us, false⟩]
      else s.waits := by
  simp only [timeout, rearm_waits]
  simp only [push_front, insert_slot_fst, lock_strand_looping, lock_strand_waits,
    lock_strand_timerCount, lock_strand_extFinishTime]

/-- The two ways `cancel` can leave the timer: it has emptied the table (it then
cancels the wait, steps the counter and stops looping), or it has touched
neither the counter, nor the waits, nor `looping`. -/
theorem cancel_cases (th : timer_handle) (s : State) :
    (cancel th s).1.extFinishTime = s.extFinishTime ∧
    ((empties th s = true ∧ s.handlerTable.length = 1 ∧
        (cancel th s).1.looping = false ∧
        (cancel th s).1.timerCount = s.timerCount + 1 ∧
        (cancel th s).1.waits = os_cancel s.waits ∧
        (cancel th s).1.extMaxTick = UINT64_MAX) ∨
      (¬ (empties th s = true ∧ s.handlerTable.length = 1) ∧
        (cancel th s).1.looping = s.looping ∧
        (cancel th s).1.timerCount = s.timerCount ∧
        (cancel th s).1.waits = s.waits)) := by
  unfold cancel empties
  cases th.handlerList with
  | none => exact ⟨rfl, Or.inr ⟨by simp, rfl, rfl, rfl⟩⟩
  | some hl =>
    simp only []
    split_ifs with h1 h2 h3
    · exact ⟨rfl, Or.inl ⟨h1, h2, rfl, rfl, rfl, rfl⟩⟩
    · exact ⟨rfl, Or.inr ⟨fun h => h2 h.2, rfl, rfl, rfl⟩⟩
    · exact ⟨rfl, Or.inr ⟨fun h => h2 h.2, rfl, rfl, rfl⟩⟩
    · exact ⟨rfl, Or.inr ⟨fun h => h1 h.1, rfl, rfl, rfl⟩⟩

/-- A live handle whose bucket `cancel` empties designates a bucket of the table. -/
theorem live_empties_in_table {s : State} {th : timer_handle} (hw : WF s)
    (hl : LiveHandle s th) (he : empties th s = true) :
    ∃ b, th.handlerList = some b ∧ (th.tableNode, b) ∈ s.handlerTable := by
  obtain ⟨b, host, e1, e2, e3⟩ := hl
  refine ⟨b, e1, ?_⟩
  rcases e3 with e3 | ⟨nt, it, e4, e5⟩
  · exact e3
  · exfalso
    obtain ⟨_, host2, h2⟩ := hw.firing nt b it e4
    unfold empties at he
    rw [e1] at he
    simp only [List.isEmpty_eq_true] at he
    have hm : (⟨it, host2⟩ : Node) ∈ (bucket s b).filter (fun n => n.id ≠ th.handlerNode) := by
      refine List.mem_filter.2 ⟨h2, ?_⟩
      simpa using e5
    rw [he] at hm
    simp at hm

theorem tableErase_single {t : List (Nat × Nat)} {k b : Nat} (hlen : t.length = 1)
    (hm : (k, b) ∈ t) : tableErase k t = [] := by
  match t, hlen, hm with
  | [e], _, hm =>
    simp only [List.mem_singleton] at hm
    subst hm
    simp [tableErase]

theorem balanced_init : Balanced init := by
  refine ⟨?_, ?_, ?_⟩ <;> simp [init]

theorem balanced_step {s t : State} (hw : WF s) (h : Balanced s) (hst : Step s t) :
    Balanced t := by
  cases hst with
  | schedule now us host hc _ =>
    have hlo := timeout_looping now us host s
    have hwt := timeout_waits now us host s
    refine ⟨?_, ?_, ?_⟩
    · intro hp _
      rw [timeout_phase] at hp
      rw [hwt, timeout_timerCount]
      split_ifs with h1 h2
      · exact lastStamp_snoc _ _
      · exact lastStamp_snoc _ _
      · exact h.armed hp (by simpa using h1)
    · intro _ hf
      rw [hlo] at hf
      cases hf
    · intro hf
      rw [hlo] at hf
      cases hf
  | cancel th hc hl =>
    obtain ⟨_, hcase⟩ := cancel_cases th s
    rcases hcase with ⟨he, hlen, c1, c2, c3, _⟩ | ⟨hne, c1, c2, c3⟩
    · have hloop : s.looping = true := by
        cases hlp : s.looping
        · have := h.pending hlp
          rw [this] at hlen
          simp at hlen
        · rfl
      refine ⟨?_, ?_, ?_⟩
      · intro _ hf
        rw [c1] at hf
        cases hf
      · intro hp _ _
        rw [cancel_phase] at hp
        rw [c3, c2, lastStamp_os_cancel, h.armed hp hloop]
        simp
      · intro _
        obtain ⟨b, _, hm⟩ := live_empties_in_table hw hl he
        rw [cancel_handlerTable, he, if_pos rfl]
        exact tableErase_single hlen hm
    · refine ⟨?_, ?_, ?_⟩
      · intro hp hlo
        rw [cancel_phase] at hp
        rw [c1] at hlo
        rw [c3, c2]
        exact h.armed hp hlo
      · intro hp hlo hs
        rw [cancel_phase] at hp
        rw [c1] at hlo
        rw [cancel_strand] at hs
        rw [c3, c2]
        exact h.release hp hlo hs
      · intro hlo
        rw [c1] at hlo
        have := h.pending hlo
        rw [cancel_handlerTable, this]
        simp [tableErase]
  | deliver w ws now hp hwt =>
    unfold completion
    split_ifs with h1 h2
    · exact ⟨fun hp2 => (by cases hp2), fun hp2 => (by cases hp2), h.pending⟩
    · refine ⟨?_, ?_, h.pending⟩
      · intro _ hlo
        have := h.armed hp hlo
        rw [hwt] at this
        exact lastStamp_tail this h1
      · intro _ _ hs
        cases hs
    · refine ⟨?_, ?_, h.pending⟩
      · intro _ hlo
        have := h.armed hp hlo
        rw [hwt] at this
        exact lastStamp_tail this h1
      · intro _ hlo hs
        have := h.release hp hlo hs
        rw [hwt] at this
        exact lastStamp_tail this h2
  | loop nt hp =>
    unfold loop_step
    split
    · exact ⟨fun _ hlo => (by cases hlo), fun _ _ hs => (by cases hs), fun _ => (by assumption)⟩
    · rename_i key hl rest ht
      have hloop : s.looping = true := by
        cases hlp : s.looping
        · have := h.pending hlp
          rw [this] at ht
          cases ht
        · rfl
      split
      · refine ⟨?_, ?_, ?_⟩
        · intro _ _
          exact lastStamp_snoc _ _
        · intro _ hlo
          have : s.looping = false := hlo
          rw [hloop] at this
          cases this
        · intro hlo
          have : s.looping = false := hlo
          rw [hloop] at this
          cases this
      · simp only []
        split
        · refine ⟨fun hp2 => (by cases hp2), fun hp2 => (by cases hp2), ?_⟩
          intro hlo
          have : s.looping = false := hlo
          rw [hloop] at this
          cases this
        · refine ⟨fun hp2 => (by cases hp2), fun hp2 => (by cases hp2), ?_⟩
          intro hlo
          have : s.looping = false := hlo
          rw [hloop] at this
          cases this
  | ret nt hl it hp =>
    unfold handler_return
    split
    · exact ⟨fun hp2 => (by cases hp2), fun hp2 => (by cases hp2), h.pending⟩
    · exact ⟨fun hp2 => (by cases hp2), fun hp2 => (by cases hp2), h.pending⟩

theorem balanced_reachable {s : State} (h : Reachable s) : Balanced s := by
  induction h with
  | refl => exact balanced_init
  | tail hab hbc ih => exact balanced_step (wf_reachable hab) ih hbc

/-- A sweep whose handlers do not call the timer is a run of steps of the timer. -/
theorem steps_sweep (f : Nat) (s : State) : Relation.ReflTransGen Step s (sweep f s) := by
  induction f generalizing s with
  | zero => exact Relation.ReflTransGen.refl
  | succ f ih =>
    by_cases h : s.phase = Phase.idle
    · rw [sweep_idle _ h]
    · rw [sweep_succ _ h]
      refine Relation.ReflTransGen.head ?_ (ih (sweep_step s))
      unfold sweep_step
      cases hp : s.phase with
      | idle => exact absurd hp h
      | loop nt => exact Step.loop s nt hp
      | firing nt hl it => exact Step.ret s nt hl it hp

/-- The delivery of a completion and its sweep are a run of steps of the timer. -/
theorem steps_on_fire (f now : Nat) {s : State} (h : s.phase = Phase.idle) :
    Relation.ReflTransGen Step s (on_fire f now s) := by
  unfold on_fire
  cases hw : s.waits with
  | nil => exact Relation.ReflTransGen.refl
  | cons w ws =>
    exact Relation.ReflTransGen.head (Step.deliver s w ws now h hw) (steps_sweep f _)

/-- C10. Idle timer releases the strand. In every reachable state in which the table
is empty, no completion is running and every armed wait has had its completion
delivered, `looping` is false and the strong strand reference is released, so
both assertions of the destructor hold. -/
theorem idle_timer_releases_strand (s : State) (hs : Reachable s)
    (ht : s.handlerTable = []) (hp : s.phase = Phase.idle) (hw : s.waits = []) :
    s.looping = false ∧ s.strand = false ∧ destructor_asserts s := by
  have hb := balanced_reachable hs
  have h1 : s.looping = false := by
    cases hl : s.looping
    · rfl
    · have := hb.armed hp hl
      rw [hw] at this
      cases this
  have h2 : s.strand = false := by
    cases hl : s.strand
    · rfl
    · have := hb.release hp h1 hl
      rw [hw] at this
      cases this
  exact ⟨h1, h2, ht, h2⟩

/-- C10 on the batching scenario after its completion has run at clock 1000. -/
theorem idle_timer_releases_strand_witness :
    Reachable (on_fire 5 1000 scenario_batching) ∧
    (on_fire 5 1000 scenario_batching).handlerTable = [] ∧
    (on_fire 5 1000 scenario_batching).phase = Phase.idle ∧
    (on_fire 5 1000 scenario_batching).waits = [] ∧
    destructor_asserts (on_fire 5 1000 scenario_batching) :=
  ⟨Relation.ReflTransGen.trans reachable_scenario_batching (steps_on_fire 5 1000 rfl),
    by decide, by decide, by decide,
    (idle_timer_releases_strand (on_fire 5 1000 scenario_batching)
      (Relation.ReflTransGen.trans reachable_scenario_batching (steps_on_fire 5 1000 rfl))
      (by decide) (by decide) (by decide)).2.2⟩

/-! ## The strand while handlers are pending -/

theorem reachable_early_release_final : Reachable early_release_final := by
  have h1 : Step init (timeout 0 1000 1 init).1 :=
    Step.schedule init 0 1000 1 rfl (by unfold us_in_range; norm_num)
  have h2 : Step (timeout 0 1000 1 init).1 early_release_scheduled.1 :=
    Step.schedule _ 0 5000 2 rfl (by unfold us_in_range; norm_num)
  have h3 : Step early_release_scheduled.1
      (completion 1 1000 { early_release_scheduled.1 with waits := [] }) :=
    Step.deliver early_release_scheduled.1 ⟨1, 1000, false⟩ [] 1000 rfl rfl
  have h4 : Step (completion 1 1000 { early_release_scheduled.1 with waits := [] })
      early_release_in_handler :=
    Step.loop _ 1000 rfl
  have h5 : Step early_release_in_handler
      (cancel early_release_scheduled.2 early_release_in_handler).1 :=
    Step.cancel _ _ rfl ⟨1, 2, rfl, by decide, Or.inl (by decide)⟩
  have h6 : Step (cancel early_release_scheduled.2 early_release_in_handler).1
      early_release_reentered :=
    Step.schedule _ 1000 9000 3 rfl (by unfold us_in_range; norm_num)
  have h7 : Step early_release_reentered (handler_return 1000 0 0 early_release_reentered) :=
    Step.ret _ 1000 0 0 rfl
  have h8 : Step (handler_return 1000 0 0 early_release_reentered) early_release_rearmed :=
    Step.loop _ 1000 rfl
  have h9 : Step early_release_rearmed early_release_final :=
    Step.deliver early_release_rearmed ⟨3, 9000, true⟩ [⟨4, 8984, false⟩] 1000 rfl rfl
  exact Relation.ReflTransGen.tail (Relation.ReflTransGen.tail (Relation.ReflTransGen.tail
    (Relation.ReflTransGen.tail (Relation.ReflTransGen.tail (Relation.ReflTransGen.tail
    (Relation.ReflTransGen.tail (Relation.ReflTransGen.tail (Relation.ReflTransGen.tail
    Relation.ReflTransGen.refl h1) h2) h3) h4) h5) h6) h7) h8) h9

/-- C9 fails on the code. The run `schedule(1000, A); schedule(5000, B)` at clock 0,
then at clock 1000 the completion of the wait, in which the handler of A cancels
B and schedules C 9000 µs ahead, then the delivery of the superseded completion
stamped 3, is a run of the timer that respects every precondition; it ends in a
reachable state in which C is pending in the table, the timer is looping, the
wait stamped 4 is outstanding, and the strong strand reference is released. -/
theorem strand_released_while_pending :
    Reachable early_release_final ∧
    early_release_final.handlerTable = [(9984, 2)] ∧
    bucket early_release_final 2 = [⟨2, 3⟩] ∧
    early_release_final.looping = true ∧
    early_release_final.timerCount = 4 ∧
    early_release_final.waits = [⟨4, 8984, false⟩] ∧
    early_release_final.phase = Phase.idle ∧
    early_release_final.strand = false :=
  ⟨reachable_early_release_final, by decide, by decide, by decide, by decide, by decide,
    by decide, by decide⟩

/-! ## Cancellation -/

/-- The handlers a step invokes are those of nodes that were in a bucket before it. -/
theorem step_fires {s t : State} (hst : Step s t) :
    ∃ ext, t.trace = s.trace ++ ext ∧ ∀ n, Ev.fire n ∈ ext → ∃ b, n ∈ bucket s b := by
  cases hst with
  | schedule now us host _ _ =>
    rw [timeout_trace_eq]
    refine ⟨_, rfl, ?_⟩
    intro n hn
    exfalso
    rcases List.mem_cons.1 hn with h | h
    · cases h
    · split_ifs at h <;> simp at h
  | cancel th _ hl =>
    rw [cancel_trace]
    exact ⟨[], by simp, fun n hn => by simp at hn⟩
  | deliver w ws now hp hw =>
    rw [completion_trace]
    exact ⟨[], by simp, fun n hn => by simp at hn⟩
  | loop nt hp =>
    unfold loop_step
    split
    · exact ⟨[], by simp, fun n hn => by simp at hn⟩
    · rename_i key hl rest ht
      split
      · exact ⟨[Ev.arm _ _], rfl, fun n hn => by simp at hn⟩
      · simp only []
        split
        · exact ⟨[], by simp, fun n hn => by simp at hn⟩
        · rename_i m l hb
          refine ⟨[Ev.fire m], rfl, ?_⟩
          intro n hn
          simp only [List.mem_singleton, Ev.fire.injEq] at hn
          subst hn
          refine ⟨hl, ?_⟩
          have hb2 : bucket s hl = n :: l := hb
          rw [hb2]
          exact List.mem_cons_self _ _
  | ret nt hl it hp =>
    unfold handler_return
    split
    · rename_i m hm
      refine ⟨[Ev.fire m], rfl, ?_⟩
      intro n hn
      simp only [List.mem_singleton, Ev.fire.injEq] at hn
      subst hn
      exact ⟨hl, nodeAfter_mem hm⟩
    · exact ⟨[], by simp, fun n hn => by simp at hn⟩

/-- A node identity that has been handed out and is in no bucket stays so. -/
theorem gone_step {s t : State} {nid : Nat} (hw : WF s) (hst : Step s t)
    (h1 : nid < s.nextNode) (h2 : ∀ b n, n ∈ bucket s b → n.id ≠ nid) :
    nid < t.nextNode ∧ ∀ b n, n ∈ bucket t b → n.id ≠ nid := by
  cases hst with
  | schedule now us host _ _ =>
    rw [timeout_nextNode]
    refine ⟨by omega, ?_⟩
    intro b n hn
    rcases (mem_timeout_bucket hw.refs_lt).1 hn with ⟨_, e⟩ | m
    · subst e
      show s.nextNode ≠ nid
      omega
    · exact h2 b n m
  | cancel th _ hl =>
    rw [cancel_nextNode]
    exact ⟨h1, fun b n hn => h2 b n (mem_cancel_bucket hn)⟩
  | deliver w ws now hp hwt =>
    rw [completion_nextNode]
    refine ⟨h1, fun b n hn => ?_⟩
    rw [completion_bucket] at hn
    exact h2 b n hn
  | loop nt hp =>
    rw [loop_step_nextNode]
    refine ⟨h1, fun b n hn => ?_⟩
    rcases loop_step_bucket_sub nt s b with e | e <;> rw [e] at hn
    · exact h2 b n hn
    · simp at hn
  | ret nt hl it hp =>
    rw [handler_return_nextNode]
    refine ⟨h1, fun b n hn => ?_⟩
    rcases handler_return_bucket_sub nt hl it s b with e | e <;> rw [e] at hn
    · exact h2 b n hn
    · simp at hn

theorem gone_steps {s t : State} {nid : Nat} (hw : WF s)
    (hst : Relation.ReflTransGen Step s t)
    (h1 : nid < s.nextNode) (h2 : ∀ b n, n ∈ bucket s b → n.id ≠ nid) :
    (nid < t.nextNode ∧ ∀ b n, n ∈ bucket t b → n.id ≠ nid) ∧
    ∃ ext, t.trace = s.trace ++ ext ∧ ∀ n, Ev.fire n ∈ ext → n.id ≠ nid := by
  induction hst with
  | refl => exact ⟨⟨h1, h2⟩, [], by simp, fun n hn => by simp at hn⟩
  | tail hab hbc ih =>
    obtain ⟨⟨g1, g2⟩, ext, e1, e2⟩ := ih
    obtain ⟨ext2, f1, f2⟩ := step_fires hbc
    refine ⟨gone_step (wf_steps hw hab) hbc g1 g2, ext ++ ext2, ?_, ?_⟩
    · rw [f1, e1, List.append_assoc]
    · intro n hn
      rcases List.mem_append.1 hn with h | h
      · exact e2 n h
      · obtain ⟨b, hb⟩ := f2 n h
        exact g2 b n hb

/-- C1. Cancellation correctness. In every reachable state, for a non-null handle
whose node is still in its bucket and whose bucket is still in the table (not
detached by a sweep), `cancel` removes the node from every bucket, and in every
later run of the timer (schedules, cancels, completions authoritative or stale,
at any clock values, re-entrant calls included) no `timeout_handler` is invoked
for that node; while every other node of a bucket of the table stays in that
bucket, still in the table under the same key. -/
theorem cancel_prevents_firing (s : State) (th : timer_handle) (hl host : Nat)
    (hs : Reachable s) (hh : th.handlerList = some hl)
    (hn : (⟨th.handlerNode, host⟩ : Node) ∈ bucket s hl)
    (ht : (th.tableNode, hl) ∈ s.handlerTable) :
    (∀ b n, n ∈ bucket (cancel th s).1 b → n.id ≠ th.handlerNode) ∧
    (∀ t, Relation.ReflTransGen Step (cancel th s).1 t →
      ∃ ext, t.trace = (cancel th s).1.trace ++ ext ∧
        ∀ n, Ev.fire n ∈ ext → n.id ≠ th.handlerNode) ∧
    (∀ k b n, (k, b) ∈ s.handlerTable → n ∈ bucket s b → n.id ≠ th.handlerNode →
      (k, b) ∈ (cancel th s).1.handlerTable ∧ n ∈ bucket (cancel th s).1 b) := by
  have hw := wf_reachable hs
  have hlive : LiveHandle s th := ⟨hl, host, hh, hn, Or.inl ht⟩
  have hw2 := wf_cancel th hw hlive
  have g1 : th.handlerNode < (cancel th s).1.nextNode := by
    rw [cancel_nextNode]
    exact hw.ids_lt hl _ hn
  have g2 : ∀ b n, n ∈ bucket (cancel th s).1 b → n.id ≠ th.handlerNode := by
    intro b n hm
    rw [cancel_bucket] at hm
    split at hm
    · have := (List.mem_filter.1 hm).2
      simpa using this
    · rename_i hne
      intro hid
      have e := hw.ids_inj b hl n ⟨th.handlerNode, host⟩ hm hn hid
      rw [e] at hne
      exact hne hh
  refine ⟨g2, fun t hst => (gone_steps hw2 hst g1 g2).2, ?_⟩
  intro k b n hkb hnb hid
  have hnb2 : n ∈ bucket (cancel th s).1 b := by
    rw [cancel_bucket]
    split
    · refine List.mem_filter.2 ⟨hnb, ?_⟩
      simpa using hid
    · exact hnb
  refine ⟨?_, hnb2⟩
  rw [cancel_handlerTable]
  split
  · rename_i he
    refine mem_tableErase.2 ⟨hkb, ?_⟩
    intro hk
    have hk2 : (th.tableNode, b) ∈ s.handlerTable := by
      have : (k, b) = (th.tableNode, b) := by
        show (k, b) = (th.tableNode, b)
        rw [show k = th.tableNode from hk]
      rw [← this]; exact hkb
    have e := sorted_key_unique hw.sorted hk2 ht
    unfold empties at he
    rw [hh] at he
    simp only [List.isEmpty_eq_true] at he
    have hm : n ∈ (bucket s hl).filter (fun n => n.id ≠ th.handlerNode) := by
      refine List.mem_filter.2 ⟨by rw [← e]; exact hnb, ?_⟩
      simpa using hid
    rw [he] at hm
    simp at hm
  · exact hkb

/-- C1 on the batching scenario: the handle of B is cancelled, and the completion
run afterwards at clock 1000 invokes no handler for the node of B. -/
theorem cancel_prevents_firing_witness :
    Reachable scenario_batching ∧
    (⟨some 1, 1, 1024⟩ : timer_handle).handlerList = some 1 ∧
    (⟨1, 2⟩ : Node) ∈ bucket scenario_batching 1 ∧
    (1024, 1) ∈ scenario_batching.handlerTable ∧
    ∃ ext, (on_fire 5 1000 (cancel ⟨some 1, 1, 1024⟩ scenario_batching).1).trace =
        (cancel ⟨some 1, 1, 1024⟩ scenario_batching).1.trace ++ ext ∧
      ∀ n, Ev.fire n ∈ ext → n.id ≠ 1 :=
  ⟨reachable_scenario_batching, rfl, by decide, by decide,
    (cancel_prevents_firing scenario_batching ⟨some 1, 1, 1024⟩ 1 2
      reachable_scenario_batching rfl (by decide) (by decide)).2.1 _
      (steps_on_fire 5 1000 (by decide))⟩

/-! ## Buckets and what was scheduled -/

theorem mem_timeout_table {now us host : Nat} {s : State} {e : Nat × Nat}
    (h : e ∈ s.handlerTable) : e ∈ (timeout now us host s).1.handlerTable := by
  rw [timeout_handlerTable]
  cases tableFind (quantize now us) s.handlerTable with
  | none => exact mem_tableInsert.2 (Or.inr h)
  | some c => exact h

theorem timeout_table_cases {now us host : Nat} {s : State} {e : Nat × Nat}
    (h : e ∈ (timeout now us host s).1.handlerTable) :
    e ∈ s.handlerTable ∨ (e = (quantize now us, s.heap.length) ∧
      tableFind (quantize now us) s.handlerTable = none) := by
  rw [timeout_handlerTable] at h
  cases hf : tableFind (quantize now us) s.handlerTable with
  | none =>
    rw [hf] at h
    rcases mem_tableInsert.1 h with h | h
    · exact Or.inr ⟨h, rfl⟩
    · exact Or.inl h
  | some c =>
    rw [hf] at h
    exact Or.inl h

theorem step_trace_mono {s t : State} (hst : Step s t) {e : Ev} (h : e ∈ s.trace) :
    e ∈ t.trace := by
  obtain ⟨ext, he, _⟩ := step_fires hst
  rw [he]
  exact List.mem_append_left _ h

theorem keyed_init : Keyed init := by
  refine ⟨?_, ?_, ?_⟩ <;> simp [init, bucket]

theorem keyed_step {s t : State} (hw : WF s) (h : Keyed s) (hst : Step s t) : Keyed t := by
  have hmono : ∀ e, e ∈ s.trace → e ∈ t.trace := fun e he => step_trace_mono hst he
  cases hst with
  | schedule now us host hc hu =>
    have hnew : Ev.sched (quantize now us) ⟨s.nextNode, host⟩ ∈ (timeout now us host s).1.trace := by
      rw [timeout_trace_eq]
      exact List.mem_append_right _ (List.mem_cons_self _ _)
    have hslot : (quantize now us, (tableFind (quantize now us) s.handlerTable).getD s.heap.length)
        ∈ (timeout now us host s).1.handlerTable :=
      tableFind_some_mem (timeout_find now us host s)
    refine ⟨?_, ?_, ?_⟩
    · intro k b n hkb hn
      rcases (mem_timeout_bucket hw.refs_lt).1 hn with ⟨e1, e2⟩ | m
      · rw [← e1] at hslot
        have := (wf_timeout now us host hw).refs_inj k (quantize now us) b hkb hslot
        rw [this, e2]
        exact hnew
      · rcases timeout_table_cases hkb with h1 | ⟨h1, _⟩
        · exact hmono _ (h.table k b n h1 m)
        · have : b = s.heap.length := (Prod.mk.inj h1).2
          have hlt := bucket_lt m
          omega
    · intro b n hn
      rcases (mem_timeout_bucket hw.refs_lt).1 hn with ⟨e1, e2⟩ | m
      · exact ⟨_, e2 ▸ hnew⟩
      · obtain ⟨k, hk⟩ := h.any b n m
        exact ⟨k, hmono _ hk⟩
    · intro b n hn
      rw [timeout_phase]
      rcases (mem_timeout_bucket hw.refs_lt).1 hn with ⟨e1, e2⟩ | m
      · exact Or.inl ⟨_, e1 ▸ hslot⟩
      · rcases h.tidy b n m with ⟨k, hk⟩ | hf
        · exact Or.inl ⟨k, mem_timeout_table hk⟩
        · exact Or.inr hf
  | cancel th hc hl =>
    refine ⟨?_, ?_, ?_⟩
    · intro k b n hkb hn
      rw [cancel_trace]
      exact h.table k b n (mem_cancel_table hkb) (mem_cancel_bucket hn)
    · intro b n hn
      rw [cancel_trace]
      exact h.any b n (mem_cancel_bucket hn)
    · intro b n hn
      rw [cancel_phase]
      rcases h.tidy b n (mem_cancel_bucket hn) with ⟨k, hk⟩ | hf
      · refine Or.inl ⟨k, ?_⟩
        rw [cancel_handlerTable]
        split
        · rename_i he
          refine mem_tableErase.2 ⟨hk, ?_⟩
          intro hkk
          obtain ⟨b0, e1, e2⟩ := live_empties_in_table hw hl he
          have hk2 : (th.tableNode, b) ∈ s.handlerTable := by
            rw [show th.tableNode = k from hkk.symm]; exact hk
          have e3 := sorted_key_unique hw.sorted hk2 e2
          rw [cancel_bucket, e1, e3, if_pos rfl] at hn
          unfold empties at he
          rw [e1] at he
          simp only [List.isEmpty_eq_true] at he
          rw [he] at hn
          simp at hn
        · exact hk
      · exact Or.inr hf
  | deliver w ws now hp hwt =>
    refine ⟨?_, ?_, ?_⟩
    · intro k b n hkb hn
      rw [completion_trace]
      rw [completion_bucket] at hn
      have hkb2 : (k, b) ∈ s.handlerTable := by
        unfold completion at hkb
        split_ifs at hkb <;> exact hkb
      exact h.table k b n hkb2 hn
    · intro b n hn
      rw [completion_trace]
      rw [completion_bucket] at hn
      exact h.any b n hn
    · intro b n hn
      rw [completion_bucket] at hn
      rcases h.tidy b n hn with ⟨k, hk⟩ | ⟨nt, it, hf⟩
      · refine Or.inl ⟨k, ?_⟩
        unfold completion
        split_ifs <;> exact hk
      · have : s.phase = Phase.firing nt b it := hf
        rw [hp] at this
        cases this
  | loop nt hp =>
    have hsub : ∀ b n, n ∈ bucket (loop_step nt s) b → n ∈ bucket s b := by
      intro b n hn
      rcases loop_step_bucket_sub nt s b with e | e <;> rw [e] at hn
      · exact hn
      · simp at hn
    have htab : ∀ e, e ∈ (loop_step nt s).handlerTable → e ∈ s.handlerTable := by
      intro e he
      unfold loop_step at he
      split at he
      · exact he
      · rename_i key hl rest ht
        split at he
        · exact he
        · simp only [] at he
          split at he <;> (rw [ht]; exact List.mem_cons_of_mem _ he)
    refine ⟨fun k b n hkb hn => hmono _ (h.table k b n (htab _ hkb) (hsub b n hn)),
      fun b n hn => ?_, ?_⟩
    · obtain ⟨k, hk⟩ := h.any b n (hsub b n hn)
      exact ⟨k, hmono _ hk⟩
    · intro b n hn
      have hn0 := hsub b n hn
      rcases h.tidy b n hn0 with ⟨k, hk⟩ | ⟨nt2, it2, hf⟩
      · revert hn
        unfold loop_step
        split
        · rename_i ht
          rw [ht] at hk
          simp at hk
        · rename_i key hl rest ht
          split
          · intro _
            exact Or.inl ⟨k, hk⟩
          · simp only []
            rw [ht] at hk
            split
            · intro hn
              have hn2 : n ∈ (s.heap.set hl []).getD b [] := hn
              rw [getD_clear] at hn2
              rcases List.mem_cons.1 hk with e | m
              · have : b = hl := (Prod.mk.inj e).2
                rw [if_pos this] at hn2
                simp at hn2
              · exact Or.inl ⟨k, m⟩
            · intro _
              rcases List.mem_cons.1 hk with e | m
              · have : b = hl := (Prod.mk.inj e).2
                subst this
                exact Or.inr ⟨_, _, rfl⟩
              · exact Or.inl ⟨k, m⟩
      · rw [hp] at hf
        cases hf
  | ret nt hl it hp =>
    have hsub : ∀ b n, n ∈ bucket (handler_return nt hl it s) b → n ∈ bucket s b := by
      intro b n hn
      rcases handler_return_bucket_sub nt hl it s b with e | e <;> rw [e] at hn
      · exact hn
      · simp at hn
    have htab : (handler_return nt hl it s).handlerTable = s.handlerTable := by
      unfold handler_return
      split <;> rfl
    refine ⟨fun k b n hkb hn => hmono _ (h.table k b n (htab ▸ hkb) (hsub b n hn)),
      fun b n hn => ?_, ?_⟩
    · obtain ⟨k, hk⟩ := h.any b n (hsub b n hn)
      exact ⟨k, hmono _ hk⟩
    · intro b n hn
      have hn0 := hsub b n hn
      rcases h.tidy b n hn0 with ⟨k, hk⟩ | ⟨nt2, it2, hf⟩
      · exact Or.inl ⟨k, htab ▸ hk⟩
      · rw [hp] at hf
        simp only [Phase.firing.injEq] at hf
        obtain ⟨_, e2, _⟩ := hf
        subst e2
        revert hn
        unfold handler_return
        split
        · intro _
          exact Or.inr ⟨_, _, rfl⟩
        · intro hn
          have hn2 : n ∈ (s.heap.set hl []).getD hl [] := hn
          rw [getD_clear, if_pos rfl] at hn2
          simp at hn2

theorem keyed_reachable {s : State} (h : Reachable s) : Keyed s := by
  induction h with
  | refl => exact keyed_init
  | tail hab hbc ih => exact keyed_step (wf_reachable hab) ih hbc

/-! ## Order in a trace -/

theorem sublist_snoc {l tr : List Ev} {e : Ev} (h : List.Sublist l (tr ++ [e])) :
    List.Sublist l tr ∨ ∃ l2, l = l2 ++ [e] ∧ List.Sublist l2 tr := by
  obtain ⟨l1, l2, e1, h1, h2⟩ := List.sublist_append_iff.1 h
  rcases List.sublist_singleton.1 h2 with e2 | e2
  · subst e2
    rw [List.append_nil] at e1
    exact Or.inl (e1 ▸ h1)
  · subst e2
    exact Or.inr ⟨l1, e1, h1⟩

theorem pair_snoc {a b e : Ev} {tr : List Ev} (h : List.Sublist [a, b] (tr ++ [e])) :
    List.Sublist [a, b] tr ∨ (b = e ∧ a ∈ tr) := by
  rcases sublist_snoc h with h | ⟨l2, e1, h2⟩
  · exact Or.inl h
  · have hlen : [b].length = [e].length := rfl
    have e2 : [a] ++ [b] = l2 ++ [e] := e1
    obtain ⟨e3, e4⟩ := List.append_inj' e2 hlen
    rw [← e3] at h2
    exact Or.inr ⟨by simpa using e4, List.singleton_sublist.1 h2⟩

theorem triple_snoc {a b c e : Ev} {tr : List Ev}
    (h : List.Sublist [a, b, c] (tr ++ [e])) :
    List.Sublist [a, b, c] tr ∨ (c = e ∧ List.Sublist [a, b] tr) := by
  rcases sublist_snoc h with h | ⟨l2, e1, h2⟩
  · exact Or.inl h
  · have hlen : [c].length = [e].length := rfl
    have e2 : [a, b] ++ [c] = l2 ++ [e] := e1
    obtain ⟨e3, e4⟩ := List.append_inj' e2 hlen
    rw [← e3] at h2
    exact Or.inr ⟨by simpa using e4, h2⟩

/-- A pattern whose last event does not occur in what was appended lies in the
earlier part of the trace. -/
theorem sublist_of_last_not_mem {a : Ev} (l : List Ev) :
    ∀ (ext tr : List Ev), a ∉ ext → List.Sublist (l ++ [a]) (tr ++ ext) →
      List.Sublist (l ++ [a]) tr := by
  intro ext
  induction ext with
  | nil =>
    intro tr _ h
    simpa using h
  | cons e rest ih =>
    intro tr ha h
    simp only [List.mem_cons, not_or] at ha
    have h2 : List.Sublist (l ++ [a]) ((tr ++ [e]) ++ rest) := by simpa using h
    have h3 := ih (tr ++ [e]) ha.2 h2
    rcases sublist_snoc h3 with h4 | ⟨l2, e1, _⟩
    · exact h4
    · have hlen : [a].length = [e].length := rfl
      have := (List.append_inj' e1 hlen).2
      simp only [List.cons.injEq, and_true] at this
      exact absurd this ha.1

theorem mem_schedIds {tr : List Ev} {k : Nat} {n : Node} (h : Ev.sched k n ∈ tr) :
    n.id ∈ schedIds tr := by
  unfold schedIds
  exact List.mem_filterMap.2 ⟨_, h, rfl⟩

/-- When the scheduled identities of a trace are pairwise distinct, a node identity
is scheduled by one event only. -/
theorem sched_unique_of_nodup : ∀ (tr : List Ev), (schedIds tr).Nodup →
    ∀ {k1 k2 : Nat} {n1 n2 : Node}, Ev.sched k1 n1 ∈ tr → Ev.sched k2 n2 ∈ tr →
      n1.id = n2.id → k1 = k2 ∧ n1 = n2 := by
  intro tr
  induction tr with
  | nil => intro _ k1 k2 n1 n2 h1; simp at h1
  | cons e rest ih =>
    intro hnd k1 k2 n1 n2 h1 h2 hid
    have hcons : schedIds (e :: rest) = schedIds [e] ++ schedIds rest :=
      schedIds_append [e] rest
    rw [hcons] at hnd
    have hnd2 := List.nodup_append.1 hnd
    rcases List.mem_cons.1 h1 with e1 | m1 <;> rcases List.mem_cons.1 h2 with e2 | m2
    · rw [← e1] at e2
      cases e2
      exact ⟨rfl, rfl⟩
    · exfalso
      have hm := mem_schedIds m2
      have hh : n1.id ∈ schedIds [e] := by rw [← e1]; simp [schedIds]
      exact hnd2.2.2 hh (hid ▸ hm)
    · exfalso
      have hm := mem_schedIds m1
      have hh : n2.id ∈ schedIds [e] := by rw [← e2]; simp [schedIds]
      exact hnd2.2.2 hh (hid ▸ hm)
    · exact ih hnd2.2.1 m1 m2 hid

theorem sched_unique {s : State} (h : Reachable s) {k1 k2 : Nat} {n1 n2 : Node}
    (h1 : Ev.sched k1 n1 ∈ s.trace) (h2 : Ev.sched k2 n2 ∈ s.trace) (hid : n1.id = n2.id) :
    k1 = k2 ∧ n1 = n2 :=
  sched_unique_of_nodup s.trace (by rw [schedIds_reachable h]; exact List.nodup_range _)
    h1 h2 hid

/-- Every handler a reachable trace invokes belongs to a node the trace scheduled. -/
theorem fired_was_scheduled {s : State} (h : Reachable s) :
    ∀ n, Ev.fire n ∈ s.trace → ∃ k, Ev.sched k n ∈ s.trace := by
  induction h with
  | refl => intro n hn; simp [init] at hn
  | tail hab hbc ih =>
    intro n hn
    obtain ⟨ext, e1, e2⟩ := step_fires hbc
    rw [e1] at hn
    rcases List.mem_append.1 hn with h1 | h1
    · obtain ⟨k, hk⟩ := ih n h1
      exact ⟨k, step_trace_mono hbc hk⟩
    · obtain ⟨b, hb⟩ := e2 n h1
      obtain ⟨k, hk⟩ := (keyed_reachable hab).any b n hb
      exact ⟨k, step_trace_mono hbc hk⟩

/-! ## Firing order inside a bucket -/

theorem reachable_scenario_same_quantum_sweep : Reachable scenario_same_quantum_sweep :=
  Relation.ReflTransGen.tail
    (Relation.ReflTransGen.tail
      (Relation.ReflTransGen.tail Relation.ReflTransGen.refl
        (Step.schedule init 0 1000 1 rfl (by unfold us_in_range; norm_num)))
      (Step.schedule _ 0 1010 2 rfl (by unfold us_in_range; norm_num)))
    (Step.deliver scenario_same_quantum ⟨1, 1000, false⟩ [] 1000 rfl rfl)

theorem quiet_reachable {c : Nat} {s : State} (h : QuietRun c s) : Reachable s := by
  induction h with
  | start => exact Relation.ReflTransGen.refl
  | schedule c s now us host _ hp _ hu ih =>
    exact Relation.ReflTransGen.tail ih (Step.schedule s now us host (by rw [hp]; rfl) hu)
  | deliver c s w ws now _ hp hw _ ih =>
    exact Relation.ReflTransGen.tail ih (Step.deliver s w ws now hp hw)
  | loop c s nt _ hp ih => exact Relation.ReflTransGen.tail ih (Step.loop s nt hp)
  | ret c s nt hl it _ hp ih => exact Relation.ReflTransGen.tail ih (Step.ret s nt hl it hp)

/-- The order is kept by a step that invokes no handler and adds no node that was
scheduled before. -/
theorem ordered_no_fire {s t : State} {ext : List Ev} (hs : Reachable s) (ht : Reachable t)
    (ho : Ordered s) (htr : t.trace = s.trace ++ ext) (hext : ∀ n, Ev.fire n ∉ ext)
    (hb : ∀ b Y kY, Y ∈ bucket t b → Ev.sched kY Y ∈ s.trace → Y ∈ bucket s b) :
    (∀ X Y kX kY b, List.Sublist [Ev.sched kY Y, Ev.fire X] t.trace →
      Ev.sched kX X ∈ t.trace → Y ∈ bucket t b → kX ≤ kY) ∧
    (∀ X Y kX kY, List.Sublist [Ev.sched kY Y, Ev.fire X, Ev.fire Y] t.trace →
      Ev.sched kX X ∈ t.trace → kX ≤ kY) := by
  have hold : ∀ X kX, Ev.fire X ∈ s.trace → Ev.sched kX X ∈ t.trace →
      Ev.sched kX X ∈ s.trace := by
    intro X kX hf hx
    obtain ⟨k0, hk0⟩ := fired_was_scheduled hs X hf
    have hk1 : Ev.sched k0 X ∈ t.trace := by rw [htr]; exact List.mem_append_left _ hk0
    have := (sched_unique ht hx hk1 rfl).1
    rw [this]; exact hk0
  constructor
  · intro X Y kX kY b hsub hx hy
    rw [htr] at hsub
    have h1 : List.Sublist [Ev.sched kY Y, Ev.fire X] s.trace :=
      sublist_of_last_not_mem [Ev.sched kY Y] ext s.trace (hext X) hsub
    have hfx : Ev.fire X ∈ s.trace := h1.subset (by simp)
    have hsy : Ev.sched kY Y ∈ s.trace := h1.subset (by simp)
    exact ho.pending X Y kX kY b h1 (hold X kX hfx hx) (hb b Y kY hy hsy)
  · intro X Y kX kY hsub hx
    rw [htr] at hsub
    have h1 : List.Sublist [Ev.sched kY Y, Ev.fire X, Ev.fire Y] s.trace :=
      sublist_of_last_not_mem [Ev.sched kY Y, Ev.fire X] ext s.trace (hext Y) hsub
    have hfx : Ev.fire X ∈ s.trace := h1.subset (by simp)
    exact ho.fired X Y kX kY h1 (hold X kX hfx hx)

/-- The order is kept by a step that invokes the handler of a node `m` whose key is
at most the key of every node in a bucket. -/
theorem ordered_fire {s t : State} {m : Node} {hl : Nat}
    (ho : Ordered s) (htr : t.trace = s.trace ++ [Ev.fire m])
    (hm : m ∈ bucket s hl)
    (hb : ∀ b Y, Y ∈ bucket t b → Y ∈ bucket s b)
    (hmin : ∀ b Y kY kX, Y ∈ bucket s b → Ev.sched kY Y ∈ s.trace →
      Ev.sched kX m ∈ s.trace → kX ≤ kY) :
    (∀ X Y kX kY b, List.Sublist [Ev.sched kY Y, Ev.fire X] t.trace →
      Ev.sched kX X ∈ t.trace → Y ∈ bucket t b → kX ≤ kY) ∧
    (∀ X Y kX kY, List.Sublist [Ev.sched kY Y, Ev.fire X, Ev.fire Y] t.trace →
      Ev.sched kX X ∈ t.trace → kX ≤ kY) := by
  have hold : ∀ X kX, Ev.sched kX X ∈ t.trace → Ev.sched kX X ∈ s.trace := by
    intro X kX hx
    rw [htr] at hx
    rcases List.mem_append.1 hx with h | h
    · exact h
    · simp at h
  constructor
  · intro X Y kX kY b hsub hx hy
    rw [htr] at hsub
    rcases pair_snoc hsub with h1 | ⟨e1, h2⟩
    · exact ho.pending X Y kX kY b h1 (hold X kX hx) (hb b Y hy)
    · simp only [Ev.fire.injEq] at e1
      subst e1
      exact hmin b Y kY kX (hb b Y hy) h2 (hold X kX hx)
  · intro X Y kX kY hsub hx
    rw [htr] at hsub
    rcases triple_snoc hsub with h1 | ⟨e1, h2⟩
    · exact ho.fired X Y kX kY h1 (hold X kX hx)
    · simp only [Ev.fire.injEq] at e1
      subst e1
      exact ho.pending X Y kX kY hl h2 (hold X kX hx) hm

/-- The two kinds of turn of the loop: one that invokes no handler and does not end
inside a handler, or one that detaches the first bucket and enters the handler
of its first node. -/
theorem loop_step_cases (nt : Nat) (s : State) :
    (∃ ext, (loop_step nt s).trace = s.trace ++ ext ∧ (∀ n, Ev.fire n ∉ ext) ∧
      ∀ nt2 hl2 it2, (loop_step nt s).phase ≠ Phase.firing nt2 hl2 it2) ∨
    (∃ key hl rest m l, s.handlerTable = (key, hl) :: rest ∧ bucket s hl = m :: l ∧
      (loop_step nt s).trace = s.trace ++ [Ev.fire m] ∧
      (loop_step nt s).phase = Phase.firing nt hl m.id ∧
      (loop_step nt s).handlerTable = rest ∧
      ∀ b, bucket (loop_step nt s) b = bucket s b) := by
  unfold loop_step
  split
  · exact Or.inl ⟨[], by simp, by simp, by simp⟩
  · rename_i key hl rest ht
    split
    · exact Or.inl ⟨[Ev.arm _ _], rfl, by simp, by simp [timer_loop]⟩
    · simp only []
      split
      · exact Or.inl ⟨[], by simp, by simp, by simp⟩
      · rename_i m l hb
        exact Or.inr ⟨key, hl, rest, m, l, ht, hb, rfl, rfl, rfl, fun b => rfl⟩

/-- The two kinds of return of a handler: the bucket is finished, or the handler of
the next node is entered. -/
theorem handler_return_cases (nt hl it : Nat) (s : State) :
    ((handler_return nt hl it s).trace = s.trace ∧
      (handler_return nt hl it s).phase = Phase.loop nt) ∨
    (∃ m, m ∈ bucket s hl ∧
      (handler_return nt hl it s).trace = s.trace ++ [Ev.fire m] ∧
      (handler_return nt hl it s).phase = Phase.firing nt hl m.id ∧
      (handler_return nt hl it s).handlerTable = s.handlerTable ∧
      ∀ b, bucket (handler_return nt hl it s) b = bucket s b) := by
  unfold handler_return
  split
  · rename_i m hm
    exact Or.inr ⟨m, nodeAfter_mem hm, rfl, rfl, rfl, fun b => rfl⟩
  · exact Or.inl ⟨rfl, rfl⟩

theorem ordered_init : Ordered init := by
  refine ⟨?_, ?_, ?_⟩
  · intro nt hl it hp
    cases hp
  · intro X Y kX kY b hsub
    simp [init] at hsub
  · intro X Y kX kY hsub
    simp [init] at hsub

theorem ordered_quiet {c : Nat} {s : State} (h : QuietRun c s) : Ordered s := by
  induction h with
  | start => exact ordered_init
  | schedule c s now us host hq hp _ hu ih =>
    have hs := quiet_reachable hq
    have ht : Reachable (timeout now us host s).1 :=
      Relation.ReflTransGen.tail hs (Step.schedule s now us host (by rw [hp]; rfl) hu)
    have hw := wf_reachable hs
    have hpf := ordered_no_fire hs ht ih (timeout_trace_eq now us host s)
      (by
        intro n hn
        rcases List.mem_cons.1 hn with e | e
        · cases e
        · split_ifs at e <;> simp at e)
      (by
        intro b Y kY hy hsy
        rcases (mem_timeout_bucket hw.refs_lt).1 hy with ⟨_, e⟩ | m
        · exfalso
          have := mem_schedIds hsy
          rw [schedIds_reachable hs, e] at this
          simp at this
        · exact m)
    refine ⟨?_, hpf.1, hpf.2⟩
    intro nt hl it hf
    rw [timeout_phase, hp] at hf
    cases hf
  | deliver c s w ws now hq hp hwt _ ih =>
    have hs := quiet_reachable hq
    have ht : Reachable (completion w.tc now { s with waits := ws }) :=
      Relation.ReflTransGen.tail hs (Step.deliver s w ws now hp hwt)
    have hpf := ordered_no_fire hs ht ih
      (show (completion w.tc now { s with waits := ws }).trace = s.trace ++ [] by
        rw [completion_trace]; simp)
      (by simp)
      (by
        intro b Y kY hy _
        rw [completion_bucket] at hy
        exact hy)
    refine ⟨?_, hpf.1, hpf.2⟩
    intro nt hl it hf
    unfold completion at hf
    split_ifs at hf
    · have : s.phase = Phase.firing nt hl it := hf
      rw [hp] at this
      cases this
    · have : s.phase = Phase.firing nt hl it := hf
      rw [hp] at this
      cases this
  | loop c s nt hq hp ih =>
    have hs := quiet_reachable hq
    have ht : Reachable (loop_step nt s) :=
      Relation.ReflTransGen.tail hs (Step.loop s nt hp)
    have hw := wf_reachable hs
    have hk := keyed_reachable hs
    rcases loop_step_cases nt s with ⟨ext, e1, e2, e3⟩ | ⟨key, hl, rest, m, l, e1, e2, e3, e4, e5, e6⟩
    · have hpf := ordered_no_fire hs ht ih e1 e2
        (by
          intro b Y kY hy _
          rcases loop_step_bucket_sub nt s b with e | e <;> rw [e] at hy
          · exact hy
          · simp at hy)
      exact ⟨fun nt2 hl2 it2 hf => absurd hf (e3 nt2 hl2 it2), hpf.1, hpf.2⟩
    · have hsorted : Sorted ((key, hl) :: rest) := e1 ▸ hw.sorted
      have hmem : m ∈ bucket s hl := by rw [e2]; exact List.mem_cons_self _ _
      have hhead : (key, hl) ∈ s.handlerTable := by rw [e1]; exact List.mem_cons_self _ _
      have hpf := ordered_fire ih e3 hmem (fun b Y hy => by rw [e6] at hy; exact hy)
        (by
          intro b Y kY kX hy hsy hsm
          have hkm := hk.table key hl m hhead hmem
          have ekX := (sched_unique hs hsm hkm rfl).1
          rcases hk.tidy b Y hy with ⟨k, hkb⟩ | ⟨nt2, it2, hf⟩
          · have hky := hk.table k b Y hkb hy
            have ekY := (sched_unique hs hsy hky rfl).1
            have := sorted_head_le hsorted (e1 ▸ hkb)
            simp only at this
            omega
          · rw [hp] at hf
            cases hf)
      refine ⟨?_, hpf.1, hpf.2⟩
      intro nt2 hl2 it2 hf
      rw [e4] at hf
      simp only [Phase.firing.injEq] at hf
      obtain ⟨_, f2, _⟩ := hf
      subst f2
      refine ⟨key, ?_, ?_⟩
      · intro n hn
        rw [e6] at hn
        exact step_trace_mono (Step.loop s nt hp) (hk.table key hl n hhead hn)
      · intro e he
        rw [e5] at he
        exact (List.pairwise_cons.1 hsorted).1 e he
  | ret c s nt hl it hq hp ih =>
    have hs := quiet_reachable hq
    have ht : Reachable (handler_return nt hl it s) :=
      Relation.ReflTransGen.tail hs (Step.ret s nt hl it hp)
    have hk := keyed_reachable hs
    obtain ⟨kd, hkd1, hkd2⟩ := ih.firing nt hl it hp
    rcases handler_return_cases nt hl it s with ⟨e1, e2⟩ | ⟨m, hm, e3, e4, e5, e6⟩
    · have hpf := ordered_no_fire hs ht ih
        (show (handler_return nt hl it s).trace = s.trace ++ [] by rw [e1]; simp)
        (by simp)
        (by
          intro b Y kY hy _
          rcases handler_return_bucket_sub nt hl it s b with e | e <;> rw [e] at hy
          · exact hy
          · simp at hy)
      refine ⟨?_, hpf.1, hpf.2⟩
      intro nt2 hl2 it2 hf
      rw [e2] at hf
      cases hf
    · have hpf := ordered_fire ih e3 hm (fun b Y hy => by rw [e6] at hy; exact hy)
        (by
          intro b Y kY kX hy hsy hsm
          have ekX := (sched_unique hs hsm (hkd1 m hm) rfl).1
          rcases hk.tidy b Y hy with ⟨k, hkb⟩ | ⟨nt2, it2, hf⟩
          · have hky := hk.table k b Y hkb hy
            have ekY := (sched_unique hs hsy hky rfl).1
            have := hkd2 _ hkb
            simp only at this
            omega
          · rw [hp] at hf
            simp only [Phase.firing.injEq] at hf
            obtain ⟨_, f2, _⟩ := hf
            subst f2
            have ekY := (sched_unique hs hsy (hkd1 Y hy) rfl).1
            omega)
      refine ⟨?_, hpf.1, hpf.2⟩
      intro nt2 hl2 it2 hf
      rw [e4] at hf
      simp only [Phase.firing.injEq] at hf
      obtain ⟨_, f2, _⟩ := hf
      subst f2
      refine ⟨kd, ?_, ?_⟩
      · intro n hn
        rw [e6] at hn
        exact step_trace_mono (Step.ret s nt hl it hp) (hkd1 n hn)
      · intro e he
        rw [e5] at he
        exact hkd2 e he

theorem quiet_sweep (f : Nat) {c : Nat} {s : State} (h : QuietRun c s) :
    QuietRun c (sweep f s) := by
  induction f generalizing s with
  | zero => exact h
  | succ f ih =>
    by_cases hi : s.phase = Phase.idle
    · rw [sweep_idle _ hi]; exact h
    · rw [sweep_succ _ hi]
      apply ih
      unfold sweep_step
      cases hp : s.phase with
      | idle => exact absurd hp hi
      | loop nt => exact QuietRun.loop c s nt h hp
      | firing nt hl it => exact QuietRun.ret c s nt hl it h hp

theorem quiet_on_fire (f : Nat) {c now : Nat} {s : State} (w : Wait) (ws : List Wait)
    (h : QuietRun c s) (hp : s.phase = Phase.idle) (hw : s.waits = w :: ws) (hc : c ≤ now) :
    QuietRun now (on_fire f now s) := by
  unfold on_fire
  rw [hw]
  exact quiet_sweep f (QuietRun.deliver c s w ws now h hp hw hc)

theorem quiet_scenario_batching : QuietRun 0 scenario_batching :=
  QuietRun.schedule 0 _ 0 1100 2
    (QuietRun.schedule 0 init 0 1000 1 QuietRun.start rfl (Nat.le_refl _)
      (by unfold us_in_range; norm_num))
    rfl (Nat.le_refl _) (by unfold us_in_range; norm_num)

theorem quiet_scenario_slack_final : QuietRun 1000 scenario_slack_final := by
  have h1 : QuietRun 0 (timeout 0 1000 1 init).1 :=
    QuietRun.schedule 0 init 0 1000 1 QuietRun.start rfl (Nat.le_refl _)
      (by unfold us_in_range; norm_num)
  have h2 : QuietRun 0 (timeout 0 1400 2 (timeout 0 1000 1 init).1).1 :=
    QuietRun.schedule 0 _ 0 1400 2 h1 rfl (Nat.le_refl _) (by unfold us_in_range; norm_num)
  have h3 : QuietRun 1000 scenario_slack_fired :=
    quiet_on_fire 5 ⟨1, 1000, false⟩ [] h2 rfl rfl (by norm_num)
  have h4 : QuietRun 1000 (timeout 1000 0 3 scenario_slack_fired).1 :=
    QuietRun.schedule 1000 _ 1000 0 3 h3 (by decide) (Nat.le_refl _)
      (by unfold us_in_range; norm_num)
  exact quiet_on_fire 3 ⟨2, 0, false⟩ [] h4 (by decide) (by decide) (Nat.le_refl _)

/-- C3, as stated, fails. In the quiet run `schedule(1000, A); schedule(1400, B)` at
clock 0, the completion at clock 1000, then `schedule(0, C)` and its completion
at clock 1000 (clock readings 0, 0, 1000, 1000, 1000), the handler of B (key
1280, fired early within the 500 µs slack) is invoked before the handler of C
(key 768). -/
theorem later_deadline_fires_first :
    QuietRun 1000 scenario_slack_final ∧
    fired scenario_slack_final.trace = [⟨0, 1⟩, ⟨1, 2⟩, ⟨2, 3⟩] ∧
    List.Sublist [Ev.fire ⟨1, 2⟩, Ev.fire ⟨2, 3⟩] scenario_slack_final.trace ∧
    Ev.sched 1280 ⟨1, 2⟩ ∈ scenario_slack_final.trace ∧
    Ev.sched 768 ⟨2, 3⟩ ∈ scenario_slack_final.trace ∧
    ¬ (1280 ≤ 768) :=
  ⟨quiet_scenario_slack_final, by decide, by decide, by decide, by decide, by decide⟩

/-- C3, amended. In every run made of `timeout` calls interleaved with completions
(no cancel, handlers that do not call the timer, clock readings non-decreasing),
if the handler of X is invoked before the handler of Y, and Y had been scheduled
when the handler of X was invoked, then the quantized deadline X was scheduled
with is at most the one Y was scheduled with. -/
theorem deadline_order (c : Nat) (s : State) (X Y : Node) (kX kY : Nat)
    (h : QuietRun c s)
    (hsub : List.Sublist [Ev.sched kY Y, Ev.fire X, Ev.fire Y] s.trace)
    (hX : Ev.sched kX X ∈ s.trace) : kX ≤ kY :=
  (ordered_quiet h).fired X Y kX kY hsub hX

/-- C3 amended, on the batching scenario after its completion at clock 1000: B was
scheduled before A fired, A fired before B, and 768 ≤ 1024. -/
theorem deadline_order_witness :
    QuietRun 1000 (on_fire 5 1000 scenario_batching) ∧
    List.Sublist [Ev.sched 1024 ⟨1, 2⟩, Ev.fire ⟨0, 1⟩, Ev.fire ⟨1, 2⟩]
      (on_fire 5 1000 scenario_batching).trace ∧
    Ev.sched 768 ⟨0, 1⟩ ∈ (on_fire 5 1000 scenario_batching).trace ∧
    768 ≤ 1024 :=
  ⟨quiet_on_fire 5 ⟨1, 1000, false⟩ [] quiet_scenario_batching rfl rfl (by norm_num),
    by decide, by decide,
    deadline_order 1000 (on_fire 5 1000 scenario_batching) ⟨0, 1⟩ ⟨1, 2⟩ 768 1024
      (quiet_on_fire 5 ⟨1, 1000, false⟩ [] quiet_scenario_batching rfl rfl (by norm_num))
      (by decide) (by decide)⟩

/-! ## Stale completions -/

/-- C20. Stale completions are inert. When no completion is running and the oldest
outstanding completion carries a stamp that differs from the current counter,
its delivery (with any fuel, at any clock) only takes that wait off the OS timer
and, when the stamp is the counter minus one, releases the strand: the trace is
unchanged (no handler is invoked), and so are the table, the heap of buckets,
the counter, `looping`, `finish_time` and `max_tick`. -/
theorem stale_completion_inert (s : State) (w : Wait) (ws : List Wait) (fuel now : Nat)
    (hp : s.phase = Phase.idle) (hw : s.waits = w :: ws) (hne : w.tc ≠ s.timerCount) :
    on_fire fuel now s =
      { s with waits := ws,
               strand := if w.tc = s.timerCount - 1 then false else s.strand } ∧
    (on_fire fuel now s).trace = s.trace ∧
    (on_fire fuel now s).handlerTable = s.handlerTable ∧
    (on_fire fuel now s).heap = s.heap ∧
    (on_fire fuel now s).timerCount = s.timerCount ∧
    (on_fire fuel now s).looping = s.looping ∧
    (on_fire fuel now s).extFinishTime = s.extFinishTime ∧
    (on_fire fuel now s).extMaxTick = s.extMaxTick ∧
    (on_fire fuel now s).phase = Phase.idle := by
  have h : on_fire fuel now s =
      { s with waits := ws,
               strand := if w.tc = s.timerCount - 1 then false else s.strand } := by
    unfold on_fire
    rw [hw]
    simp only [completion, hne, if_false]
    by_cases h1 : w.tc = s.timerCount - 1
    · simp only [h1, if_true]
      exact sweep_idle fuel hp
    · simp only [h1, if_false]
      exact sweep_idle fuel hp
  rw [h]
  exact ⟨rfl, rfl, rfl, rfl, rfl, rfl, rfl, rfl, hp⟩

/-- C20 on scenario 3: the completion of the cancelled first wait (stamp 1, counter 3)
changes nothing but the list of outstanding waits. -/
theorem stale_completion_inert_witness :
    scenario_reverse.phase = Phase.idle ∧
    scenario_reverse.waits = [⟨1, 3000, true⟩, ⟨3, 1000, false⟩] ∧
    (1 : Int) ≠ scenario_reverse.timerCount ∧
    on_fire 0 0 scenario_reverse =
      { scenario_reverse with
        waits := [⟨3, 1000, false⟩],
        strand := if (1 : Int) = scenario_reverse.timerCount - 1 then false
                  else scenario_reverse.strand } :=
  ⟨by decide, by decide, by decide,
    (stale_completion_inert scenario_reverse ⟨1, 3000, true⟩ [⟨3, 1000, false⟩] 0 0
      (by decide) (by decide) (by decide)).1⟩

/-! ## The range of durations -/

/-- C12, as stated, fails: the duration 2^31 * 1000 µs is below 2^63/1000 and the range
check of `timeout` rejects it. -/
theorem duration_below_spec_bound_rejected :
    2147483648000 < 2 ^ 63 / 1000 ∧ ¬ us_in_range 2147483648000 := by
  unfold us_in_range
  norm_num

/-- C12, amended. The range check of `timeout` passes exactly for the durations below
`0x80000000 * 1000 = 2^31 * 1000` µs (2^31 milliseconds), a bound that is below
2^63/1000. -/
theorem duration_range_exact (us : Nat) :
    (us_in_range us ↔ us < 2 ^ 31 * 1000) ∧ 2 ^ 31 * 1000 < 2 ^ 63 / 1000 := by
  unfold us_in_range
  norm_num

/-! ## The rearm decision of `timeout` -/

theorem os_cancel_idem (ws : List Wait) : os_cancel (os_cancel ws) = os_cancel ws := by
  simp [os_cancel]

theorem rearm_extFinishTime (et us : Nat) (s : State) :
    (rearm et us s).extFinishTime =
      if s.looping = false then et
      else if et < s.extFinishTime then et else s.extFinishTime := by
  unfold rearm timer_loop
  cases hl : s.looping
  · simp
  · by_cases h : et < s.extFinishTime <;> simp [h]

theorem timeout_extFinishTime (now us host : Nat) (s : State) :
    (timeout now us host s).1.extFinishTime =
      if s.looping = false then quantize now us
      else if quantize now us < s.extFinishTime then quantize now us
      else s.extFinishTime := by
  simp only [timeout, rearm_extFinishTime]
  simp only [push_front, insert_slot_fst, lock_strand_looping, lock_strand_extFinishTime]

/-- C13, as stated, fails: in scenario 3 the second `timeout` finds the timer looping
with an earlier deadline (768 < 2816) and moves the counter from 1 to 3, not to
2; and the waits armed in the scenario are stamped 1, 3 and 4, not 1, 2 and 3. -/
theorem rearm_steps_counter_twice :
    (timeout 0 3000 1 init).1.looping = true ∧
    quantize 0 1000 < (timeout 0 3000 1 init).1.extFinishTime ∧
    (timeout 0 3000 1 init).1.timerCount = 1 ∧
    scenario_reverse.timerCount = 3 ∧
    ¬ (scenario_reverse.timerCount = (timeout 0 3000 1 init).1.timerCount + 1) ∧
    armStamps scenario_reverse_final.trace = [1, 3, 4] ∧
    ¬ (armStamps scenario_reverse_final.trace = [1, 2, 3]) := by
  decide

/-- C13, amended. Whenever `timeout` is called while the timer is looping and the
quantized deadline is strictly before `finish_time`, the counter increases by
exactly two (once with the cancel of the outstanding wait, once in
`timer_loop`), `finish_time` becomes the new deadline, the outstanding waits are
cancelled, and the new wait is stamped with the new counter.  In scenario 3
(`schedule(3000, A); schedule(1000, B)` at clock 0, each completion run at the
expiry of its wait, clocks 1000 and 2816) the waits armed carry the stamps 1, 3
and 4, B fires before A, and the timer ends idle, not looping. -/
theorem rearm_on_earlier_deadline (now us host : Nat) (s : State)
    (hl : s.looping = true) (hlt : quantize now us < s.extFinishTime) :
    (timeout now us host s).1.timerCount = s.timerCount + 2 ∧
    (timeout now us host s).1.extFinishTime = quantize now us ∧
    (timeout now us host s).1.looping = true ∧
    (timeout now us host s).1.waits =
      os_cancel s.waits ++ [⟨s.timerCount + 2, us, false⟩] ∧
    (timeout now us host s).1.trace =
      s.trace ++ [Ev.sched (quantize now us) ⟨s.nextNode, host⟩,
        Ev.arm us (s.timerCount + 2)] ∧
    armStamps scenario_reverse_final.trace = [1, 3, 4] ∧
    fired scenario_reverse_final.trace = [⟨1, 2⟩, ⟨0, 1⟩] ∧
    scenario_reverse_final.looping = false ∧
    scenario_reverse_final.phase = Phase.idle := by
  have hne : ¬ (s.looping = false) := by rw [hl]; simp
  refine ⟨?_, ?_, timeout_looping now us host s, ?_, ?_, by decide, by decide, by decide,
    by decide⟩
  · rw [timeout_timerCount, if_neg hne, if_pos hlt]
    omega
  · rw [timeout_extFinishTime, if_neg hne, if_pos hlt]
  · rw [timeout_waits, if_neg hne, if_pos hlt, os_cancel_idem]
    have : s.timerCount + 1 + 1 = s.timerCount + 2 := by omega
    rw [this]
  · rw [timeout_trace_eq, if_neg hne, if_pos hlt]
    have : s.timerCount + 1 + 1 = s.timerCount + 2 := by omega
    rw [this]

/-- C13 amended, on the second call of scenario 3. -/
theorem rearm_on_earlier_deadline_witness :
    (timeout 0 3000 1 init).1.looping = true ∧
    quantize 0 1000 < (timeout 0 3000 1 init).1.extFinishTime ∧
    scenario_reverse.timerCount = (timeout 0 3000 1 init).1.timerCount + 2 :=
  ⟨by decide, by decide,
    (rearm_on_earlier_deadline 0 1000 2 (timeout 0 3000 1 init).1 (by decide) (by decide)).1⟩

/-- C14. No rearm for a later deadline. Whenever `timeout` is called while the timer
is looping and the quantized deadline is not before `finish_time`, the counter,
`finish_time`, `looping` and the outstanding waits are unchanged and no wait is
armed: the call only adds the handler to the bucket of its key.  In scenario 2
(`schedule(1000, A); schedule(3000, B)` at clock 0, each completion run at the
expiry of its wait, clocks 1000 and 2816) the OS timer is armed exactly twice,
with the stamps 1 and 2, A fires before B, and the timer ends idle, not
looping. -/
theorem no_rearm_for_later_deadline (now us host : Nat) (s : State)
    (hs : Reachable s) (hl : s.looping = true) (hge : s.extFinishTime ≤ quantize now us) :
    (timeout now us host s).1.timerCount = s.timerCount ∧
    (timeout now us host s).1.extFinishTime = s.extFinishTime ∧
    (timeout now us host s).1.looping = s.looping ∧
    (timeout now us host s).1.waits = s.waits ∧
    (timeout now us host s).1.trace =
      s.trace ++ [Ev.sched (quantize now us) ⟨s.nextNode, host⟩] ∧
    (∃ hl, tableFind (quantize now us) (timeout now us host s).1.handlerTable = some hl ∧
      bucket (timeout now us host s).1 hl = ⟨s.nextNode, host⟩ :: bucket s hl ∧
      ∀ b, b ≠ hl → bucket (timeout now us host s).1 b = bucket s b) ∧
    scenario_in_order.waits = [⟨1, 1000, false⟩] ∧
    armStamps scenario_in_order_final.trace = [1, 2] ∧
    fired scenario_in_order_final.trace = [⟨0, 1⟩, ⟨1, 2⟩] ∧
    scenario_in_order_final.looping = false ∧
    scenario_in_order_final.phase = Phase.idle := by
  have hne : ¬ (s.looping = false) := by rw [hl]; simp
  have hnl : ¬ (quantize now us < s.extFinishTime) := by omega
  refine ⟨?_, ?_, ?_, ?_, ?_, ?_, by decide, by decide, by decide, by decide, by decide⟩
  · rw [timeout_timerCount, if_neg hne, if_neg hnl]
  · rw [timeout_extFinishTime, if_neg hne, if_neg hnl]
  · rw [timeout_looping, hl]
  · rw [timeout_waits, if_neg hne, if_neg hnl]
  · rw [timeout_trace_eq, if_neg hne, if_neg hnl]
  · refine ⟨_, timeout_find now us host s, ?_, ?_⟩
    · rw [timeout_bucket now us host s (wf_reachable hs).refs_lt, if_pos rfl]
    · intro b hb
      rw [timeout_bucket now us host s (wf_reachable hs).refs_lt, if_neg hb]

/-- C14 on the second call of scenario 2. -/
theorem no_rearm_for_later_deadline_witness :
    Reachable (timeout 0 1000 1 init).1 ∧
    (timeout 0 1000 1 init).1.looping = true ∧
    (timeout 0 1000 1 init).1.extFinishTime ≤ quantize 0 3000 ∧
    scenario_in_order.timerCount = (timeout 0 1000 1 init).1.timerCount ∧
    scenario_in_order.waits = (timeout 0 1000 1 init).1.waits :=
  ⟨Relation.ReflTransGen.single
      (Step.schedule init 0 1000 1 rfl (by unfold us_in_range; norm_num)),
    by decide, by decide,
    (no_rearm_for_later_deadline 0 3000 2 (timeout 0 1000 1 init).1
      (Relation.ReflTransGen.single
        (Step.schedule init 0 1000 1 rfl (by unfold us_in_range; norm_num)))
      (by decide) (by decide)).1,
    (no_rearm_for_later_deadline 0 3000 2 (timeout 0 1000 1 init).1
      (Relation.ReflTransGen.single
        (Step.schedule init 0 1000 1 rfl (by unfold us_in_range; norm_num)))
      (by decide) (by decide)).2.2.2.1⟩

/-! ## When `cancel` touches the OS timer -/

/-- A list whose nodes all carry one identity, without repeated identities, has at
most one node. -/
theorem single_of_filter_nil {l : List Node} {nid : Nat} {x : Node}
    (hnd : (l.map Node.id).Nodup) (hf : l.filter (fun n => n.id ≠ nid) = [])
    (hx : x ∈ l) : l = [x] := by
  have hall : ∀ n ∈ l, n.id = nid := by
    intro n hn
    by_contra hne
    have : n ∈ l.filter (fun n => n.id ≠ nid) := List.mem_filter.2 ⟨hn, by simpa using hne⟩
    rw [hf] at this
    simp at this
  match l, hnd, hall, hx with
  | [a], _, _, hx =>
    simp only [List.mem_singleton] at hx
    rw [hx]
  | a :: b :: r, hnd, hall, _ =>
    exfalso
    have ha := hall a (by simp)
    have hb := hall b (by simp)
    simp only [List.map_cons, List.nodup_cons, List.mem_cons, not_or] at hnd
    exact hnd.1.1 (by rw [ha, hb])

/-- For a live handle, `cancel` takes its first branch exactly when the handler is
the only handler of the only bucket of the table. -/
theorem empties_last_iff_sole {s : State} {th : timer_handle} (hw : WF s)
    (hl : LiveHandle s th) :
    (empties th s = true ∧ s.handlerTable.length = 1) ↔ sole_handler s th := by
  constructor
  · rintro ⟨he, hlen⟩
    obtain ⟨b, e1, e2⟩ := live_empties_in_table hw hl he
    obtain ⟨b2, host, f1, f2, _⟩ := hl
    rw [e1] at f1
    simp only [Option.some.injEq] at f1
    subst f1
    refine ⟨b, host, e1, ?_, ?_⟩
    · cases hst : s.handlerTable with
      | nil => rw [hst] at hlen; simp at hlen
      | cons e r =>
        rw [hst] at hlen e2
        cases r with
        | nil =>
          simp only [List.mem_singleton] at e2
          rw [e2]
        | cons e3 r3 => simp at hlen
    · unfold empties at he
      rw [e1] at he
      simp only [List.isEmpty_eq_true] at he
      exact single_of_filter_nil (hw.ids_nodup b) he f2
  · rintro ⟨b, host, e1, e2, e3⟩
    refine ⟨?_, by rw [e2]; rfl⟩
    unfold empties
    rw [e1]
    simp [e3]

/-- C18. `cancel` touches the OS timer only when it empties the table. In a reachable
state, for a handle that `cancel` may be given (non-null, its node still in its
bucket), `cancel` increases the counter (by exactly one) if and only if the
handler was the only handler of the only bucket of the table; in that case it
also cancels the outstanding waits, sets `looping` to false and `max_tick` to
`UINT64_MAX`, and leaves the table empty.  In every other case the counter,
`looping`, `finish_time` and the outstanding waits are unchanged. -/
theorem cancel_touches_timer_iff_sole (s : State) (th : timer_handle)
    (hs : Reachable s) (hl : LiveHandle s th) :
    (sole_handler s th ↔ (cancel th s).1.timerCount = s.timerCount + 1) ∧
    (sole_handler s th →
      (cancel th s).1.waits = os_cancel s.waits ∧
      (cancel th s).1.looping = false ∧
      (cancel th s).1.extMaxTick = UINT64_MAX ∧
      (cancel th s).1.handlerTable = []) ∧
    (¬ sole_handler s th →
      (cancel th s).1.timerCount = s.timerCount ∧
      (cancel th s).1.looping = s.looping ∧
      (cancel th s).1.extFinishTime = s.extFinishTime ∧
      (cancel th s).1.waits = s.waits) := by
  have hw := wf_reachable hs
  have hiff := empties_last_iff_sole hw hl
  obtain ⟨hfin, hcase⟩ := cancel_cases th s
  rcases hcase with ⟨he, hlen, c1, c2, c3, c4⟩ | ⟨hne, c1, c2, c3⟩
  · have hsole := hiff.1 ⟨he, hlen⟩
    refine ⟨⟨fun _ => c2, fun _ => hsole⟩, fun _ => ⟨c3, c1, c4, ?_⟩, fun h => absurd hsole h⟩
    obtain ⟨b, _, hm⟩ := live_empties_in_table hw hl he
    rw [cancel_handlerTable, he, if_pos rfl]
    exact tableErase_single hlen hm
  · have hns : ¬ sole_handler s th := fun h => hne (hiff.2 h)
    refine ⟨⟨fun h => absurd h hns, fun h => ?_⟩, fun h => absurd h hns,
      fun _ => ⟨c2, c1, hfin, c3⟩⟩
    rw [c2] at h
    omega

theorem reachable_after_one_timeout : Reachable (timeout 0 1000 1 init).1 :=
  Relation.ReflTransGen.single
    (Step.schedule init 0 1000 1 rfl (by unfold us_in_range; norm_num))

/-- C18 on the timer after one `timeout`: its handler is the sole handler, and
cancelling its handle steps the counter and stops the looping. -/
theorem cancel_touches_timer_iff_sole_witness :
    Reachable (timeout 0 1000 1 init).1 ∧
    LiveHandle (timeout 0 1000 1 init).1 ⟨some 0, 0, 768⟩ ∧
    sole_handler (timeout 0 1000 1 init).1 ⟨some 0, 0, 768⟩ ∧
    (cancel ⟨some 0, 0, 768⟩ (timeout 0 1000 1 init).1).1.timerCount =
      (timeout 0 1000 1 init).1.timerCount + 1 :=
  ⟨reachable_after_one_timeout,
    ⟨0, 1, rfl, by decide, Or.inl (by decide)⟩,
    ⟨0, 1, rfl, by decide, by decide⟩,
    (cancel_touches_timer_iff_sole (timeout 0 1000 1 init).1 ⟨some 0, 0, 768⟩
      reachable_after_one_timeout ⟨0, 1, rfl, by decide, Or.inl (by decide)⟩).1.1
      ⟨0, 1, rfl, by decide, by decide⟩⟩

/-! ## Keys, buckets of the table and `_extMaxTick` -/

theorem quantize_dvd (now us : Nat) : 256 ∣ quantize now us := by
  rw [quantize_eq]; exact Nat.dvd_mul_left _ _

theorem quantize_lt_max (now us : Nat) : quantize now us < UINT64_MAX := by
  have h1 : (now + us) % 2 ^ 64 < 2 ^ 64 := Nat.mod_lt _ (by norm_num)
  rw [quantize_eq]
  unfold UINT64_MAX
  omega

theorem timeout_extMaxTick (now us host : Nat) (s : State) :
    (timeout now us host s).1.extMaxTick =
      if quantize now us ≥ s.extMaxTick then quantize now us else s.extMaxTick := by
  simp only [timeout, rearm_extMaxTick, push_front, insert_slot_fst, lock_strand_extMaxTick]

theorem cancel_extMaxTick (th : timer_handle) (s : State) :
    (cancel th s).1.extMaxTick = s.extMaxTick ∨
    (cancel th s).1.extMaxTick = UINT64_MAX ∨
    (empties th s = true ∧ th.tableNode = s.extMaxTick) := by
  unfold cancel empties
  cases th.handlerList with
  | none => exact Or.inl rfl
  | some hl =>
    simp only []
    split_ifs with h1 h2 h3
    · exact Or.inr (Or.inl rfl)
    · exact Or.inr (Or.inr ⟨h1, h3⟩)
    · exact Or.inl rfl
    · exact Or.inl rfl

theorem completion_extMaxTick (tc : Int) (now : Nat) (s : State) :
    (completion tc now s).extMaxTick = s.extMaxTick := by
  unfold completion; split_ifs <;> rfl

theorem completion_handlerTable (tc : Int) (now : Nat) (s : State) :
    (completion tc now s).handlerTable = s.handlerTable := by
  unfold completion; split_ifs <;> rfl

theorem loop_step_extMaxTick (nt : Nat) (s : State) :
    (loop_step nt s).extMaxTick = s.extMaxTick := by
  unfold loop_step
  split
  · rfl
  · split
    · rfl
    · simp only []
      split <;> rfl

theorem handler_return_extMaxTick (nt hl it : Nat) (s : State) :
    (handler_return nt hl it s).extMaxTick = s.extMaxTick := by
  unfold handler_return
  split <;> rfl

theorem handler_return_handlerTable (nt hl it : Nat) (s : State) :
    (handler_return nt hl it s).handlerTable = s.handlerTable := by
  unfold handler_return
  split <;> rfl

/-- What a turn of the loop does to the table and the buckets: nothing, or it drops
the first entry and either enters its bucket or clears it. -/
theorem loop_step_table_cases (nt : Nat) (s : State) :
    ((loop_step nt s).handlerTable = s.handlerTable ∧
      ∀ b, bucket (loop_step nt s) b = bucket s b) ∨
    (∃ key hl rest, s.handlerTable = (key, hl) :: rest ∧
      (loop_step nt s).handlerTable = rest ∧
      ∀ b, b ≠ hl → bucket (loop_step nt s) b = bucket s b) := by
  unfold loop_step
  split
  · exact Or.inl ⟨rfl, fun b => rfl⟩
  · rename_i key hl rest ht
    split
    · exact Or.inl ⟨rfl, fun b => rfl⟩
    · simp only []
      split
      · refine Or.inr ⟨key, hl, rest, ht, rfl, ?_⟩
        intro b hb
        simp only [bucket, getD_clear, if_neg hb]
      · exact Or.inr ⟨key, hl, rest, ht, rfl, fun b _ => rfl⟩

theorem tableInv_init : TableInv init := by
  refine ⟨?_, ?_, rfl⟩ <;> simp [init]

theorem tableInv_step {s t : State} (hw : WF s) (h : TableInv s) (hst : Step s t) :
    TableInv t := by
  cases hst with
  | schedule now us host hc hu =>
    refine ⟨?_, ?_, ?_⟩
    · intro e he
      rcases timeout_table_cases he with h1 | ⟨h1, _⟩
      · exact h.aligned e h1
      · rw [h1]; exact quantize_dvd now us
    · intro e he
      rw [timeout_bucket now us host s hw.refs_lt]
      split
      · simp
      · rename_i hne
        rcases timeout_table_cases he with h1 | ⟨h1, h2⟩
        · exact h.nonempty e h1
        · exfalso
          apply hne
          rw [h1, h2]
          rfl
    · rw [timeout_extMaxTick, h.max, if_neg]
      have := quantize_lt_max now us
      omega
  | cancel th hc hl =>
    refine ⟨fun e he => h.aligned e (mem_cancel_table he), ?_, ?_⟩
    · intro e he
      have he0 := mem_cancel_table he
      rw [cancel_bucket]
      split
      · rename_i hh
        intro hf
        have hemp : empties th s = true := by
          unfold empties
          rw [hh]
          simp only [List.isEmpty_eq_true]
          exact hf
        rw [cancel_handlerTable, hemp, if_pos rfl] at he
        obtain ⟨b, e1, e2⟩ := live_empties_in_table hw hl hemp
        rw [hh] at e1
        simp only [Option.some.injEq] at e1
        have e3 : (e.1, b) ∈ s.handlerTable := by rw [← e1]; exact he0
        have := hw.refs_inj _ _ _ e3 e2
        exact (mem_tableErase.1 he).2 this
      · exact h.nonempty e he0
    · rcases cancel_extMaxTick th s with e | e | ⟨he, e⟩
      · rw [e]; exact h.max
      · exact e
      · exfalso
        obtain ⟨b, _, e2⟩ := live_empties_in_table hw hl he
        have := h.aligned _ e2
        rw [show (th.tableNode, b).1 = th.tableNode from rfl, e, h.max] at this
        unfold UINT64_MAX at this
        omega
  | deliver w ws now hp hwt =>
    refine ⟨?_, ?_, ?_⟩
    · intro e he
      rw [completion_handlerTable] at he
      exact h.aligned e he
    · intro e he
      rw [completion_handlerTable] at he
      rw [completion_bucket]
      exact h.nonempty e he
    · rw [completion_extMaxTick]; exact h.max
  | loop nt hp =>
    refine ⟨?_, ?_, by rw [loop_step_extMaxTick]; exact h.max⟩
    · intro e he
      rcases loop_step_table_cases nt s with ⟨e1, _⟩ | ⟨key, hl, rest, e1, e2, _⟩
      · rw [e1] at he; exact h.aligned e he
      · rw [e2] at he
        exact h.aligned e (by rw [e1]; exact List.mem_cons_of_mem _ he)
    · intro e he
      rcases loop_step_table_cases nt s with ⟨e1, e2⟩ | ⟨key, hl, rest, e1, e2, e3⟩
      · rw [e1] at he
        rw [e2]
        exact h.nonempty e he
      · rw [e2] at he
        have hm : e ∈ s.handlerTable := by rw [e1]; exact List.mem_cons_of_mem _ he
        have hne : e.2 ≠ hl := by
          intro heq
          have hs : Sorted ((key, hl) :: rest) := e1 ▸ hw.sorted
          have h1 : (e.1, hl) ∈ s.handlerTable := by rw [← heq]; exact hm
          have h2 := hw.refs_inj key e.1 hl (by rw [e1]; exact List.mem_cons_self _ _) h1
          have h3 := (List.pairwise_cons.1 hs).1 e he
          simp only at h3
          omega
        rw [e3 _ hne]
        exact h.nonempty e hm
  | ret nt hl it hp =>
    refine ⟨?_, ?_, by rw [handler_return_extMaxTick]; exact h.max⟩
    · intro e he
      rw [handler_return_handlerTable] at he
      exact h.aligned e he
    · intro e he
      rw [handler_return_handlerTable] at he
      have hne : e.2 ≠ hl := by
        intro heq
        exact (hw.firing nt hl it hp).1 e.1 (by rw [← heq]; exact he)
      have hb : bucket (handler_return nt hl it s) e.2 = bucket s e.2 := by
        unfold handler_return
        split
        · rfl
        · simp only [bucket, getD_clear, if_neg hne]
      rw [hb]
      exact h.nonempty e he

theorem tableInv_reachable {s : State} (h : Reachable s) : TableInv s := by
  induction h with
  | refl => exact tableInv_init
  | tail hab hbc ih => exact tableInv_step (wf_reachable hab) ih hbc

/-- C11 fails on the code. On the freshly constructed timer, with the clock at 0,
`timeout(1000, A)` leaves the key 768 in the table, the largest key present, and
leaves `_extMaxTick` at `UINT64_MAX`: the test `et >= _extMaxTick` against the
initial value `(unsigned long long)-1` is false, so the branch that records the
new maximum is not taken. -/
theorem max_tick_not_tracked :
    (timeout 0 1000 1 init).1.handlerTable = [(768, 0)] ∧
    init.extMaxTick = UINT64_MAX ∧
    ¬ (quantize 0 1000 ≥ init.extMaxTick) ∧
    (timeout 0 1000 1 init).1.extMaxTick = UINT64_MAX ∧
    ¬ ((timeout 0 1000 1 init).1.extMaxTick = 768) := by
  decide

/-! ## `looping` and pending work -/

theorem sorted_other_key {t : List (Nat × Nat)} (hs : Sorted t) (hlen : t.length ≠ 1)
    {k b : Nat} (hm : (k, b) ∈ t) : ∃ e ∈ t, e.1 ≠ k := by
  match t, hs, hlen, hm with
  | [_], _, hlen, _ => simp at hlen
  | x :: y :: r, hs, _, _ =>
    have hlt : x.1 < y.1 := (List.pairwise_cons.1 hs).1 y (List.mem_cons_self _ _)
    by_cases hx : x.1 = k
    · exact ⟨y, by simp, by omega⟩
    · exact ⟨x, by simp, hx⟩

theorem loop_step_idle_looping (nt : Nat) (s : State)
    (hp : (loop_step nt s).phase = Phase.idle) (hl : (loop_step nt s).looping = true) :
    (loop_step nt s).handlerTable ≠ [] := by
  revert hp hl
  unfold loop_step
  split
  · intro _ hl
    cases hl
  · rename_i key hl rest ht
    split
    · intro _ _
      show s.handlerTable ≠ []
      rw [ht]
      simp
    · simp only []
      split
      · intro hp
        cases hp
      · intro hp
        cases hp

/-- While no completion runs, a looping timer has a non-empty table. -/
theorem looping_idle_nonempty {s : State} (h : Reachable s) :
    s.phase = Phase.idle → s.looping = true → s.handlerTable ≠ [] := by
  induction h with
  | refl => intro _ hl; cases hl
  | tail hab hbc ih =>
    rename_i s0 t
    have hw := wf_reachable hab
    cases hbc with
    | schedule now us host hc hu =>
      intro _ _ hnil
      have := tableFind_some_mem (timeout_find now us host s0)
      rw [hnil] at this
      simp at this
    | cancel th hc hl =>
      intro hp hlo
      rw [cancel_phase] at hp
      obtain ⟨_, hcase⟩ := cancel_cases th s0
      rcases hcase with ⟨_, _, c1, _⟩ | ⟨hne, c1, _, _⟩
      · rw [c1] at hlo
        cases hlo
      · rw [c1] at hlo
        have h0 := ih hp hlo
        rw [cancel_handlerTable]
        split
        · rename_i he
          have hlen : s0.handlerTable.length ≠ 1 := fun hlen => hne ⟨he, hlen⟩
          obtain ⟨b, _, hm⟩ := live_empties_in_table hw hl he
          obtain ⟨e, he1, he2⟩ := sorted_other_key hw.sorted hlen hm
          intro hnil
          have : e ∈ tableErase th.tableNode s0.handlerTable := mem_tableErase.2 ⟨he1, he2⟩
          rw [hnil] at this
          simp at this
        · exact h0
    | deliver w ws now hp0 hwt =>
      unfold completion
      split_ifs
      · intro hp
        cases hp
      · intro hp hlo
        exact ih hp0 hlo
      · intro hp hlo
        exact ih hp0 hlo
    | loop nt hp0 => exact loop_step_idle_looping nt s0
    | ret nt hl it hp0 =>
      intro hp
      rcases handler_return_cases nt hl it s0 with ⟨_, e2⟩ | ⟨m, _, _, e4, _⟩
      · rw [e2] at hp
        cases hp
      · rw [e4] at hp
        cases hp

/-- C15. `looping` tracks pending work. In every reachable state in which no
completion is running, `looping` is true if and only if the table is non-empty.
In every reachable state, `looping` false implies that the table is empty, so a
`timeout` entered with `looping` false leaves exactly one entry in the table
(the assertion `_handlerTable.size() == 1` holds).  And when no completion is
running and no bucket holds a node any more (every scheduled handler has fired
or been cancelled), `looping` is false and the table is empty. -/
theorem looping_tracks_pending (s : State) (hs : Reachable s) :
    (s.phase = Phase.idle → (s.looping = true ↔ s.handlerTable ≠ [])) ∧
    (s.looping = false →
      s.handlerTable = [] ∧
      ∀ now us host, (timeout now us host s).1.handlerTable.length = 1) ∧
    (s.phase = Phase.idle → (∀ b, bucket s b = []) →
      s.looping = false ∧ s.handlerTable = []) := by
  have hb := balanced_reachable hs
  have hiff : s.phase = Phase.idle → (s.looping = true ↔ s.handlerTable ≠ []) := by
    intro hp
    constructor
    · exact looping_idle_nonempty hs hp
    · intro hne
      cases hl : s.looping
      · exact absurd (hb.pending hl) hne
      · rfl
  refine ⟨hiff, ?_, ?_⟩
  · intro hl
    have ht := hb.pending hl
    refine ⟨ht, ?_⟩
    intro now us host
    rw [timeout_handlerTable, ht]
    simp [tableFind, tableInsert]
  · intro hp hall
    have ht : s.handlerTable = [] := by
      cases hst : s.handlerTable with
      | nil => rfl
      | cons e r =>
        exfalso
        exact (tableInv_reachable hs).nonempty e (by rw [hst]; exact List.mem_cons_self _ _)
          (hall e.2)
    refine ⟨?_, ht⟩
    cases hl : s.looping
    · rfl
    · exact absurd ht ((hiff hp).1 hl)

/-- C15 on the batching scenario after its completion has run at clock 1000: every
handler has fired, and the timer is not looping with an empty table. -/
theorem looping_tracks_pending_witness :
    Reachable (on_fire 5 1000 scenario_batching) ∧
    (on_fire 5 1000 scenario_batching).looping = false ∧
    (on_fire 5 1000 scenario_batching).handlerTable = [] ∧
    (timeout 1000 0 3 (on_fire 5 1000 scenario_batching)).1.handlerTable.length = 1 :=
  ⟨Relation.ReflTransGen.trans reachable_scenario_batching (steps_on_fire 5 1000 rfl),
    by decide, by decide,
    ((looping_tracks_pending (on_fire 5 1000 scenario_batching)
      (Relation.ReflTransGen.trans reachable_scenario_batching
        (steps_on_fire 5 1000 rfl))).2.1 (by decide)).2 1000 0 3⟩

/-! ## The object pool -/

theorem pick_nil {q : ObjPool_} (hl : q.link = []) :
    q.pick = ({ q with fresh := q.fresh + 1, lent := q.fresh :: q.lent,
                       log := q.log ++ [PoolEv.create q.fresh] }, q.fresh) := by
  unfold ObjPool_.pick
  rw [hl]

theorem pick_cons {q : ObjPool_} {r : Nat} {rest : List Nat} (hl : q.link = r :: rest) :
    q.pick = ({ q with nodeCount := (q.nodeCount + SIZE_MOD - 1) % SIZE_MOD,
                       link := rest, lent := r :: q.lent }, r) := by
  unfold ObjPool_.pick
  rw [hl]

theorem poolInv_create (poolSize : Nat) : PoolInv poolSize (ObjPool_.create poolSize) := by
  refine ⟨rfl, rfl, ?_, ?_, ?_⟩ <;> simp [ObjPool_.create]

theorem poolInv_pick {poolSize : Nat} {q : ObjPool_} (hsz : poolSize < SIZE_MOD)
    (h : PoolInv poolSize q) : PoolInv poolSize q.pick.1 := by
  have hnd := h.nodup
  have hal := h.allocated
  have hb := h.bound
  have hc := h.count
  cases hl : q.link with
  | nil =>
    rw [pick_nil hl]
    rw [hl] at hnd hal
    refine ⟨h.cap, hc, hb, ?_, ?_⟩
    · show (q.link ++ q.fresh :: q.lent).Nodup
      rw [hl]
      simp only [List.nil_append, List.nodup_cons] at hnd ⊢
      refine ⟨?_, hnd⟩
      intro hm
      have := hal q.fresh (by simpa using hm)
      omega
    · intro x hx
      show x < q.fresh + 1
      have hx2 : x ∈ q.link ++ q.fresh :: q.lent := hx
      rw [hl] at hx2
      simp only [List.nil_append, List.mem_cons] at hx2
      rcases hx2 with e | m
      · omega
      · have := hal x (by simpa using m)
        omega
  | cons r rest =>
    rw [pick_cons hl]
    rw [hl] at hnd hal hb hc
    simp only [List.length_cons] at hb hc
    refine ⟨h.cap, ?_, ?_, ?_, ?_⟩
    · show (q.nodeCount + SIZE_MOD - 1) % SIZE_MOD = rest.length
      rw [hc]
      have e : rest.length + 1 + SIZE_MOD - 1 = rest.length + SIZE_MOD := by omega
      have hlt : rest.length < SIZE_MOD := by omega
      rw [e, Nat.add_mod_right, Nat.mod_eq_of_lt hlt]
    · show rest.length ≤ poolSize
      omega
    · show (rest ++ r :: q.lent).Nodup
      have hp : List.Perm (rest ++ r :: q.lent) (r :: (rest ++ q.lent)) := List.perm_middle
      exact hp.nodup_iff.2 (by simpa using hnd)
    · intro x hx
      have hx2 : x ∈ rest ++ r :: q.lent := hx
      apply hal x
      simp only [List.mem_append, List.mem_cons] at hx2 ⊢
      tauto

theorem poolInv_recycle {poolSize : Nat} {q : ObjPool_} {p : Nat} (hsz : poolSize < SIZE_MOD)
    (h : PoolInv poolSize q) (hp : p ∈ q.lent) : PoolInv poolSize (q.recycle p) := by
  have hperm : List.Perm (p :: q.link ++ q.lent.erase p) (q.link ++ q.lent) := by
    have h1 : List.Perm q.lent (p :: q.lent.erase p) := List.perm_cons_erase hp
    have h2 : List.Perm (q.link ++ q.lent) (q.link ++ p :: q.lent.erase p) :=
      List.Perm.append_left _ h1
    have h3 : List.Perm (q.link ++ p :: q.lent.erase p) (p :: (q.link ++ q.lent.erase p)) :=
      List.perm_middle
    exact (h2.trans h3).symm
  unfold ObjPool_.recycle
  split
  · rename_i hlt
    rw [h.cap, h.count] at hlt
    have hlt2 : q.link.length + 1 < SIZE_MOD := by omega
    refine ⟨h.cap, ?_, ?_, ?_, ?_⟩
    · show (q.nodeCount + 1) % SIZE_MOD = (p :: q.link).length
      rw [h.count, List.length_cons, Nat.mod_eq_of_lt hlt2]
    · show (p :: q.link).length ≤ poolSize
      rw [List.length_cons]
      omega
    · show (p :: q.link ++ q.lent.erase p).Nodup
      exact hperm.nodup_iff.2 h.nodup
    · intro x hx
      have hx2 : x ∈ p :: q.link ++ q.lent.erase p := hx
      exact h.allocated x (hperm.subset hx2)
  · refine ⟨h.cap, h.count, h.bound, ?_, ?_⟩
    · show (q.link ++ q.lent.erase p).Nodup
      exact List.Nodup.sublist
        (List.Sublist.append (List.Sublist.refl _) (List.erase_sublist p q.lent)) h.nodup
    · intro x hx
      have hx2 : x ∈ q.link ++ q.lent.erase p := hx
      apply h.allocated x
      rcases List.mem_append.1 hx2 with m | m
      · exact List.mem_append_left _ m
      · exact List.mem_append_right _ (List.mem_of_mem_erase m)

theorem poolInv_run {poolSize : Nat} {q : ObjPool_} (hsz : poolSize < SIZE_MOD)
    (h : PoolRun poolSize q) : PoolInv poolSize q := by
  induction h with
  | create => exact poolInv_create poolSize
  | pick q _ ih => exact poolInv_pick hsz ih
  | recycle q p _ hp ih => exact poolInv_recycle hsz ih hp

theorem recycle_retain {q : ObjPool_} (p : Nat) (hc : q.nodeCount < q.poolMaxSize) :
    q.recycle p = { q with nodeCount := (q.nodeCount + 1) % SIZE_MOD,
                           link := p :: q.link, lent := q.lent.erase p } := by
  unfold ObjPool_.recycle
  rw [if_pos hc]

theorem recycle_discard {q : ObjPool_} (p : Nat) (hc : ¬ q.nodeCount < q.poolMaxSize) :
    q.recycle p = { q with lent := q.lent.erase p, log := q.log ++ [PoolEv.destroy p] } := by
  unfold ObjPool_.recycle
  rw [if_neg hc]

theorem recycle_retain_link {q : ObjPool_} (p : Nat) (hc : q.nodeCount < q.poolMaxSize) :
    (q.recycle p).link = p :: q.link := by
  rw [recycle_retain p hc]

theorem recycle_retain_log {q : ObjPool_} (p : Nat) (hc : q.nodeCount < q.poolMaxSize) :
    (q.recycle p).log = q.log := by
  rw [recycle_retain p hc]

theorem pick_head {q : ObjPool_} {r : Nat} {rest : List Nat} (hl : q.link = r :: rest) :
    q.pick.2 = r ∧ q.pick.1.link = rest ∧ q.pick.1.log = q.log := by
  rw [pick_cons hl]
  exact ⟨rfl, rfl, rfl⟩

/-- C16. Pool retention cap. After every sequence of `pick` and `recycle` calls on a
pool constructed with cap `poolSize` (a `size_t`), each `recycle` giving back an
object that a `pick` handed out, the counter of retained objects is the length
of the free list and is at most `poolSize`, and no object is retained twice.  A
`recycle` performed when the free list holds `poolSize` objects leaves the free
list and the counter as they are and destroys and frees the object.  A `pick`
on a non-empty free list returns its head and calls no creator; the head is the
most recently retained object: a `pick` that follows a retaining `recycle(p)`
returns `p`. -/
theorem pool_retention_cap (poolSize : Nat) (q : ObjPool_)
    (hsz : poolSize < SIZE_MOD) (h : PoolRun poolSize q) :
    q.nodeCount = q.link.length ∧
    q.link.length ≤ poolSize ∧
    q.link.Nodup ∧
    (∀ p, q.link.length = poolSize →
      (q.recycle p).link = q.link ∧ (q.recycle p).nodeCount = q.nodeCount ∧
      (q.recycle p).log = q.log ++ [PoolEv.destroy p]) ∧
    (∀ r rest, q.link = r :: rest →
      q.pick.2 = r ∧ q.pick.1.link = rest ∧ q.pick.1.log = q.log ∧
      q.pick.1.nodeCount = rest.length) ∧
    (∀ p, q.link.length < poolSize →
      (q.recycle p).link = p :: q.link ∧ (q.recycle p).log = q.log ∧
      (q.recycle p).pick.2 = p ∧ (q.recycle p).pick.1.log = q.log) := by
  have hi := poolInv_run hsz h
  refine ⟨hi.count, hi.bound, (List.nodup_append.1 hi.nodup).1, ?_, ?_, ?_⟩
  · intro p hfull
    have hnl : ¬ (q.nodeCount < q.poolMaxSize) := by
      rw [hi.cap, hi.count, hfull]; omega
    rw [recycle_discard p hnl]
    exact ⟨rfl, rfl, rfl⟩
  · intro r rest hl
    have hp := (poolInv_pick hsz hi).count
    have hh := pick_head hl
    rw [hh.2.1] at hp
    exact ⟨hh.1, hh.2.1, hh.2.2, hp⟩
  · intro p hlt
    have hc : q.nodeCount < q.poolMaxSize := by
      rw [hi.cap, hi.count]; exact hlt
    have hh := pick_head (recycle_retain_link p hc)
    exact ⟨recycle_retain_link p hc, recycle_retain_log p hc, hh.1,
      hh.2.2.trans (recycle_retain_log p hc)⟩

/-- C16 on a pool of cap 1 after two objects were picked and the first was recycled:
the free list is full, and recycling the second destroys it. -/
theorem pool_retention_cap_witness :
    (1 : Nat) < SIZE_MOD ∧
    PoolRun 1 (((ObjPool_.create 1).pick.1.pick.1).recycle 0) ∧
    ((((ObjPool_.create 1).pick.1.pick.1).recycle 0).recycle 1).link = [0] ∧
    ((((ObjPool_.create 1).pick.1.pick.1).recycle 0).recycle 1).log =
      [PoolEv.create 0, PoolEv.create 1, PoolEv.destroy 1] :=
  ⟨by unfold SIZE_MOD; norm_num,
    PoolRun.recycle _ 0 (PoolRun.pick _ (PoolRun.pick _ PoolRun.create)) (by decide),
    by decide,
    ((pool_retention_cap 1 (((ObjPool_.create 1).pick.1.pick.1).recycle 0)
      (by unfold SIZE_MOD; norm_num)
      (PoolRun.recycle _ 0 (PoolRun.pick _ (PoolRun.pick _ PoolRun.create)) (by decide))).2.2.2.1
      1 (by decide)).2.2⟩

/-! ## The index and what was scheduled, fired and cancelled -/

theorem history_reachable {s : State} {cs : List Nat} (h : History s cs) : Reachable s := by
  induction h with
  | start => exact Relation.ReflTransGen.refl
  | schedule s cs now us host _ hc hu ih => exact ih.tail (Step.schedule s now us host hc hu)
  | cancel s cs th _ hc hl ih => exact ih.tail (Step.cancel s th hc hl)
  | deliver s cs w ws now _ hp hw ih => exact ih.tail (Step.deliver s w ws now hp hw)
  | loop s cs nt _ hp ih => exact ih.tail (Step.loop s nt hp)
  | ret s cs nt hl it _ hp ih => exact ih.tail (Step.ret s nt hl it hp)

theorem reachable_history {s : State} (h : Reachable s) : ∃ cs, History s cs := by
  induction h with
  | refl => exact ⟨[], History.start⟩
  | tail _ hst ih =>
    obtain ⟨cs, hcs⟩ := ih
    cases hst with
    | schedule now us host hc hu => exact ⟨cs, History.schedule _ cs now us host hcs hc hu⟩
    | cancel th hc hl => exact ⟨_, History.cancel _ cs th hcs hc hl⟩
    | deliver w ws now hp hw => exact ⟨cs, History.deliver _ cs w ws now hcs hp hw⟩
    | loop nt hp => exact ⟨cs, History.loop _ cs nt hcs hp⟩
    | ret nt hl it hp => exact ⟨cs, History.ret _ cs nt hl it hcs hp⟩

theorem nodeAfter_some_mem {it : Nat} {l : List Node} {n : Node}
    (h : nodeAfter it l = some n) : ∃ x ∈ l, x.id = it := by
  induction l with
  | nil => simp [nodeAfter] at h
  | cons a rest ih =>
    by_cases e : a.id = it
    · exact ⟨a, List.mem_cons_self _ _, e⟩
    · simp only [nodeAfter, e, if_false] at h
      obtain ⟨x, hx, hxi⟩ := ih h
      exact ⟨x, List.mem_cons_of_mem _ hx, hxi⟩

/-- In a bucket listed by decreasing identity, the nodes not after the successor of
`it` are that successor and the nodes not after `it`. -/
theorem nodeAfter_dec {it : Nat} {l : List Node} {n : Node}
    (hp : l.Pairwise (fun x y => y.id < x.id)) (h : nodeAfter it l = some n) :
    ∀ m ∈ l, n.id ≤ m.id → m = n ∨ it ≤ m.id := by
  induction l with
  | nil => simp [nodeAfter] at h
  | cons a rest ih =>
    intro m hm hle
    rw [List.pairwise_cons] at hp
    by_cases e : a.id = it
    · simp only [nodeAfter, e, if_true] at h
      cases rest with
      | nil => simp at h
      | cons c rest2 =>
        simp only [List.head?_cons, Option.some.injEq] at h
        subst h
        rcases List.mem_cons.1 hm with h1 | h1
        · right; rw [h1, e]
        · rcases List.mem_cons.1 h1 with h2 | h2
          · left; exact h2
          · exfalso
            have := (List.pairwise_cons.1 hp.2).1 m h2
            omega
    · simp only [nodeAfter, e, if_false] at h
      rcases List.mem_cons.1 hm with h1 | h1
      · right
        obtain ⟨x, hx, hxi⟩ := nodeAfter_some_mem h
        have := hp.1 x hx
        rw [h1]
        omega
      · exact ih hp.2 h m h1 hle

/-- In a bucket listed by decreasing identity, a node without successor is the last. -/
theorem nodeAfter_none_last {it : Nat} {l : List Node}
    (hp : l.Pairwise (fun x y => y.id < x.id)) (hi : ∃ x ∈ l, x.id = it)
    (h : nodeAfter it l = none) : ∀ m ∈ l, it ≤ m.id := by
  induction l with
  | nil => simp
  | cons a rest ih =>
    intro m hm
    rw [List.pairwise_cons] at hp
    by_cases e : a.id = it
    · simp only [nodeAfter, e, if_true] at h
      cases rest with
      | nil =>
        simp only [List.mem_singleton] at hm
        rw [hm, e]
      | cons c rest2 => simp at h
    · simp only [nodeAfter, e, if_false] at h
      obtain ⟨x, hx, hxi⟩ := hi
      have hxr : x ∈ rest := by
        rcases List.mem_cons.1 hx with h1 | h1
        · exact absurd (h1 ▸ hxi) e
        · exact h1
      rcases List.mem_cons.1 hm with h1 | h1
      · have := hp.1 x hxr
        rw [h1]
        omega
      · exact ih hp.2 ⟨x, hxr, hxi⟩ h m h1

theorem completion_phase_cases (tc : Int) (now : Nat) {s : State} (hp : s.phase = Phase.idle) :
    (completion tc now s).phase = Phase.idle ∨
      (completion tc now s).phase = Phase.loop (now % U64) := by
  unfold completion
  split_ifs
  · exact Or.inr rfl
  · exact Or.inl hp
  · exact Or.inl hp

theorem handler_return_some {nt hl it : Nat} {s : State} {m : Node}
    (h : nodeAfter it (bucket s hl) = some m) :
    handler_return nt hl it s =
      { s with phase := Phase.firing nt hl m.id, trace := s.trace ++ [Ev.fire m] } := by
  unfold handler_return
  rw [h]

theorem handler_return_none {nt hl it : Nat} {s : State}
    (h : nodeAfter it (bucket s hl) = none) :
    handler_return nt hl it s = { s with heap := s.heap.set hl [], phase := Phase.loop nt } := by
  unfold handler_return
  rw [h]

theorem passed_step {s t : State} (hs : Reachable s) (h : Passed s) (hst : Step s t) :
    Passed t := by
  have hw := wf_reachable hs
  have hwt := wf_reachable (hs.tail hst)
  cases hst with
  | schedule now us host hc hu =>
    intro nt hl it hp n hn hle
    have hp2 := hp
    rw [timeout_phase] at hp2
    rcases (mem_timeout_bucket hw.refs_lt).1 hn with ⟨e, _⟩ | m
    · exfalso
      have hf := tableFind_some_mem (timeout_find now us host s)
      rw [← e] at hf
      exact (hwt.firing nt hl it hp).1 _ hf
    · exact step_trace_mono (Step.schedule s now us host hc hu) (h nt hl it hp2 n m hle)
  | cancel th hc hl2 =>
    intro nt hl it hp n hn hle
    rw [cancel_phase] at hp
    rw [cancel_trace]
    exact h nt hl it hp n (mem_cancel_bucket hn) hle
  | deliver w ws now hp0 hwt0 =>
    intro nt hl it hp n hn hle
    exfalso
    have hp1 : ({ s with waits := ws } : State).phase = Phase.idle := hp0
    rcases completion_phase_cases w.tc now hp1 with e | e <;> rw [e] at hp <;> cases hp
  | loop nt0 hp0 =>
    intro nt hl it hp n hn hle
    rcases loop_step_cases nt0 s with ⟨_, _, _, hnf⟩ | ⟨key, hl2, rest, m, l, ht, hb, htr, hph, _, hbk⟩
    · exact absurd hp (hnf nt hl it)
    · rw [hph] at hp
      cases hp
      rw [hbk, hb] at hn
      rw [htr]
      have hnf := newestFirst_reachable hs hl
      rw [hb, List.pairwise_cons] at hnf
      rcases List.mem_cons.1 hn with h1 | h1
      · rw [h1]; simp
      · have := hnf.1 n h1
        omega
  | ret nt0 hl0 it0 hp0 =>
    intro nt hl it hp n hn hle
    have hnf := newestFirst_reachable hs hl0
    cases hna : nodeAfter it0 (bucket s hl0) with
    | none =>
      rw [handler_return_none hna] at hp
      cases hp
    | some m =>
      rw [handler_return_some hna] at hp hn ⊢
      cases hp
      have hn2 : n ∈ bucket s hl0 := hn
      show Ev.fire n ∈ s.trace ++ [Ev.fire m]
      rcases nodeAfter_dec hnf hna n hn2 hle with e | e
      · rw [e]; simp
      · exact List.mem_append_left _ (h nt0 hl0 it0 hp0 n hn2 e)

theorem passed_reachable {s : State} (h : Reachable s) : Passed s := by
  induction h with
  | refl => intro nt hl it hp; simp [init] at hp
  | tail hab hbc ih => exact passed_step hab ih hbc

theorem fired_lt_nextNode {s : State} (hs : Reachable s) {n : Node}
    (h : Ev.fire n ∈ s.trace) : n.id < s.nextNode := by
  obtain ⟨k, hk⟩ := fired_was_scheduled hs n h
  have := mem_schedIds hk
  rw [schedIds_reachable hs] at this
  exact List.mem_range.1 this

theorem fire_mem_timeout_trace {now us host : Nat} {s : State} {n : Node}
    (h : Ev.fire n ∈ (timeout now us host s).1.trace) : Ev.fire n ∈ s.trace := by
  rw [timeout_trace_eq] at h
  rcases List.mem_append.1 h with h1 | h1
  · exact h1
  · exfalso
    rcases List.mem_cons.1 h1 with h2 | h2
    · cases h2
    · split_ifs at h2 <;> simp at h2

theorem unfired_step {s t : State} (hs : Reachable s) (h : Unfired s) (hst : Step s t) :
    Unfired t := by
  have hw := wf_reachable hs
  cases hst with
  | schedule now us host hc hu =>
    intro n b hf hn
    have hf2 := fire_mem_timeout_trace hf
    rw [timeout_phase]
    rcases (mem_timeout_bucket hw.refs_lt).1 hn with ⟨_, e⟩ | m
    · exfalso
      have := fired_lt_nextNode hs hf2
      rw [e] at this
      exact Nat.lt_irrefl _ this
    · exact h n b hf2 m
  | cancel th hc hl2 =>
    intro n b hf hn
    rw [cancel_trace] at hf
    rw [cancel_phase]
    exact h n b hf (mem_cancel_bucket hn)
  | deliver w ws now hp0 hwt0 =>
    intro n b hf hn
    exfalso
    rw [completion_trace] at hf
    rw [completion_bucket] at hn
    obtain ⟨nt, it, e⟩ := h n b hf hn
    rw [hp0] at e
    cases e
  | loop nt0 hp0 =>
    intro n b hf hn
    rcases loop_step_cases nt0 s with ⟨ext, htr, hnf, _⟩ | ⟨key, hl2, rest, m, l, ht, hb, htr, hph, _, hbk⟩
    · exfalso
      rw [htr] at hf
      have hf2 : Ev.fire n ∈ s.trace := by
        rcases List.mem_append.1 hf with h1 | h1
        · exact h1
        · exact absurd h1 (hnf n)
      have hn2 : n ∈ bucket s b := by
        rcases loop_step_bucket_sub nt0 s b with e | e <;> rw [e] at hn
        · exact hn
        · simp at hn
      obtain ⟨nt, it, e⟩ := h n b hf2 hn2
      rw [hp0] at e
      cases e
    · rw [htr] at hf
      rw [hbk] at hn
      rw [hph]
      rcases List.mem_append.1 hf with h1 | h1
      · exfalso
        obtain ⟨nt, it, e⟩ := h n b h1 hn
        rw [hp0] at e
        cases e
      · simp only [List.mem_singleton, Ev.fire.injEq] at h1
        subst h1
        have hm : n ∈ bucket s hl2 := by rw [hb]; simp
        have := hw.ids_inj b hl2 n n hn hm rfl
        subst this
        exact ⟨nt0, n.id, rfl⟩
  | ret nt0 hl0 it0 hp0 =>
    intro n b hf hn
    cases hna : nodeAfter it0 (bucket s hl0) with
    | none =>
      exfalso
      rw [handler_return_none hna] at hf hn
      have hf2 : Ev.fire n ∈ s.trace := hf
      have hn2 : n ∈ (s.heap.set hl0 []).getD b [] := hn
      rw [getD_clear] at hn2
      split at hn2
      · simp at hn2
      · rename_i hne
        obtain ⟨nt, it, e⟩ := h n b hf2 hn2
        rw [hp0] at e
        cases e
        exact hne rfl
    | some m =>
      rw [handler_return_some hna] at hf hn ⊢
      have hf2 : Ev.fire n ∈ s.trace ++ [Ev.fire m] := hf
      have hn2 : n ∈ bucket s b := hn
      show ∃ nt it, Phase.firing nt0 hl0 m.id = Phase.firing nt b it
      have hb : b = hl0 := by
        rcases List.mem_append.1 hf2 with h1 | h1
        · obtain ⟨nt, it, e⟩ := h n b h1 hn2
          rw [hp0] at e
          cases e
          rfl
        · simp only [List.mem_singleton, Ev.fire.injEq] at h1
          subst h1
          exact hw.ids_inj b hl0 n n hn2 (nodeAfter_mem hna) rfl
      subst hb
      exact ⟨nt0, m.id, rfl⟩

theorem unfired_reachable {s : State} (h : Reachable s) : Unfired s := by
  induction h with
  | refl => intro n b hf; simp [init] at hf
  | tail hab hbc ih => exact unfired_step hab ih hbc

theorem loop_step_nil {nt : Nat} {s : State} (ht : s.handlerTable = []) :
    loop_step nt s = { s with looping := false, strand := false, phase := Phase.idle } := by
  unfold loop_step
  rw [ht]

theorem loop_step_far {nt key hl : Nat} {rest : List (Nat × Nat)} {s : State}
    (ht : s.handlerTable = (key, hl) :: rest) (hk : key > (nt + 500) % U64) :
    loop_step nt s =
      timer_loop ((key + U64 - nt) % U64) { s with extFinishTime := key, phase := Phase.idle } := by
  unfold loop_step
  rw [ht]
  simp only [hk, if_true]

theorem loop_step_empty {nt key hl : Nat} {rest : List (Nat × Nat)} {s : State}
    (ht : s.handlerTable = (key, hl) :: rest) (hk : ¬ key > (nt + 500) % U64)
    (hb : bucket s hl = []) :
    loop_step nt s =
      { s with handlerTable := rest, heap := s.heap.set hl [], phase := Phase.loop nt } := by
  have hb2 : s.heap.getD hl [] = [] := hb
  unfold loop_step
  rw [ht]
  simp only [hk, if_false, bucket, hb2]

theorem loop_step_fire {nt key hl : Nat} {rest : List (Nat × Nat)} {s : State} {m : Node}
    {l : List Node} (ht : s.handlerTable = (key, hl) :: rest) (hk : ¬ key > (nt + 500) % U64)
    (hb : bucket s hl = m :: l) :
    loop_step nt s =
      { s with handlerTable := rest, phase := Phase.firing nt hl m.id,
               trace := s.trace ++ [Ev.fire m] } := by
  have hb2 : s.heap.getD hl [] = m :: l := hb
  unfold loop_step
  rw [ht]
  simp only [hk, if_false, bucket, hb2]

theorem erased_history {s : State} {cs : List Nat} (h : History s cs) :
    ∀ i ∈ cs, i < s.nextNode ∧ ∀ b n, n ∈ bucket s b → n.id ≠ i := by
  induction h with
  | start => intro i hi; simp at hi
  | schedule s cs now us host hh hc hu ih =>
    intro i hi
    exact gone_step (wf_reachable (history_reachable hh)) (Step.schedule s now us host hc hu)
      (ih i hi).1 (ih i hi).2
  | cancel s cs th hh hc hl ih =>
    intro i hi
    have hw := wf_reachable (history_reachable hh)
    rcases List.mem_cons.1 hi with e | e
    · subst e
      obtain ⟨b0, host, e1, e2, _⟩ := hl
      refine ⟨by rw [cancel_nextNode]; exact hw.ids_lt b0 _ e2, ?_⟩
      intro b n hn hid
      rw [cancel_bucket] at hn
      split at hn
      · have h2 := (List.mem_filter.1 hn).2
        simp only [ne_eq, decide_not, Bool.not_eq_true', decide_eq_false_iff_not] at h2
        exact h2 hid
      · rename_i hne
        have hb := hw.ids_inj b b0 n ⟨th.handlerNode, host⟩ hn e2 hid
        subst hb
        exact hne e1
    · exact gone_step hw (Step.cancel s th hc hl) (ih i e).1 (ih i e).2
  | deliver s cs w ws now hh hp hw0 ih =>
    intro i hi
    exact gone_step (wf_reachable (history_reachable hh)) (Step.deliver s w ws now hp hw0)
      (ih i hi).1 (ih i hi).2
  | loop s cs nt hh hp ih =>
    intro i hi
    exact gone_step (wf_reachable (history_reachable hh)) (Step.loop s nt hp)
      (ih i hi).1 (ih i hi).2
  | ret s cs nt hl it hh hp ih =>
    intro i hi
    exact gone_step (wf_reachable (history_reachable hh)) (Step.ret s nt hl it hp)
      (ih i hi).1 (ih i hi).2

theorem sched_mem_timer_loop {us : Nat} {s : State} {k : Nat} {n : Node}
    (h : Ev.sched k n ∈ (timer_loop us s).trace) : Ev.sched k n ∈ s.trace := by
  have h2 : Ev.sched k n ∈ s.trace ++ [Ev.arm us (s.timerCount + 1)] := h
  rcases List.mem_append.1 h2 with h1 | h1
  · exact h1
  · simp at h1

theorem placed_history {s : State} {cs : List Nat} (h : History s cs) : Placed s cs := by
  induction h with
  | start => intro k n hk; simp [init] at hk
  | schedule s cs now us host hh hc hu ih =>
    have hw := wf_reachable (history_reachable hh)
    intro k n hk
    rw [timeout_trace_eq] at hk
    rcases List.mem_append.1 hk with h1 | h1
    · rcases ih k n h1 with ⟨b, hb, hn⟩ | hf | hc2 | ⟨nt, hl, it, hp, hn⟩
      · exact Or.inl ⟨b, mem_timeout_table hb, (mem_timeout_bucket hw.refs_lt).2 (Or.inr hn)⟩
      · exact Or.inr (Or.inl (step_trace_mono (Step.schedule s now us host hc hu) hf))
      · exact Or.inr (Or.inr (Or.inl hc2))
      · refine Or.inr (Or.inr (Or.inr ⟨nt, hl, it, ?_, ?_⟩))
        · rw [timeout_phase]; exact hp
        · exact (mem_timeout_bucket hw.refs_lt).2 (Or.inr hn)
    · rcases List.mem_cons.1 h1 with h2 | h2
      · cases h2
        exact Or.inl ⟨_, tableFind_some_mem (timeout_find now us host s),
          (mem_timeout_bucket hw.refs_lt).2 (Or.inl ⟨rfl, rfl⟩)⟩
      · exfalso
        split_ifs at h2 <;> simp at h2
  | cancel s cs th hh hc hl ih =>
    have hw := wf_reachable (history_reachable hh)
    intro k n hk
    rw [cancel_trace] at hk
    by_cases hid : n.id = th.handlerNode
    · exact Or.inr (Or.inr (Or.inl (by rw [hid]; exact List.mem_cons_self _ _)))
    · have keep : ∀ b, n ∈ bucket s b → n ∈ bucket (cancel th s).1 b := by
        intro b hn
        rw [cancel_bucket]
        split
        · exact List.mem_filter.2 ⟨hn, by simpa using hid⟩
        · exact hn
      rcases ih k n hk with ⟨b, hb, hn⟩ | hf | hc2 | ⟨nt, hl2, it, hp, hn⟩
      · left
        refine ⟨b, ?_, keep b hn⟩
        rw [cancel_handlerTable]
        split
        · rename_i he
          refine mem_tableErase.2 ⟨hb, ?_⟩
          intro hkk
          have hkk2 : k = th.tableNode := hkk
          obtain ⟨b0, e1, e2⟩ := live_empties_in_table hw hl he
          rw [hkk2] at hb
          have hbb := sorted_key_unique hw.sorted hb e2
          subst hbb
          unfold empties at he
          rw [e1] at he
          simp only [List.isEmpty_eq_true] at he
          have hm : n ∈ (bucket s b).filter (fun n => n.id ≠ th.handlerNode) :=
            List.mem_filter.2 ⟨hn, by simpa using hid⟩
          rw [he] at hm
          simp at hm
        · exact hb
      · exact Or.inr (Or.inl (by rw [cancel_trace]; exact hf))
      · exact Or.inr (Or.inr (Or.inl (List.mem_cons_of_mem _ hc2)))
      · refine Or.inr (Or.inr (Or.inr ⟨nt, hl2, it, ?_, keep hl2 hn⟩))
        rw [cancel_phase]; exact hp
  | deliver s cs w ws now hh hp hw0 ih =>
    intro k n hk
    rw [completion_trace] at hk
    rcases ih k n hk with ⟨b, hb, hn⟩ | hf | hc2 | ⟨nt, hl2, it, hp2, hn⟩
    · left
      refine ⟨b, ?_, ?_⟩
      · rw [completion_handlerTable]; exact hb
      · rw [completion_bucket]; exact hn
    · exact Or.inr (Or.inl (by rw [completion_trace]; exact hf))
    · exact Or.inr (Or.inr (Or.inl hc2))
    · exfalso
      rw [hp] at hp2
      cases hp2
  | loop s cs nt hh hp ih =>
    have hs := history_reachable hh
    have hw := wf_reachable hs
    intro k n hk
    cases ht : s.handlerTable with
    | nil =>
      rw [loop_step_nil ht] at hk ⊢
      rcases ih k n hk with ⟨b, hb, hn⟩ | hf | hc2 | ⟨nt2, hl2, it, hp2, hn⟩
      · exact Or.inl ⟨b, hb, hn⟩
      · exact Or.inr (Or.inl hf)
      · exact Or.inr (Or.inr (Or.inl hc2))
      · exfalso
        rw [hp] at hp2
        cases hp2
    | cons e rest =>
      obtain ⟨key, hl⟩ := e
      by_cases hfar : key > (nt + 500) % U64
      · rw [loop_step_far ht hfar] at hk ⊢
        rcases ih k n (sched_mem_timer_loop hk) with ⟨b, hb, hn⟩ | hf | hc2 | ⟨nt2, hl2, it, hp2, hn⟩
        · exact Or.inl ⟨b, hb, hn⟩
        · exact Or.inr (Or.inl (List.mem_append_left _ hf))
        · exact Or.inr (Or.inr (Or.inl hc2))
        · exfalso
          rw [hp] at hp2
          cases hp2
      · cases hb0 : bucket s hl with
        | nil =>
          exfalso
          exact (tableInv_reachable hs).nonempty (key, hl) (by rw [ht]; simp) hb0
        | cons m l =>
          rw [loop_step_fire ht hfar hb0] at hk ⊢
          have hk2 : Ev.sched k n ∈ s.trace ++ [Ev.fire m] := hk
          have hk3 : Ev.sched k n ∈ s.trace := by
            rcases List.mem_append.1 hk2 with h1 | h1
            · exact h1
            · simp at h1
          rcases ih k n hk3 with ⟨b, hb, hn⟩ | hf | hc2 | ⟨nt2, hl2, it, hp2, hn⟩
          · rw [ht] at hb
            rcases List.mem_cons.1 hb with h1 | h1
            · cases h1
              exact Or.inr (Or.inr (Or.inr ⟨nt, hl, m.id, rfl, hn⟩))
            · exact Or.inl ⟨b, h1, hn⟩
          · exact Or.inr (Or.inl (List.mem_append_left _ hf))
          · exact Or.inr (Or.inr (Or.inl hc2))
          · exfalso
            rw [hp] at hp2
            cases hp2
  | ret s cs nt hl it hh hp ih =>
    have hs := history_reachable hh
    have hw := wf_reachable hs
    intro k n hk
    cases hna : nodeAfter it (bucket s hl) with
    | none =>
      rw [handler_return_none hna] at hk ⊢
      have hk2 : Ev.sched k n ∈ s.trace := hk
      rcases ih k n hk2 with ⟨b, hb, hn⟩ | hf | hc2 | ⟨nt2, hl2, it2, hp2, hn⟩
      · left
        refine ⟨b, hb, ?_⟩
        show n ∈ (s.heap.set hl []).getD b []
        rw [getD_clear]
        split
        · rename_i e
          subst e
          exact absurd hb ((hw.firing nt b it hp).1 k)
        · exact hn
      · exact Or.inr (Or.inl hf)
      · exact Or.inr (Or.inr (Or.inl hc2))
      · rw [hp] at hp2
        cases hp2
        obtain ⟨_, host, hm⟩ := hw.firing nt hl it hp
        have hlast := nodeAfter_none_last (newestFirst_reachable hs hl) ⟨_, hm, rfl⟩ hna n hn
        exact Or.inr (Or.inl (passed_reachable hs nt hl it hp n hn hlast))
    | some m =>
      rw [handler_return_some hna] at hk ⊢
      have hk2 : Ev.sched k n ∈ s.trace ++ [Ev.fire m] := hk
      have hk3 : Ev.sched k n ∈ s.trace := by
        rcases List.mem_append.1 hk2 with h1 | h1
        · exact h1
        · simp at h1
      rcases ih k n hk3 with ⟨b, hb, hn⟩ | hf | hc2 | ⟨nt2, hl2, it2, hp2, hn⟩
      · exact Or.inl ⟨b, hb, hn⟩
      · exact Or.inr (Or.inl (List.mem_append_left _ hf))
      · exact Or.inr (Or.inr (Or.inl hc2))
      · rw [hp] at hp2
        cases hp2
        exact Or.inr (Or.inr (Or.inr ⟨nt, hl, m.id, rfl, hn⟩))

theorem history_scenario_same_quantum : History scenario_same_quantum [] :=
  History.schedule _ [] 0 1010 2
    (History.schedule init [] 0 1000 1 History.start rfl (by unfold us_in_range; norm_num))
    rfl (by unfold us_in_range; norm_num)

/-- C17, refuted as stated. With the clock at 0, `schedule(1000, A)` and
`schedule(1010, B)` put A and B in the bucket of key 768.  The completion of the
wait, run at clock 1000, detaches that bucket and enters the handler of B, which
calls `schedule(0, C)`.  After this schedule the index holds the key 768 again,
with a bucket that holds C only; A was scheduled with the key 768, has not been
fired and nothing was cancelled, and A is not in the bucket at key 768. -/
theorem index_misses_detached_handler :
    History scenario_reentrant_same_key [] ∧
    scenario_reentrant_same_key.handlerTable = [(768, 1)] ∧
    bucket scenario_reentrant_same_key 1 = [⟨2, 3⟩] ∧
    Ev.sched 768 ⟨0, 1⟩ ∈ scenario_reentrant_same_key.trace ∧
    Ev.fire ⟨0, 1⟩ ∉ scenario_reentrant_same_key.trace ∧
    scenario_reentrant_same_key.phase = Phase.firing 1000 0 1 ∧
    bucket scenario_reentrant_same_key 0 = [⟨1, 2⟩, ⟨0, 1⟩] :=
  ⟨History.schedule _ [] 1000 0 3
      (History.loop _ [] 1000
        (History.deliver scenario_same_quantum [] ⟨1, 1000, false⟩ [] 1000
          history_scenario_same_quantum rfl rfl)
        rfl)
      rfl (by unfold us_in_range; norm_num),
    by decide, by decide, by decide, by decide, by decide, by decide⟩

/-- C17, amended. In every state the timer reaches (after every schedule, cancel and
sweep step, re-entrant calls included, `cs` being the nodes `cancel` was called
for): no bucket of the index is empty; the keys are in strictly ascending order,
so no key occurs twice; every key is a multiple of 256; every node of the bucket
at key `k` was scheduled with the quantized deadline `k`, has not been fired and
has not been cancelled; and every node scheduled with the quantized deadline `k`
that has been neither fired nor cancelled is in the bucket at key `k` or in the
bucket a running sweep has detached and is firing.  In particular, while no
completion handler runs, the bucket at key `k` holds exactly the handlers
scheduled with `k` that are neither fired nor cancelled. -/
theorem index_well_formed (s : State) (cs : List Nat) (h : History s cs) :
    (∀ e ∈ s.handlerTable, bucket s e.2 ≠ []) ∧
    Sorted s.handlerTable ∧
    (s.handlerTable.map Prod.fst).Nodup ∧
    (∀ e ∈ s.handlerTable, 256 ∣ e.1) ∧
    (∀ k b n, (k, b) ∈ s.handlerTable → n ∈ bucket s b →
      Ev.sched k n ∈ s.trace ∧ Ev.fire n ∉ s.trace ∧ n.id ∉ cs) ∧
    (∀ k n, Ev.sched k n ∈ s.trace → Ev.fire n ∉ s.trace → n.id ∉ cs →
      (∃ b, (k, b) ∈ s.handlerTable ∧ n ∈ bucket s b) ∨
      (∃ nt hl it, s.phase = Phase.firing nt hl it ∧ n ∈ bucket s hl)) ∧
    (s.phase = Phase.idle →
      ∀ k n, Ev.sched k n ∈ s.trace → Ev.fire n ∉ s.trace → n.id ∉ cs →
        ∃ b, (k, b) ∈ s.handlerTable ∧ n ∈ bucket s b) := by
  have hs := history_reachable h
  have hw := wf_reachable hs
  have hti := tableInv_reachable hs
  have hpl := placed_history h
  refine ⟨hti.nonempty, hw.sorted, ?_, hti.aligned, ?_, ?_, ?_⟩
  · exact List.pairwise_map.2 (hw.sorted.imp (fun hlt => Nat.ne_of_lt hlt))
  · intro k b n hb hn
    refine ⟨(keyed_reachable hs).table k b n hb hn, ?_, ?_⟩
    · intro hf
      obtain ⟨nt, it, hp⟩ := unfired_reachable hs n b hf hn
      exact (hw.firing nt b it hp).1 k hb
    · intro hc
      exact (erased_history h n.id hc).2 b n hn rfl
  · intro k n hk hnf hnc
    rcases hpl k n hk with h1 | h1 | h1 | h1
    · exact Or.inl h1
    · exact absurd h1 hnf
    · exact absurd h1 hnc
    · exact Or.inr h1
  · intro hp k n hk hnf hnc
    rcases hpl k n hk with h1 | h1 | h1 | ⟨nt, hl, it, hp2, _⟩
    · exact h1
    · exact absurd h1 hnf
    · exact absurd h1 hnc
    · rw [hp] at hp2
      cases hp2

/-- C17 amended, on the run `schedule(1000, A)`, `schedule(1010, B)`, `cancel` of the
handle of A: the index holds the key 768 with the bucket `[B]`, and what it
holds was scheduled with 768 and is neither fired nor cancelled. -/
theorem index_well_formed_witness :
    History scenario_cancel_first [0] ∧
    scenario_cancel_first.handlerTable = [(768, 0)] ∧
    bucket scenario_cancel_first 0 = [⟨1, 2⟩] ∧
    (∀ k b n, (k, b) ∈ scenario_cancel_first.handlerTable → n ∈ bucket scenario_cancel_first b →
      Ev.sched k n ∈ scenario_cancel_first.trace ∧ Ev.fire n ∉ scenario_cancel_first.trace ∧
      n.id ∉ [0]) :=
  ⟨History.cancel scenario_same_quantum [] (timeout 0 1000 1 init).2
      history_scenario_same_quantum rfl ⟨0, 1, rfl, by decide, Or.inl (by decide)⟩,
    by decide, by decide,
    (index_well_formed scenario_cancel_first [0]
      (History.cancel scenario_same_quantum [] (timeout 0 1000 1 init).2
        history_scenario_same_quantum rfl ⟨0, 1, rfl, by decide, Or.inl (by decide)⟩)).2.2.2.2.1⟩

/-! ## Calls of `timeout` from inside a handler -/

/-- A `timeout` that finds the timer looping and armed for a deadline that is not
later only adds the node: the counter, the waits, `_looping` and
`_extFinishTime` stay as they are and nothing is armed. -/
theorem timeout_quiet (now us host : Nat) {s : State} (hl : s.looping = true)
    (hge : s.extFinishTime ≤ quantize now us) :
    (timeout now us host s).1.timerCount = s.timerCount ∧
    (timeout now us host s).1.waits = s.waits ∧
    (timeout now us host s).1.looping = s.looping ∧
    (timeout now us host s).1.extFinishTime = s.extFinishTime ∧
    (timeout now us host s).1.trace =
      s.trace ++ [Ev.sched (quantize now us) ⟨s.nextNode, host⟩] := by
  have hnl : ¬ (s.looping = false) := by rw [hl]; simp
  have hnlt : ¬ (quantize now us < s.extFinishTime) := by omega
  refine ⟨?_, ?_, ?_, ?_, ?_⟩
  · rw [timeout_timerCount, if_neg hnl, if_neg hnlt]
  · rw [timeout_waits, if_neg hnl, if_neg hnlt]
  · rw [timeout_looping, hl]
  · rw [timeout_extFinishTime, if_neg hnl, if_neg hnlt]
  · rw [timeout_trace_eq, if_neg hnl, if_neg hnlt]

theorem sweeping_inv {nt : Nat} {s : State} (h : Sweeping nt s) :
    Reachable s ∧ (s.phase ≠ Phase.idle → s.extFinishTime = 0) ∧
    (∀ nt2 hl it, s.phase = Phase.firing nt2 hl it → s.looping = true) := by
  induction h with
  | start s w ws now hs hp hw htc hnt =>
    refine ⟨hs.tail (Step.deliver s w ws now hp hw), ?_, ?_⟩
    · intro _
      have e : w.tc = ({ s with waits := ws } : State).timerCount := htc
      unfold completion
      rw [if_pos e]
    · intro nt2 hl it hph
      exfalso
      have hp1 : ({ s with waits := ws } : State).phase = Phase.idle := hp
      rcases completion_phase_cases w.tc now hp1 with e | e <;> rw [e] at hph <;> cases hph
  | loop s hsw hp ih =>
    obtain ⟨hs, hf, hl⟩ := ih
    have hf0 : s.extFinishTime = 0 := hf (by rw [hp]; simp)
    refine ⟨hs.tail (Step.loop s nt hp), ?_, ?_⟩
    · cases ht : s.handlerTable with
      | nil =>
        rw [loop_step_nil ht]
        intro hne
        exact absurd rfl hne
      | cons e rest =>
        obtain ⟨key, b⟩ := e
        by_cases hfar : key > (nt + 500) % U64
        · rw [loop_step_far ht hfar]
          intro hne
          exact absurd rfl hne
        · cases hb0 : bucket s b with
          | nil =>
            rw [loop_step_empty ht hfar hb0]
            intro _
            exact hf0
          | cons m l =>
            rw [loop_step_fire ht hfar hb0]
            intro _
            exact hf0
    · cases ht : s.handlerTable with
      | nil =>
        rw [loop_step_nil ht]
        intro nt2 hl2 it hph
        cases hph
      | cons e rest =>
        obtain ⟨key, b⟩ := e
        by_cases hfar : key > (nt + 500) % U64
        · rw [loop_step_far ht hfar]
          intro nt2 hl2 it hph
          cases hph
        · cases hb0 : bucket s b with
          | nil =>
            rw [loop_step_empty ht hfar hb0]
            intro nt2 hl2 it hph
            cases hph
          | cons m l =>
            rw [loop_step_fire ht hfar hb0]
            intro nt2 hl2 it _
            show s.looping = true
            cases hlp : s.looping with
            | true => rfl
            | false =>
              have := (balanced_reachable hs).pending hlp
              rw [ht] at this
              cases this
  | ret s hl0 it0 hsw hp ih =>
    obtain ⟨hs, hf, hl⟩ := ih
    have hf0 : s.extFinishTime = 0 := hf (by rw [hp]; simp)
    refine ⟨hs.tail (Step.ret s nt hl0 it0 hp), ?_, ?_⟩
    · intro _
      cases hna : nodeAfter it0 (bucket s hl0) with
      | none => rw [handler_return_none hna]; exact hf0
      | some m => rw [handler_return_some hna]; exact hf0
    · intro nt2 hl2 it hph
      cases hna : nodeAfter it0 (bucket s hl0) with
      | none =>
        rw [handler_return_none hna] at hph
        cases hph
      | some m =>
        rw [handler_return_some hna]
        exact hl nt hl0 it0 hp
  | schedule s hl0 it0 now us host hsw hp hu ih =>
    obtain ⟨hs, hf, hl⟩ := ih
    have hf0 : s.extFinishTime = 0 := hf (by rw [hp]; simp)
    have hlp := hl nt hl0 it0 hp
    have hq := timeout_quiet now us host hlp (by rw [hf0]; exact Nat.zero_le _)
    refine ⟨hs.tail (Step.schedule s now us host (by rw [hp]; rfl) hu), ?_, ?_⟩
    · intro _
      rw [hq.2.2.2.1]
      exact hf0
    · intro nt2 hl2 it _
      exact timeout_looping now us host s
  | cancel s hl0 it0 th hsw hp hlive hns ih =>
    obtain ⟨hs, hf, hl⟩ := ih
    have hf0 : s.extFinishTime = 0 := hf (by rw [hp]; simp)
    have hlp := hl nt hl0 it0 hp
    have hw := wf_reachable hs
    refine ⟨hs.tail (Step.cancel s th (by rw [hp]; rfl) hlive), ?_, ?_⟩
    · intro _
      rw [(cancel_cases th s).1]
      exact hf0
    · intro nt2 hl2 it _
      rcases (cancel_cases th s).2 with ⟨h1, h2, _⟩ | ⟨_, h2, _⟩
      · exact absurd ((empties_last_iff_sole hw hlive).1 ⟨h1, h2⟩) hns
      · rw [h2]
        exact hlp

theorem mem_fired {tr : List Ev} {n : Node} : n ∈ fired tr ↔ Ev.fire n ∈ tr := by
  induction tr with
  | nil => simp [fired]
  | cons e rest ih =>
    have hc : fired (e :: rest) = fired [e] ++ fired rest := fired_append [e] rest
    rw [hc, List.mem_append, ih, List.mem_cons]
    cases e with
    | sched k m => simp [fired]
    | arm us tc => simp [fired]
    | fire m =>
      simp only [fired, List.filterMap_cons, List.filterMap_nil, List.mem_singleton,
        Ev.fire.injEq]

theorem armStamps_map_fire (l : List Node) : armStamps (l.map Ev.fire) = [] := by
  induction l with
  | nil => rfl
  | cons a rest ih =>
    have hc : armStamps (Ev.fire a :: rest.map Ev.fire) =
        armStamps [Ev.fire a] ++ armStamps (rest.map Ev.fire) :=
      armStamps_append [Ev.fire a] (rest.map Ev.fire)
    rw [List.map_cons, hc, ih]
    rfl

theorem sweep_one_loop {nt : Nat} {s : State} (hp : s.phase = Phase.loop nt) :
    sweep 1 s = loop_step nt s := by
  have hne : s.phase ≠ Phase.idle := by rw [hp]; simp
  rw [sweep_succ 0 hne]
  simp only [sweep, sweep_step, hp]

/-- How a sweep ends, its handlers returning without calling the timer: either no
entry of the table is left past the due ones and the timer stops looping, arming
nothing; or the sweep arms one wait, for the first entry that is not due. -/
theorem sweep_loop_end (nt : Nat) : ∀ (table : List (Nat × Nat)) (s : State),
    s.phase = Phase.loop nt → s.handlerTable = table →
    (∀ b, ((bucket s b).map Node.id).Nodup) →
    ∃ f, (sweep f s).phase = Phase.idle ∧
      ((table.filter (fun e => !due nt e.1) = [] ∧ (sweep f s).looping = false ∧
          (sweep f s).timerCount = s.timerCount ∧ (sweep f s).waits = s.waits ∧
          armStamps (sweep f s).trace = armStamps s.trace) ∨
        (∃ key hl rest, table.filter (fun e => !due nt e.1) = (key, hl) :: rest ∧
          (sweep f s).extFinishTime = key ∧ (sweep f s).looping = s.looping ∧
          (sweep f s).timerCount = s.timerCount + 1 ∧
          (sweep f s).waits =
            os_cancel s.waits ++ [⟨s.timerCount + 1, (key + U64 - nt) % U64, false⟩] ∧
          armStamps (sweep f s).trace = armStamps s.trace ++ [s.timerCount + 1])) := by
  intro table
  induction table with
  | nil =>
    intro s hp ht _
    refine ⟨1, ?_, Or.inl ?_⟩
    · rw [sweep_one_loop hp, loop_step_nil ht]
    · rw [sweep_one_loop hp, loop_step_nil ht]
      exact ⟨rfl, rfl, rfl, rfl, rfl⟩
  | cons a rest ih =>
    intro s hp ht hnd
    obtain ⟨key, hl⟩ := a
    by_cases hd : key > (nt + 500) % U64
    · refine ⟨1, ?_, Or.inr ⟨key, hl, rest.filter (fun e => !due nt e.1), ?_, ?_⟩⟩
      · rw [sweep_one_loop hp, loop_step_far ht hd]
        rfl
      · simp [List.filter_cons, due, hd]
      · rw [sweep_one_loop hp, loop_step_far ht hd]
        refine ⟨rfl, rfl, rfl, rfl, ?_⟩
        show armStamps (s.trace ++ [Ev.arm ((key + U64 - nt) % U64) (s.timerCount + 1)]) = _
        rw [armStamps_append]
        rfl
    · have hb := sweep_bucket hp ht hd (hnd hl)
      have hdue : due nt key = true := by simp [due, hd]
      have hfil : ((key, hl) :: rest).filter (fun e => !due nt e.1) =
          rest.filter (fun e => !due nt e.1) := by
        simp [List.filter_cons, hdue]
      have e1 : (sweep ((bucket s hl).length + 1) s).timerCount = s.timerCount := by rw [hb]
      have e2 : (sweep ((bucket s hl).length + 1) s).waits = s.waits := by rw [hb]
      have e3 : (sweep ((bucket s hl).length + 1) s).looping = s.looping := by rw [hb]
      have e4 : armStamps (sweep ((bucket s hl).length + 1) s).trace = armStamps s.trace := by
        rw [hb]
        show armStamps (s.trace ++ (bucket s hl).map Ev.fire) = _
        rw [armStamps_append, armStamps_map_fire, List.append_nil]
      obtain ⟨f, h1, h2⟩ := ih (sweep ((bucket s hl).length + 1) s)
        (by rw [hb]) (by rw [hb])
        (fun b => by
          rw [hb]
          show (((s.heap.set hl []).getD b []).map Node.id).Nodup
          rw [getD_clear]
          split
          · simp
          · exact hnd b)
      refine ⟨((bucket s hl).length + 1) + f, ?_, ?_⟩
      · rw [sweep_add]; exact h1
      · rw [sweep_add, hfil]
        rw [e1, e2, e3, e4] at h2
        exact h2

/-- The rest of a sweep from inside a handler, the handlers returning without calling
the timer: the sweep fires the nodes `post` that follow in the detached bucket,
then the due buckets of the table, and ends; the entries that are not due stay,
and it arms one wait, for the first of them, if there is one. -/
theorem sweep_from_handler {nt hl it : Nat} {t : State} (hw : WF t)
    (hp : t.phase = Phase.firing nt hl it) :
    ∃ f post, (∀ n ∈ post, n ∈ bucket t hl) ∧
      (sweep f t).phase = Phase.idle ∧
      (sweep f t).handlerTable = t.handlerTable.filter (fun e => !due nt e.1) ∧
      fired (sweep f t).trace = fired t.trace ++ post ++
        (t.handlerTable.filter (fun e => due nt e.1)).flatMap (fun e => bucket t e.2) ∧
      (∀ b, b ≠ hl → bucket (sweep f t) b =
        if b ∈ (t.handlerTable.filter (fun e => due nt e.1)).map Prod.snd then []
        else bucket t b) ∧
      ((t.handlerTable.filter (fun e => !due nt e.1) = [] ∧ (sweep f t).looping = false ∧
          (sweep f t).timerCount = t.timerCount ∧ (sweep f t).waits = t.waits ∧
          armStamps (sweep f t).trace = armStamps t.trace) ∨
        (∃ key b rest, t.handlerTable.filter (fun e => !due nt e.1) = (key, b) :: rest ∧
          (sweep f t).extFinishTime = key ∧ (sweep f t).looping = t.looping ∧
          (sweep f t).timerCount = t.timerCount + 1 ∧
          (sweep f t).waits =
            os_cancel t.waits ++ [⟨t.timerCount + 1, (key + U64 - nt) % U64, false⟩] ∧
          armStamps (sweep f t).trace = armStamps t.trace ++ [t.timerCount + 1])) := by
  obtain ⟨hnot, host0, hm⟩ := hw.firing nt hl it hp
  obtain ⟨pre, post, hsplit⟩ := List.append_of_mem hm
  have hnd : ((pre ++ (⟨it, host0⟩ : Node) :: post).map Node.id).Nodup := by
    rw [← hsplit]; exact hw.ids_nodup hl
  have hfr := sweep_fire_rest nt hl post pre ⟨it, host0⟩ t hp hsplit hnd
  have hex : ∃ t1 : State, t1 =
      { t with heap := t.heap.set hl [], phase := Phase.loop nt,
               trace := t.trace ++ post.map Ev.fire } := ⟨_, rfl⟩
  obtain ⟨t1, ht1⟩ := hex
  rw [← ht1] at hfr
  have a1 : t1.phase = Phase.loop nt := by rw [ht1]
  have a2 : t1.handlerTable = t.handlerTable := by rw [ht1]
  have a3 : t1.trace = t.trace ++ post.map Ev.fire := by rw [ht1]
  have a4 : ∀ b, bucket t1 b = if b = hl then [] else bucket t b := by
    intro b; rw [ht1]; exact getD_clear t.heap hl b
  have a5 : t1.timerCount = t.timerCount := by rw [ht1]
  have a6 : t1.waits = t.waits := by rw [ht1]
  have a7 : t1.looping = t.looping := by rw [ht1]
  have nodup1 : ∀ b, ((bucket t1 b).map Node.id).Nodup := by
    intro b
    rw [a4]
    split
    · simp
    · exact hw.ids_nodup b
  have hsame : ∀ e ∈ t.handlerTable, bucket t1 e.2 = bucket t e.2 := by
    intro e he
    rw [a4, if_neg]
    intro h2
    apply hnot e.1
    rw [← h2]
    exact he
  obtain ⟨f1, _, p1, tab1, fired1, bk1⟩ :=
    sweep_loop nt t.handlerTable t1 a1 a2 hw.sorted hw.refs_inj nodup1
  obtain ⟨f2, q1, q2⟩ := sweep_loop_end nt t.handlerTable t1 a1 a2 nodup1
  have s12 : sweep f2 t1 = sweep f1 t1 := by
    have x1 : sweep (f1 + f2) t1 = sweep f1 t1 := by rw [sweep_add, sweep_idle _ p1]
    have x2 : sweep (f2 + f1) t1 = sweep f2 t1 := by rw [sweep_add, sweep_idle _ q1]
    rw [← x2, Nat.add_comm, x1]
  have hF : sweep ((post.length + 1) + f1) t = sweep f1 t1 := by rw [sweep_add, hfr]
  refine ⟨(post.length + 1) + f1, post, ?_, ?_, ?_, ?_, ?_, ?_⟩
  · intro n hn
    rw [hsplit]
    exact List.mem_append_right _ (List.mem_cons_of_mem _ hn)
  · rw [hF]; exact p1
  · rw [hF]; exact tab1
  · rw [hF, fired1, a3, fired_append, fired_map_fire]
    congr 1
    exact List.flatMap_congr (fun e he => hsame e (List.mem_filter.1 he).1)
  · intro b hb
    rw [hF, bk1 b, a4, if_neg hb]
  · rw [hF, ← s12]
    rw [a5, a6, a7, a3, armStamps_append, armStamps_map_fire, List.append_nil] at q2
    exact q2

theorem reachable_early_release_in_handler : Reachable early_release_in_handler := by
  have h1 : Step init (timeout 0 1000 1 init).1 :=
    Step.schedule init 0 1000 1 rfl (by unfold us_in_range; norm_num)
  have h2 : Step (timeout 0 1000 1 init).1 early_release_scheduled.1 :=
    Step.schedule _ 0 5000 2 rfl (by unfold us_in_range; norm_num)
  have h3 : Step early_release_scheduled.1
      (completion 1 1000 { early_release_scheduled.1 with waits := [] }) :=
    Step.deliver early_release_scheduled.1 ⟨1, 1000, false⟩ [] 1000 rfl rfl
  have h4 : Step (completion 1 1000 { early_release_scheduled.1 with waits := [] })
      early_release_in_handler :=
    Step.loop _ 1000 rfl
  exact Relation.ReflTransGen.tail (Relation.ReflTransGen.tail (Relation.ReflTransGen.tail
    (Relation.ReflTransGen.tail Relation.ReflTransGen.refl h1) h2) h3) h4

theorem reachable_scenario_due_cancelled_final : Reachable scenario_due_cancelled_final := by
  have h5 : Step early_release_in_handler (timeout 1000 500 3 early_release_in_handler).1 :=
    Step.schedule _ 1000 500 3 rfl (by unfold us_in_range; norm_num)
  have h6 : Step (timeout 1000 500 3 early_release_in_handler).1 scenario_due_cancelled :=
    Step.cancel _ (timeout 1000 500 3 early_release_in_handler).2 rfl
      ⟨2, 3, rfl, by decide, Or.inl (by decide)⟩
  exact Relation.ReflTransGen.trans
    (Relation.ReflTransGen.tail (Relation.ReflTransGen.tail
      reachable_early_release_in_handler h5) h6)
    (steps_sweep 4 scenario_due_cancelled)

theorem sweeping_scenario_reentrant :
    Sweeping 1000
      (loop_step 1000 (completion 1 1000 { (timeout 0 1000 1 init).1 with waits := [] })) :=
  Sweeping.loop _
    (Sweeping.start (timeout 0 1000 1 init).1 ⟨1, 1000, false⟩ [] 1000
      reachable_after_one_timeout rfl rfl rfl (by decide))
    rfl

/-- C19, refuted as stated, by two runs.  First run: `schedule(1000, A)` and
`schedule(5000, D)` at clock 0; the sweep of clock 1000 enters the handler of A,
which cancels the handle of D and then calls `schedule(9000, C)`: this schedule
call arms the OS timer and moves the counter from 2 to 3.  Second run: from the
same handler of A, `schedule(500, B)` (key 1280, which is at most `now + 500`)
followed by `cancel` of the handle of B: the sweep ends without firing B. -/
theorem reentrant_schedule_arms_or_never_fires :
    (Reachable (cancel early_release_scheduled.2 early_release_in_handler).1 ∧
      (cancel early_release_scheduled.2 early_release_in_handler).1.phase =
        Phase.firing 1000 0 0 ∧
      (cancel early_release_scheduled.2 early_release_in_handler).1.timerCount = 2 ∧
      (cancel early_release_scheduled.2 early_release_in_handler).1.waits = [] ∧
      early_release_reentered.timerCount = 3 ∧
      early_release_reentered.waits = [⟨3, 9000, false⟩]) ∧
    (Reachable scenario_due_cancelled_final ∧
      (timeout 1000 500 3 early_release_in_handler).1.phase = Phase.firing 1000 0 0 ∧
      (timeout 1000 500 3 early_release_in_handler).1.timerCount =
        early_release_in_handler.timerCount ∧
      Ev.sched 1280 ⟨2, 3⟩ ∈ scenario_due_cancelled_final.trace ∧
      1280 ≤ (1000 + 500) % U64 ∧
      scenario_due_cancelled_final.phase = Phase.idle ∧
      fired scenario_due_cancelled_final.trace = [⟨0, 1⟩]) :=
  ⟨⟨reachable_early_release_in_handler.tail
      (Step.cancel _ _ rfl ⟨1, 2, rfl, by decide, Or.inl (by decide)⟩),
      by decide, by decide, by decide, by decide, by decide⟩,
    ⟨reachable_scenario_due_cancelled_final, by decide, by decide, by decide, by decide,
      by decide, by decide⟩⟩

/-- C19, amended. Let a sweep that read the clock as `nt` be inside the handler of a
node, no handler of the sweep having cancelled the only handler the index held,
and let the handler call `schedule(us, B)`.  The call arms no wait and changes
neither the counter nor the outstanding waits: `looping` is true and
`finish_time` is 0 before and after it, and the call only logs B.  If the
handlers still to run return without calling the timer, the sweep ends, and:
if the quantized deadline of B is at most `nt + 500`, B is fired before the
sweep ends (after the call); otherwise B is not fired, and the sweep ends by
arming the timer once, with the counter stepped once, for the smallest key the
index then holds, which is at most the key of B.  In the scenario where A is
scheduled with 1000 and the handler of A schedules B with 500 at clock 1000, A
fires, then B fires, the index is empty and `looping` is false at the end. -/
theorem reentrant_schedule (nt : Nat) (s : State) (hl it now us host : Nat)
    (h : Sweeping nt s) (hp : s.phase = Phase.firing nt hl it) :
    ((timeout now us host s).1.timerCount = s.timerCount ∧
      (timeout now us host s).1.waits = s.waits ∧
      (timeout now us host s).1.trace =
        s.trace ++ [Ev.sched (quantize now us) ⟨s.nextNode, host⟩] ∧
      (timeout now us host s).1.looping = true ∧
      (timeout now us host s).1.extFinishTime = 0 ∧
      s.looping = true ∧ s.extFinishTime = 0) ∧
    (∃ f, (sweep f (timeout now us host s).1).phase = Phase.idle ∧
      (quantize now us ≤ (nt + 500) % U64 →
        Ev.fire ⟨s.nextNode, host⟩ ∉ (timeout now us host s).1.trace ∧
        Ev.fire ⟨s.nextNode, host⟩ ∈ (sweep f (timeout now us host s).1).trace) ∧
      (quantize now us > (nt + 500) % U64 →
        Ev.fire ⟨s.nextNode, host⟩ ∉ (sweep f (timeout now us host s).1).trace ∧
        ∃ key b rest,
          (sweep f (timeout now us host s).1).handlerTable = (key, b) :: rest ∧
          (∀ e ∈ rest, key < e.1) ∧ key ≤ quantize now us ∧
          (sweep f (timeout now us host s).1).extFinishTime = key ∧
          (sweep f (timeout now us host s).1).looping = true ∧
          (sweep f (timeout now us host s).1).timerCount = s.timerCount + 1 ∧
          (sweep f (timeout now us host s).1).waits =
            os_cancel s.waits ++ [⟨s.timerCount + 1, (key + U64 - nt) % U64, false⟩] ∧
          armStamps (sweep f (timeout now us host s).1).trace =
            armStamps s.trace ++ [s.timerCount + 1])) ∧
    (fired scenario_reentrant_final.trace = [⟨0, 1⟩, ⟨1, 2⟩] ∧
      scenario_reentrant_final.handlerTable = [] ∧
      scenario_reentrant_final.phase = Phase.idle ∧
      scenario_reentrant_final.looping = false) := by
  obtain ⟨hs, hf, hlp0⟩ := sweeping_inv h
  have hf0 : s.extFinishTime = 0 := hf (by rw [hp]; simp)
  have hlp := hlp0 nt hl it hp
  obtain ⟨q1, q2, q3, q4, q5⟩ :=
    timeout_quiet now us host hlp (by rw [hf0]; exact Nat.zero_le _)
  have hw := wf_reachable hs
  have hwt := wf_timeout now us host hw
  have hpt : (timeout now us host s).1.phase = Phase.firing nt hl it := by
    rw [timeout_phase]; exact hp
  have hnotB : Ev.fire ⟨s.nextNode, host⟩ ∉ (timeout now us host s).1.trace := by
    intro hfB
    have := fired_lt_nextNode hs (fire_mem_timeout_trace hfB)
    exact Nat.lt_irrefl _ this
  have hBtab := tableFind_some_mem (timeout_find now us host s)
  have hBin : (⟨s.nextNode, host⟩ : Node) ∈ bucket (timeout now us host s).1
      ((tableFind (quantize now us) s.handlerTable).getD s.heap.length) :=
    (mem_timeout_bucket hw.refs_lt).2 (Or.inl ⟨rfl, rfl⟩)
  have ha : armStamps (timeout now us host s).1.trace = armStamps s.trace := by
    rw [q5, armStamps_append]
    simp [armStamps]
  generalize (tableFind (quantize now us) s.handlerTable).getD s.heap.length = bB at hBtab hBin
  generalize quantize now us = et at hBtab q5 ⊢
  generalize (timeout now us host s).1 = t at q1 q2 q3 q4 q5 hwt hpt hnotB hBtab hBin ha ⊢
  obtain ⟨f, post, hpost, e1, e2, e3, e4, e5⟩ := sweep_from_handler hwt hpt
  have hbne : bB ≠ hl := by
    intro e
    rw [e] at hBtab
    exact (hwt.firing nt hl it hpt).1 et hBtab
  have huniq : ∀ e ∈ t.handlerTable, (⟨s.nextNode, host⟩ : Node) ∈ bucket t e.2 → e.1 = et := by
    intro e he hin
    have hb := hwt.ids_inj e.2 bB _ _ hin hBin rfl
    exact hwt.refs_inj e.1 et bB (by rw [← hb]; exact he) hBtab
  refine ⟨⟨q1, q2, q5, by rw [q3]; exact hlp, by rw [q4]; exact hf0, hlp, hf0⟩,
    ⟨f, e1, ?_, ?_⟩, by decide, by decide, by decide, by decide⟩
  · intro hdue
    refine ⟨hnotB, mem_fired.1 ?_⟩
    rw [e3]
    apply List.mem_append_right
    refine List.mem_flatMap.2 ⟨(et, bB), List.mem_filter.2 ⟨hBtab, ?_⟩, hBin⟩
    simp only [due, Bool.not_eq_true', decide_eq_false_iff_not]
    omega
  · intro hfar
    have hnd : due nt et = false := by
      simp only [due, Bool.not_eq_false', decide_eq_true_eq]
      exact hfar
    constructor
    · intro hfB
      have hm := mem_fired.2 hfB
      rw [e3] at hm
      rcases List.mem_append.1 hm with h1 | h1
      · rcases List.mem_append.1 h1 with h2 | h2
        · exact hnotB (mem_fired.1 h2)
        · exact hbne (hwt.ids_inj bB hl _ _ hBin (hpost _ h2) rfl)
      · obtain ⟨e, he, hin⟩ := List.mem_flatMap.1 h1
        have hk := huniq e (List.mem_filter.1 he).1 hin
        have hd := (List.mem_filter.1 he).2
        rw [hk, hnd] at hd
        cases hd
    · have hBfil : (et, bB) ∈ t.handlerTable.filter (fun e => !due nt e.1) :=
        List.mem_filter.2 ⟨hBtab, by simp [hnd]⟩
      rcases e5 with ⟨hnil, _⟩ | ⟨key, b, rest, hfil, g1, g2, g3, g4, g5⟩
      · rw [hnil] at hBfil
        cases hBfil
      · have hsorted : Sorted ((key, b) :: rest) := by
          rw [← hfil]
          exact List.Pairwise.sublist (List.filter_sublist _) hwt.sorted
        rw [hfil] at hBfil
        refine ⟨key, b, rest, by rw [e2, hfil], (List.pairwise_cons.1 hsorted).1,
          sorted_head_le hsorted hBfil, g1, by rw [g2, q3]; exact hlp, by rw [g3, q1],
          by rw [g4, q2, q1], by rw [g5, ha, q1]⟩

/-- C19 amended, on scenario 6: the sweep of clock 1000 is inside the handler of A when
the handler calls `schedule(500, B)`; the call leaves the counter and the waits
as they are. -/
theorem reentrant_schedule_witness :
    Sweeping 1000
      (loop_step 1000 (completion 1 1000 { (timeout 0 1000 1 init).1 with waits := [] })) ∧
    (loop_step 1000 (completion 1 1000 { (timeout 0 1000 1 init).1 with waits := [] })).phase =
      Phase.firing 1000 0 0 ∧
    scenario_reentrant_scheduled.1.timerCount =
      (loop_step 1000
        (completion 1 1000 { (timeout 0 1000 1 init).1 with waits := [] })).timerCount ∧
    scenario_reentrant_scheduled.1.waits =
      (loop_step 1000
        (completion 1 1000 { (timeout 0 1000 1 init).1 with waits := [] })).waits :=
  ⟨sweeping_scenario_reentrant, rfl,
    (reentrant_schedule 1000 _ 0 0 1000 500 2 sweeping_scenario_reentrant rfl).1.1,
    (reentrant_schedule 1000 _ 0 0 1000 500 2 sweeping_scenario_reentrant rfl).1.2.1⟩

/-! ## The authoritative wait -/

theorem map_tc_os_cancel (ws : List Wait) : (os_cancel ws).map Wait.tc = ws.map Wait.tc := by
  unfold os_cancel
  rw [List.map_map]
  rfl

theorem isSuffix_snoc {a b : List Int} (x : Int) (h : List.IsSuffix a b) :
    List.IsSuffix (a ++ [x]) (b ++ [x]) := by
  obtain ⟨t, ht⟩ := h
  exact ⟨t, by rw [← List.append_assoc, ht]⟩

theorem completion_waits (tc : Int) (now : Nat) (s : State) :
    (completion tc now s).waits = s.waits := by
  unfold completion; split_ifs <;> rfl

theorem outstanding_timer_loop (us : Nat) {s : State} (h : Outstanding s) :
    Outstanding (timer_loop us s) := by
  unfold Outstanding at h ⊢
  show List.IsSuffix ((os_cancel s.waits ++ [(⟨s.timerCount + 1, us, false⟩ : Wait)]).map Wait.tc)
    (armStamps (s.trace ++ [Ev.arm us (s.timerCount + 1)]))
  rw [List.map_append, map_tc_os_cancel, armStamps_append]
  exact isSuffix_snoc _ h

theorem outstanding_step {s t : State} (h : Outstanding s) (hst : Step s t) : Outstanding t := by
  cases hst with
  | schedule now us host _ _ =>
    unfold Outstanding at h ⊢
    rw [timeout_waits, timeout_trace_eq]
    split_ifs
    · rw [List.map_append, map_tc_os_cancel, armStamps_append]
      exact isSuffix_snoc _ h
    · rw [List.map_append, map_tc_os_cancel, map_tc_os_cancel, armStamps_append]
      exact isSuffix_snoc _ h
    · rw [armStamps_append]
      simpa [armStamps] using h
  | cancel th _ hl =>
    unfold Outstanding at h ⊢
    rw [cancel_trace]
    rcases (cancel_cases th s).2 with ⟨_, _, _, _, e, _⟩ | ⟨_, _, _, e⟩
    · rw [e, map_tc_os_cancel]; exact h
    · rw [e]; exact h
  | deliver w ws now hp hw =>
    unfold Outstanding at h ⊢
    rw [completion_waits, completion_trace]
    rw [hw] at h
    exact List.IsSuffix.trans (List.suffix_cons _ _) h
  | loop nt hp =>
    cases ht : s.handlerTable with
    | nil =>
      rw [loop_step_nil ht]
      exact h
    | cons e rest =>
      obtain ⟨key, b⟩ := e
      by_cases hfar : key > (nt + 500) % U64
      · rw [loop_step_far ht hfar]
        exact outstanding_timer_loop _ h
      · cases hb0 : bucket s b with
        | nil =>
          rw [loop_step_empty ht hfar hb0]
          exact h
        | cons m l =>
          rw [loop_step_fire ht hfar hb0]
          unfold Outstanding at h ⊢
          show List.IsSuffix (s.waits.map Wait.tc) (armStamps (s.trace ++ [Ev.fire m]))
          rw [armStamps_append]
          simpa [armStamps] using h
  | ret nt hl it hp =>
    cases hna : nodeAfter it (bucket s hl) with
    | none =>
      rw [handler_return_none hna]
      exact h
    | some m =>
      rw [handler_return_some hna]
      unfold Outstanding at h ⊢
      show List.IsSuffix (s.waits.map Wait.tc) (armStamps (s.trace ++ [Ev.fire m]))
      rw [armStamps_append]
      simpa [armStamps] using h

theorem outstanding_reachable {s : State} (h : Reachable s) : Outstanding s := by
  induction h with
  | refl => exact ⟨[], rfl⟩
  | tail _ hbc ih => exact outstanding_step ih hbc

theorem lastStamp_split {l : List Wait} {c : Int} (h : lastStamp l = some c) :
    ∃ ws w, l = ws ++ [w] ∧ w.tc = c := by
  induction l with
  | nil => simp [lastStamp] at h
  | cons a rest ih =>
    cases rest with
    | nil =>
      simp only [lastStamp, Option.some.injEq] at h
      exact ⟨[], a, rfl, h⟩
    | cons b r =>
      simp only [lastStamp] at h
      obtain ⟨ws, w, e, hw⟩ := ih h
      exact ⟨a :: ws, w, by rw [e]; rfl, hw⟩

theorem liveWait_timer_loop (us : Nat) (s : State) :
    ∃ ws w, (timer_loop us s).waits = ws ++ [w] ∧ w.tc = (timer_loop us s).timerCount ∧
      w.aborted = false :=
  ⟨os_cancel s.waits, ⟨s.timerCount + 1, us, false⟩, rfl, rfl, rfl⟩

theorem completion_looping (tc : Int) (now : Nat) (s : State) :
    (completion tc now s).looping = s.looping := by
  unfold completion; split_ifs <;> rfl

theorem completion_phase_auth {tc : Int} {s : State} (now : Nat) (h : tc = s.timerCount) :
    (completion tc now s).phase = Phase.loop (now % U64) := by
  unfold completion
  rw [if_pos h]

theorem liveWait_step {s t : State} (h : LiveWait s) (hst : Step s t) : LiveWait t := by
  cases hst with
  | schedule now us host _ _ =>
    intro hp _
    rw [timeout_phase] at hp
    rw [timeout_waits, timeout_timerCount]
    by_cases hl : s.looping = false
    · rw [if_pos hl, if_pos hl]
      exact ⟨_, ⟨s.timerCount + 1, us, false⟩, rfl, rfl, rfl⟩
    · rw [if_neg hl, if_neg hl]
      by_cases hlt : quantize now us < s.extFinishTime
      · rw [if_pos hlt, if_pos hlt]
        exact ⟨_, ⟨s.timerCount + 1 + 1, us, false⟩, rfl, rfl, rfl⟩
      · rw [if_neg hlt, if_neg hlt]
        exact h hp (by simpa using hl)
  | cancel th _ hl =>
    intro hp hlp
    rw [cancel_phase] at hp
    rcases (cancel_cases th s).2 with ⟨_, _, e, _⟩ | ⟨_, e1, e2, e3⟩
    · rw [e] at hlp
      cases hlp
    · rw [e1] at hlp
      rw [e2, e3]
      exact h hp hlp
  | deliver w ws now hp hw =>
    intro hp2 hlp
    rw [completion_looping] at hlp
    rw [completion_waits, completion_timerCount]
    have hlp1 : s.looping = true := hlp
    have h1 : ¬ w.tc = s.timerCount := by
      intro e
      rw [completion_phase_auth (s := { s with waits := ws }) now e] at hp2
      cases hp2
    obtain ⟨ws2, w2, e, htc, hab⟩ := h hp hlp1
    rw [hw] at e
    cases ws2 with
    | nil =>
      simp only [List.nil_append, List.cons.injEq] at e
      rw [e.1] at h1
      exact absurd htc h1
    | cons a r =>
      simp only [List.cons_append, List.cons.injEq] at e
      exact ⟨r, w2, e.2, htc, hab⟩
  | loop nt hp =>
    cases ht : s.handlerTable with
    | nil =>
      rw [loop_step_nil ht]
      intro _ hlp
      cases hlp
    | cons e rest =>
      obtain ⟨key, b⟩ := e
      by_cases hfar : key > (nt + 500) % U64
      · rw [loop_step_far ht hfar]
        intro _ _
        exact liveWait_timer_loop _ _
      · cases hb0 : bucket s b with
        | nil =>
          rw [loop_step_empty ht hfar hb0]
          intro hp2 _
          cases hp2
        | cons m l =>
          rw [loop_step_fire ht hfar hb0]
          intro hp2 _
          cases hp2
  | ret nt hl it hp =>
    cases hna : nodeAfter it (bucket s hl) with
    | none =>
      rw [handler_return_none hna]
      intro hp2 _
      cases hp2
    | some m =>
      rw [handler_return_some hna]
      intro hp2 _
      cases hp2

theorem liveWait_reachable {s : State} (h : Reachable s) : LiveWait s := by
  induction h with
  | refl => intro _ hl; simp [init] at hl
  | tail _ hbc ih => exact liveWait_step ih hbc

/-- C21. An authoritative wait is outstanding while work is pending. In every
reachable state in which no completion runs and `looping` is true: the wait
armed last carries the current counter; it is outstanding (its completion has not
been delivered: it is the last of the outstanding waits) and has not been
cancelled; every other outstanding wait carries a smaller stamp, so exactly one
outstanding completion is authoritative; and the table is not empty. -/
theorem authoritative_wait_outstanding (s : State) (hs : Reachable s)
    (hp : s.phase = Phase.idle) (hl : s.looping = true) :
    (armStamps s.trace).getLast? = some s.timerCount ∧
    (∃ ws w, s.waits = ws ++ [w] ∧ w.tc = s.timerCount ∧ w.aborted = false ∧
      ∀ v ∈ ws, v.tc < s.timerCount) ∧
    s.waits.countP (fun v => v.tc = s.timerCount) = 1 ∧
    s.handlerTable ≠ [] := by
  obtain ⟨ws, w, e, htc, hab⟩ := liveWait_reachable hs hp hl
  obtain ⟨pre, hpre⟩ := outstanding_reachable hs
  have hinc := (arms_increasing_steps hs List.Pairwise.nil
    (fun tc htc => by simp [init, armStamps] at htc)).1
  rw [e, List.map_append, List.map_singleton, htc] at hpre
  have hlt : ∀ v ∈ ws, v.tc < s.timerCount := by
    intro v hv
    rw [← hpre] at hinc
    have h2 := (List.pairwise_append.1 (List.pairwise_append.1 hinc).2.1).2.2
    exact h2 v.tc (List.mem_map_of_mem _ hv) s.timerCount (List.mem_singleton_self _)
  refine ⟨?_, ⟨ws, w, e, htc, hab, hlt⟩, ?_, looping_idle_nonempty hs hp hl⟩
  · rw [← hpre, ← List.append_assoc]
    simp
  · rw [e, List.countP_append]
    have h0 : ws.countP (fun v => v.tc = s.timerCount) = 0 := by
      rw [List.countP_eq_zero]
      intro v hv
      have := hlt v hv
      simp only [decide_eq_true_eq]
      omega
    rw [h0]
    simp [htc]

/-- C21 on the batching scenario: two handlers are pending, the timer is looping, and
the only outstanding wait is the one stamped 1, the current counter. -/
theorem authoritative_wait_outstanding_witness :
    Reachable scenario_batching ∧ scenario_batching.phase = Phase.idle ∧
    scenario_batching.looping = true ∧ scenario_batching.timerCount = 1 ∧
    scenario_batching.waits = [⟨1, 1000, false⟩] ∧
    (armStamps scenario_batching.trace).getLast? = some scenario_batching.timerCount :=
  ⟨reachable_scenario_batching, by decide, by decide, by decide, by decide,
    (authoritative_wait_outstanding scenario_batching reachable_scenario_batching
      (by decide) (by decide)).1⟩

/-! ## The deadline the timer is armed for -/

theorem keys_lt_reachable {s : State} (h : Reachable s) : ∀ e ∈ s.handlerTable, e.1 < U64 := by
  induction h with
  | refl => intro e he; simp [init] at he
  | tail _ hbc ih =>
    cases hbc with
    | schedule now us host _ _ =>
      intro e he
      rcases timeout_table_cases he with h1 | ⟨h1, _⟩
      · exact ih e h1
      · rw [h1]
        have := quantize_lt_max now us
        unfold UINT64_MAX at this
        unfold U64
        show quantize now us < 2 ^ 64
        omega
    | cancel th _ hl => exact fun e he => ih e (mem_cancel_table he)
    | deliver w ws now hp hw =>
      intro e he
      rw [completion_handlerTable] at he
      exact ih e he
    | loop nt hp =>
      intro e he
      rcases loop_step_table_cases nt _ with ⟨h1, _⟩ | ⟨key, hl, rest, h1, h2, _⟩
      · rw [h1] at he
        exact ih e he
      · rw [h2] at he
        exact ih e (by rw [h1]; exact List.mem_cons_of_mem _ he)
    | ret nt hl it hp =>
      intro e he
      rw [handler_return_handlerTable] at he
      exact ih e he

theorem notLate_step {s t : State} (hs : Reachable s) (h : NotLate s) (hst : Step s t) :
    NotLate t := by
  have hw := wf_reachable hs
  cases hst with
  | schedule now us host _ _ =>
    intro _ e he
    rw [timeout_extFinishTime]
    by_cases hl : s.looping = false
    · rw [if_pos hl]
      rcases timeout_table_cases he with h1 | ⟨h1, _⟩
      · rw [(balanced_reachable hs).pending hl] at h1
        cases h1
      · rw [h1]
    · rw [if_neg hl]
      have hlp : s.looping = true := by simpa using hl
      by_cases hlt : quantize now us < s.extFinishTime
      · rw [if_pos hlt]
        rcases timeout_table_cases he with h1 | ⟨h1, _⟩
        · have := h hlp e h1
          omega
        · rw [h1]
      · rw [if_neg hlt]
        rcases timeout_table_cases he with h1 | ⟨h1, _⟩
        · exact h hlp e h1
        · rw [h1]
          show s.extFinishTime ≤ quantize now us
          omega
  | cancel th _ hl =>
    intro hlp e he
    rw [(cancel_cases th s).1]
    rcases (cancel_cases th s).2 with ⟨_, _, e1, _⟩ | ⟨_, e1, _⟩
    · rw [e1] at hlp
      cases hlp
    · rw [e1] at hlp
      exact h hlp e (mem_cancel_table he)
  | deliver w ws now hp hwt =>
    intro hlp e he
    rw [completion_looping] at hlp
    rw [completion_handlerTable] at he
    unfold completion
    split_ifs
    · exact Nat.zero_le _
    · exact h hlp e he
    · exact h hlp e he
  | loop nt hp =>
    cases ht : s.handlerTable with
    | nil =>
      rw [loop_step_nil ht]
      intro hlp
      cases hlp
    | cons e0 rest =>
      obtain ⟨key, b⟩ := e0
      have hsorted : Sorted ((key, b) :: rest) := by rw [← ht]; exact hw.sorted
      by_cases hfar : key > (nt + 500) % U64
      · rw [loop_step_far ht hfar]
        intro _ e he
        have he2 : e ∈ s.handlerTable := he
        rw [ht] at he2
        exact sorted_head_le hsorted he2
      · cases hb0 : bucket s b with
        | nil =>
          rw [loop_step_empty ht hfar hb0]
          intro hlp e he
          exact h hlp e (by rw [ht]; exact List.mem_cons_of_mem _ he)
        | cons m l =>
          rw [loop_step_fire ht hfar hb0]
          intro hlp e he
          exact h hlp e (by rw [ht]; exact List.mem_cons_of_mem _ he)
  | ret nt hl it hp =>
    cases hna : nodeAfter it (bucket s hl) with
    | none =>
      rw [handler_return_none hna]
      exact h
    | some m =>
      rw [handler_return_some hna]
      exact h

theorem notLate_reachable {s : State} (h : Reachable s) : NotLate s := by
  induction h with
  | refl => intro hl; simp [init] at hl
  | tail hab hbc ih => exact notLate_step hab ih hbc

/-- The duration a sweep rearms with: the first key is more than 500 past the clock
reading, so the difference does not wrap and is more than 500. -/
theorem rearm_duration {nt key : Nat} (hk : key < U64) (hnt : nt + 500 < U64)
    (hfar : key > (nt + 500) % U64) :
    (key + U64 - nt) % U64 = key - nt ∧ 500 < key - nt ∧ nt + (key - nt) = key := by
  rw [Nat.mod_eq_of_lt hnt] at hfar
  have e : key + U64 - nt = (key - nt) + U64 := by omega
  rw [e, Nat.add_mod_right, Nat.mod_eq_of_lt (by omega)]
  omega

theorem reachable_early_release_reentered : Reachable early_release_reentered :=
  (reachable_early_release_in_handler.tail
    (Step.cancel _ early_release_scheduled.2 rfl ⟨1, 2, rfl, by decide, Or.inl (by decide)⟩)).tail
    (Step.schedule _ 1000 9000 3 rfl (by unfold us_in_range; norm_num))

/-- C22 fails on the code in its parenthesis. In the run `schedule(1000, A);
schedule(5000, B)` at clock 0, then at clock 1000 the completion of the wait, in
which the handler of A cancels B and calls `schedule(9000, C)`, the state reached
is inside the running sweep with `looping` true and `_extFinishTime = 9984`,
not 0.  The rest of the claim holds: in every reachable state with `looping`
true, `_extFinishTime` is at most every key of the table; in the states of a
sweep in which no handler has cancelled the only handler of the table,
`_extFinishTime` is 0; and when a sweep that read a clock value `nt` with
`nt + 500 < 2^64` rearms the timer, it does so for the smallest key of the
table, with the duration `key - nt`, which does not wrap and is more than 500. -/
theorem finish_time_nonzero_in_sweep :
    (Reachable early_release_reentered ∧
      early_release_reentered.phase = Phase.firing 1000 0 0 ∧
      early_release_reentered.looping = true ∧
      early_release_reentered.extFinishTime = 9984 ∧
      early_release_reentered.handlerTable = [(9984, 2)]) ∧
    (∀ s, Reachable s → s.looping = true →
      ∀ e ∈ s.handlerTable, s.extFinishTime ≤ e.1) ∧
    (∀ nt s, Sweeping nt s → s.phase ≠ Phase.idle → s.extFinishTime = 0) ∧
    (∀ s nt key hl rest, Reachable s → s.phase = Phase.loop nt →
      s.handlerTable = (key, hl) :: rest → key > (nt + 500) % U64 → nt + 500 < U64 →
      (loop_step nt s).waits =
        os_cancel s.waits ++ [⟨s.timerCount + 1, key - nt, false⟩] ∧
      500 < key - nt ∧ nt + (key - nt) = key ∧
      (loop_step nt s).extFinishTime = key ∧
      (loop_step nt s).looping = s.looping ∧
      ∀ e ∈ (loop_step nt s).handlerTable, key ≤ e.1) := by
  refine ⟨⟨reachable_early_release_reentered, by decide, by decide, by decide, by decide⟩,
    fun s hs => notLate_reachable hs, fun nt s h => (sweeping_inv h).2.1, ?_⟩
  intro s nt key hl rest hs hp ht hfar hnt
  have hk : key < U64 := keys_lt_reachable hs (key, hl) (by rw [ht]; exact List.mem_cons_self _ _)
  obtain ⟨d1, d2, d3⟩ := rearm_duration hk hnt hfar
  have hsorted : Sorted ((key, hl) :: rest) := by rw [← ht]; exact (wf_reachable hs).sorted
  rw [loop_step_far ht hfar]
  refine ⟨?_, d2, d3, rfl, rfl, ?_⟩
  · show os_cancel s.waits ++ [(⟨s.timerCount + 1, (key + U64 - nt) % U64, false⟩ : Wait)] = _
    rw [d1]
  · intro e he
    have he2 : e ∈ s.handlerTable := he
    rw [ht] at he2
    exact sorted_head_le hsorted he2

/-! ## Requests and the bucket they land in -/

/-- A request lands in the bucket the table holds at its key: for an entry `(k, b)` of
the table, `timeout` returns a handle on `b` exactly when its key is `k`. -/
theorem lands_in_bucket_iff {t : State} (hw : WF t) {k b : Nat}
    (hb : (k, b) ∈ t.handlerTable) (now us host : Nat) :
    (timeout now us host t).2.handlerList = some b ↔ quantize now us = k := by
  rw [timeout_handlerList]
  constructor
  · intro h
    have h1 : (tableFind (quantize now us) t.handlerTable).getD t.heap.length = b :=
      Option.some.inj h
    cases hf : tableFind (quantize now us) t.handlerTable with
    | none =>
      rw [hf] at h1
      have h2 : t.heap.length = b := h1
      have := hw.refs_lt _ hb
      simp only at this
      omega
    | some c =>
      rw [hf] at h1
      have h2 : c = b := h1
      rw [h2] at hf
      exact hw.refs_inj _ _ b (tableFind_some_mem hf) hb
  · intro h
    rw [h]
    cases hf : tableFind k t.handlerTable with
    | none => exact absurd hb (tableFind_none_not_mem hf b)
    | some c =>
      have := sorted_key_unique hw.sorted (tableFind_some_mem hf) hb
      rw [this]
      rfl

theorem reachable_scenario_reentrant_same_key : Reachable scenario_reentrant_same_key :=
  (reachable_scenario_same_quantum_sweep.tail (Step.loop _ 1000 rfl)).tail
    (Step.schedule _ 1000 0 3 rfl (by unfold us_in_range; norm_num))

/-- C5, refuted as stated in its last clause. The request `schedule(1000, A)` at clock 0
and the request `schedule(0, C)` at clock 1000 have `(now + us) / 256 = 3` both,
and they do not land in the same bucket: in the run `schedule(1000, A);
schedule(1010, B)` at clock 0, then the completion at clock 1000 whose sweep is
in the handler of B when it calls `schedule(0, C)`, the handle of A is on the
bucket 0, which the sweep has detached and which still holds A, not fired, and
the handle of C is on the new bucket 1 of the key 768. -/
theorem equal_floors_different_buckets :
    Reachable scenario_reentrant_same_key ∧
    (0 + 1000) / 256 = (1000 + 0) / 256 ∧
    quantize 0 1000 = 768 ∧ quantize 1000 0 = 768 ∧
    (timeout 0 1000 1 init).2.handlerList = some 0 ∧
    (timeout 1000 0 3 (loop_step 1000 scenario_same_quantum_sweep)).2.handlerList = some 1 ∧
    (⟨0, 1⟩ : Node) ∈ bucket scenario_reentrant_same_key 0 ∧
    (⟨2, 3⟩ : Node) ∈ bucket scenario_reentrant_same_key 1 ∧
    (⟨0, 1⟩ : Node) ∉ bucket scenario_reentrant_same_key 1 ∧
    Ev.sched 768 ⟨0, 1⟩ ∈ scenario_reentrant_same_key.trace ∧
    Ev.sched 768 ⟨2, 3⟩ ∈ scenario_reentrant_same_key.trace ∧
    Ev.fire ⟨0, 1⟩ ∉ scenario_reentrant_same_key.trace :=
  ⟨reachable_scenario_reentrant_same_key, by decide, by decide, by decide, by decide,
    by decide, by decide, by decide, by decide, by decide, by decide, by decide⟩

/-- C5, amended. Quantization arithmetic: when `now + us` fits in 64 bits, the key `d`
under which `timeout` stores the handler (the key of the returned handle, whose
table entry is the bucket that holds the new node) is `now + us` with its low 8
bits cleared: `d = (now + us) / 256 * 256`, a multiple of 256 with
`d ≤ now + us ≤ d + 255`; two requests get the same key exactly when
`(now + us) / 256` agree.  A request made right after this one lands in the same
bucket exactly when `(now + us) / 256` agree.  And in every reachable state in
which a handler is pending in the table under the key `d`, in the bucket `b`
(it was scheduled with the key `d`), a request lands in `b` exactly when its
`(now + us) / 256` equals that of this request. -/
theorem quantization_arithmetic (now us host : Nat) (s : State)
    (hs : Reachable s) (h : now + us < 2 ^ 64) :
    quantize now us = (now + us) / 256 * 256 ∧
    256 ∣ quantize now us ∧
    quantize now us ≤ now + us ∧
    now + us - quantize now us ≤ 255 ∧
    (timeout now us host s).2.tableNode = quantize now us ∧
    (∃ hl, (timeout now us host s).2.handlerList = some hl ∧
      tableFind (quantize now us) (timeout now us host s).1.handlerTable = some hl ∧
      (⟨s.nextNode, host⟩ : Node) ∈ bucket (timeout now us host s).1 hl) ∧
    (∀ now2 us2, now2 + us2 < 2 ^ 64 →
      (quantize now us = quantize now2 us2 ↔ (now + us) / 256 = (now2 + us2) / 256)) ∧
    (∀ now2 us2 host2, now2 + us2 < 2 ^ 64 →
      ((timeout now2 us2 host2 (timeout now us host s).1).2.handlerList =
          (timeout now us host s).2.handlerList ↔
        (now + us) / 256 = (now2 + us2) / 256)) ∧
    (∀ t n b, Reachable t → (quantize now us, b) ∈ t.handlerTable → n ∈ bucket t b →
      Ev.sched (quantize now us) n ∈ t.trace ∧
      ∀ now2 us2 host2, now2 + us2 < 2 ^ 64 →
        ((timeout now2 us2 host2 t).2.handlerList = some b ↔
          (now + us) / 256 = (now2 + us2) / 256)) := by
  have hq : quantize now us = (now + us) / 256 * 256 := by
    rw [quantize_eq, Nat.mod_eq_of_lt h]
  have hkeys : ∀ now2 us2, now2 + us2 < 2 ^ 64 →
      (quantize now us = quantize now2 us2 ↔ (now + us) / 256 = (now2 + us2) / 256) := by
    intro now2 us2 h2
    rw [hq, quantize_eq, Nat.mod_eq_of_lt h2]
    omega
  refine ⟨hq, ?_, ?_, ?_, ?_, ?_, hkeys, ?_, ?_⟩
  · rw [hq]; exact Nat.dvd_mul_left _ _
  · rw [hq]; exact Nat.div_mul_le_self _ _
  · rw [hq]; omega
  · rw [timeout_handle]
  · refine ⟨_, timeout_handlerList now us host s, timeout_find now us host s, ?_⟩
    exact (mem_timeout_bucket (wf_reachable hs).refs_lt).2 (Or.inl ⟨rfl, rfl⟩)
  · intro now2 us2 host2 h2
    have hwt := wf_timeout now us host (wf_reachable hs)
    have hb := tableFind_some_mem (timeout_find now us host s)
    rw [timeout_handlerList now us host s, lands_in_bucket_iff hwt hb now2 us2 host2]
    constructor
    · intro e
      exact (hkeys now2 us2 h2).1 e.symm
    · intro e
      exact ((hkeys now2 us2 h2).2 e).symm
  · intro t n b ht hb hn
    refine ⟨(keyed_reachable ht).table _ b n hb hn, ?_⟩
    intro now2 us2 host2 h2
    rw [lands_in_bucket_iff (wf_reachable ht) hb now2 us2 host2]
    constructor
    · intro e
      exact (hkeys now2 us2 h2).1 e.symm
    · intro e
      exact ((hkeys now2 us2 h2).2 e).symm

/-- C5 amended, at concrete requests: on the fresh timer, `schedule(1000, A)` at clock
0 gets the key 768, and `schedule(1010, B)` made right after it lands in the same
bucket, `1000 / 256` and `1010 / 256` being both 3. -/
theorem quantization_arithmetic_witness :
    Reachable init ∧ 0 + 1000 < 2 ^ 64 ∧ quantize 0 1000 = (0 + 1000) / 256 * 256 ∧
    (timeout 0 1010 2 (timeout 0 1000 1 init).1).2.handlerList =
      (timeout 0 1000 1 init).2.handlerList :=
  ⟨Relation.ReflTransGen.refl, by norm_num,
    (quantization_arithmetic 0 1000 1 init Relation.ReflTransGen.refl (by norm_num)).1,
    ((quantization_arithmetic 0 1000 1 init Relation.ReflTransGen.refl
      (by norm_num)).2.2.2.2.2.2.2.1 0 1010 2 (by norm_num)).2 (by norm_num)⟩

end ActorTimer
